import Mathlib

/-!
Shallow embedding of the `rust-number-theory` repository (list-based dense
polynomials, rational matrices, orders, and the algorithms built on them),
together with theorems settling the specification claims.

Conventions used throughout:
* A Rust `Polynomial<R>` is a `List R` of coefficients, constant term first.
  `Polynomial::from_raw` is `fromRaw` (strips trailing zeros); the invariant
  "leading coefficient nonzero" is `IsPoly`.
* Rust `BigInt` is `Int`; Rust `BigRational` is `Rat`.
* Rust `/` and `%` on `BigInt` are truncating division: `Int.tdiv` / `Int.tmod`.
  `Integer::div_floor` / `mod_floor` from the `num` crate are `Int.fdiv` /
  `Int.fmod`.  `Integer::gcd` is `Int.gcd` (non-negative).
* Loops whose termination is data dependent are given explicit fuel; the fuel
  passed by the wrappers is large enough for the executions considered.
-/

namespace RustNT

/-- Coefficient of `x^n` in a raw coefficient list: `Polynomial::coef_at`. -/
def coeff {R : Type} [Zero R] (l : List R) (n : ℕ) : R := l.getD n 0

/-- `Polynomial::from_raw`: drop trailing zero coefficients. -/
def fromRaw {R : Type} [Zero R] [DecidableEq R] (l : List R) : List R :=
  l.rdropWhile (fun x => x = 0)

/-- The data invariant of `Polynomial<R>`: empty, or last coefficient nonzero. -/
def IsPoly {R : Type} [Zero R] (l : List R) : Prop :=
  ∀ x, l.getLast? = some x → x ≠ 0

/-- `impl Add for Polynomial`: coefficientwise sum, then `from_raw`. -/
def polyAdd {R : Type} [AddCommMonoid R] [DecidableEq R] (a b : List R) : List R :=
  if a = [] then b else if b = [] then a else
  fromRaw ((List.range (max a.length b.length)).map (fun i => coeff a i + coeff b i))

/-- `impl Neg for Polynomial`: negate every coefficient. -/
def polyNeg {R : Type} [Ring R] (a : List R) : List R := a.map (fun x => -x)

/-- `impl Sub for Polynomial`: coefficientwise difference, then `from_raw`. -/
def polySub {R : Type} [Ring R] [DecidableEq R] (a b : List R) : List R :=
  if a = [] then polyNeg b else if b = [] then a else
  fromRaw ((List.range (max a.length b.length)).map (fun i => coeff a i - coeff b i))

/-- `impl Mul for Polynomial`: schoolbook convolution, then `from_raw`. -/
def polyMul {R : Type} [CommRing R] [DecidableEq R] (a b : List R) : List R :=
  if a = [] then [] else if b = [] then [] else
  fromRaw ((List.range (a.length + b.length - 1)).map
    (fun k => ((List.range (k + 1)).map (fun i => coeff a i * coeff b (k - i))).sum))

/-- Inner loop of `pseudo_div_rem_bigint`.  Counter `c` means indices
`c-1, c-2, …, 0` are still to be processed (the Rust loop variable `i` runs
downwards).  Returns the quotient coefficients (index `0` to `c-1`) and the
final working buffer `tmp`.  Rust `BigInt` division `/` is `Int.tdiv`. -/
def pdrLoop (b : List ℤ) (lcb : ℤ) (bdeg : ℕ) : ℕ → List ℤ → List ℤ × List ℤ
  | 0, tmp => ([], tmp)
  | c + 1, tmp =>
      let coef := (coeff tmp (c + bdeg)).tdiv lcb
      let tmp' := (List.range tmp.length).map
        (fun j => if c ≤ j ∧ j ≤ c + bdeg
                  then coeff tmp j - coef * coeff b (j - c) else coeff tmp j)
      let qt := pdrLoop b lcb bdeg c tmp'
      (qt.1 ++ [coef], qt.2)

/-- `pseudo_div_rem_bigint`: pseudo-division of `a` by `b` over `Z`. -/
def pseudoDivRem (a b : List ℤ) : List ℤ × List ℤ :=
  if a = [] ∨ b = [] ∨ a.length < b.length then (fromRaw [0], a)
  else
    let adeg := a.length - 1
    let bdeg := b.length - 1
    let lcb := coeff b bdeg
    let diff := adeg - bdeg
    let factor := lcb ^ (diff + 1)
    let tmp := a.map (fun x => x * factor)
    let qt := pdrLoop b lcb bdeg (diff + 1) tmp
    (fromRaw qt.1, fromRaw qt.2)

/-- `poly_mod` from `poly_mod/prim.rs`: coefficientwise `mod_floor p`. -/
def polyModF (f : List ℤ) (p : ℤ) : List ℤ :=
  if f = [] then f
  else fromRaw ((List.range f.length).map (fun i => (coeff f i).fmod p))

/-- `poly_div` from `poly_mod/prim.rs`: coefficientwise `div_floor`. -/
def polyDivF (f : List ℤ) (d : ℤ) : List ℤ :=
  if f = [] then f
  else fromRaw ((List.range f.length).map (fun i => (coeff f i).fdiv d))

/-- `poly_mul` from `poly_mod/prim.rs`: coefficientwise scalar multiplication. -/
def polyMulS (f : List ℤ) (m : ℤ) : List ℤ :=
  if f = [] then f
  else fromRaw ((List.range f.length).map (fun i => coeff f i * m))

/-- Loop body of `modpow` (square and multiply; Rust `%` is `Int.tmod`,
`div_floor 2` is `Int.fdiv`).  The fuel passed by `modpowI` is sufficient. -/
def modpowAux (modulus : ℤ) : ℕ → ℤ → ℤ → ℤ → ℤ
  | 0, _, product, _ => product
  | fuel + 1, e, product, current =>
      if 0 < e then
        modpowAux modulus fuel (e.fdiv 2)
          (if e.emod 2 = 1 then (product * current).tmod modulus else product)
          ((current * current).tmod modulus)
      else product

/-- `modpow` from `poly_mod/prim.rs`. -/
def modpowI (x e modulus : ℤ) : ℤ := modpowAux modulus (e.toNat + 1) e 1 x

/-- `modinv` from `poly_mod/prim.rs` (Fermat inverse; correct only for prime p). -/
def modinvI (x p : ℤ) : ℤ := modpowI x (p - 2) p

/-- Inner loop of `poly_divrem` from `poly_mod/prim.rs` (division mod `p`),
with the same counting convention as `pdrLoop`. -/
def pdLoopP (b : List ℤ) (invlc : ℤ) (bdeg : ℕ) (p : ℤ) : ℕ → List ℤ → List ℤ × List ℤ
  | 0, tmp => ([], tmp)
  | c + 1, tmp =>
      let coef := ((coeff tmp (c + bdeg)) * invlc).fmod p
      let tmp' := (List.range tmp.length).map
        (fun j => if c ≤ j ∧ j ≤ c + bdeg
                  then ((coeff tmp j) - coef * coeff b (j - c)).fmod p else coeff tmp j)
      let qt := pdLoopP b invlc bdeg p c tmp'
      (qt.1 ++ [coef], qt.2)

/-- `poly_divrem` from `poly_mod/prim.rs`. -/
def polyDivremP (a b : List ℤ) (p : ℤ) : List ℤ × List ℤ :=
  if a = [] ∨ b = [] ∨ a.length < b.length then (fromRaw [0], a)
  else
    let adeg := a.length - 1
    let bdeg := b.length - 1
    let lc := coeff b bdeg
    let invlc := modinvI lc p
    let qt := pdLoopP b invlc bdeg p (adeg - bdeg + 1) a
    (fromRaw qt.1, fromRaw qt.2)

/-- Coefficientwise congruence of two coefficient lists modulo `m`. -/
def PolyCong (m : ℤ) (f g : List ℤ) : Prop := ∀ n, m ∣ coeff f n - coeff g n

/-- `hensel_lift` from `poly_mod/hensel.rs` (Algorithm 3.5.5 in Cohen). -/
def henselLift (p q : ℤ) (c a b u v : List ℤ) : List ℤ × List ℤ × ℤ :=
  let r : ℤ := Int.gcd p q
  let f := polyModF (polyDivF (polySub c (polyMul a b)) q) r
  let t := (polyDivremP (polyMul v f) a r).1
  let a0 := polySub (polyMul v f) (polyMul a t)
  let b0 := polyAdd (polyMul u f) (polyMul b t)
  let qr := q * r
  let a1 := polyModF (polyAdd a (polyMulS a0 q)) qr
  let b1 := polyModF (polyAdd b (polyMulS b0 q)) qr
  (a1, b1, qr)

/-- The interpretation of a coefficient list as a `Polynomial ℤ` (mathematical
side only; used to state and prove theorems). -/
noncomputable def toPoly (l : List ℤ) : Polynomial ℤ :=
  ∑ i ∈ Finset.range l.length, Polynomial.C (coeff l i) * Polynomial.X ^ i

/-- The struct `Algebraic` from `algebraic.rs`: a minimal polynomial over `Z`
and an expression polynomial over `Q`. -/
structure Alg where
  minPoly : List ℤ
  expr : List ℚ
  deriving DecidableEq

/-- `Algebraic::new`: the root θ itself, `expr = x`. -/
def Alg.new (minimalPoly : List ℤ) : Alg :=
  ⟨minimalPoly, fromRaw [0, 1]⟩

/-- `Algebraic::with_expr` (the `debug_assert!` is not modelled). -/
def Alg.withExpr (minimalPoly : List ℤ) (e : List ℚ) : Alg := ⟨minimalPoly, e⟩

/-- `Algebraic::new_const`. -/
def Alg.newConst (minimalPoly : List ℤ) (x : ℚ) : Alg := ⟨minimalPoly, fromRaw [x]⟩

/-- `Algebraic::from_int`. -/
def Alg.fromInt (minimalPoly : List ℤ) (x : ℤ) : Alg := ⟨minimalPoly, fromRaw [(x : ℚ)]⟩

/-- `impl Add for Algebraic`. -/
def Alg.add (x y : Alg) : Alg := ⟨x.minPoly, polyAdd x.expr y.expr⟩

/-- `impl Sub for Algebraic`. -/
def Alg.sub (x y : Alg) : Alg := ⟨x.minPoly, polySub x.expr y.expr⟩

/-- One shift-and-reduce step of the synthetic-division loop in
`mul_with_mod` (`algebraic.rs`): `cur := (x·cur) mod c`.  The buffer is kept at
length `n`; the top coefficient that the Rust code stores transiently in slot
`n` is `coeff cur (n-1)`. -/
def mwmStep (c : List ℤ) (n : ℕ) (lc : ℚ) (cur : List ℚ) : List ℚ :=
  (List.range n).map
    (fun j => coeff (0 :: cur) j - (coeff cur (n - 1) / lc) * ((coeff c j : ℤ) : ℚ))

/-- `mul_with_mod` from `algebraic.rs`: `(a * b) mod c` by accumulating
`a_i · (b·xⁱ mod c)`. -/
def mulWithMod (a b : List ℚ) (c : List ℤ) : List ℚ :=
  if a = [] ∨ b = [] then []
  else
    let n := c.length - 1
    let lc : ℚ := ((coeff c n : ℤ) : ℚ)
    let cur0 := (List.range n).map (fun j => coeff b j)
    fromRaw ((List.range n).map (fun k =>
      ((List.range a.length).map
        (fun i => coeff a i * coeff ((mwmStep c n lc)^[i] cur0) k)).sum))

/-- `impl Mul for Algebraic`. -/
def Alg.mul (x y : Alg) : Alg := ⟨x.minPoly, mulWithMod x.expr y.expr x.minPoly⟩

/-- Loop body of `impl Pow for &Algebraic` (binary exponentiation).  The fuel
passed by `Alg.powN` is sufficient. -/
def algPowAux : ℕ → ℕ → Alg → Alg → Alg
  | 0, _, prod, _ => prod
  | fuel + 1, e, prod, cur =>
      if 0 < e then
        algPowAux fuel (e / 2)
          (if e % 2 = 1 then Alg.mul prod cur else prod) (Alg.mul cur cur)
      else prod

/-- `impl Pow for &Algebraic` with a natural-number exponent. -/
def Alg.powN (x : Alg) (e : ℕ) : Alg :=
  algPowAux (e + 1) e (Alg.fromInt x.minPoly 1) x

/-- The data-model invariant of `Algebraic`: `deg expr < deg min_poly`,
with `expr = 0` as the degree-undefined case. -/
def AlgInv (x : Alg) : Prop := x.expr = [] ∨ x.expr.length < x.minPoly.length

/-- Modelled from the spec: `Polynomial::content` ("content (gcd of
coefficients)"); the function is referenced by `poly_z/mod.rs` and
`resultant.rs` but absent from the snapshot.  Returns the non-negative gcd
of all coefficients. -/
def specContent (l : List ℤ) : ℤ := l.foldr (fun x g => (Int.gcd x g : ℤ)) 0

/-- Inner loop of exact division; `c` counts the remaining quotient indices as
in `pdrLoop`.  Fails as soon as a coefficient step is not exactly divisible
by the divisor's leading coefficient. -/
def divExactLoop (b : List ℤ) (lcb : ℤ) (bdeg : ℕ) : ℕ → List ℤ → Option (List ℤ × List ℤ)
  | 0, tmp => some ([], tmp)
  | c + 1, tmp =>
      let x := coeff tmp (c + bdeg)
      if lcb ∣ x then
        let coef := x.tdiv lcb
        let tmp' := (List.range tmp.length).map
          (fun j => if c ≤ j ∧ j ≤ c + bdeg
                    then coeff tmp j - coef * coeff b (j - c) else coeff tmp j)
        (divExactLoop b lcb bdeg c tmp').map (fun qt => (qt.1 ++ [coef], qt.2))
      else none

/-- Modelled from the spec: `div_exact` ("Exact division attempts to divide A
by B in Z[x] and signals failure if any step produces a non-integer or
non-zero final remainder"); the function is referenced by `poly_z/mod.rs` but
absent from the snapshot. -/
def specDivExact (a b : List ℤ) : Option (List ℤ) :=
  if a = [] then some []
  else if b = [] then none
  else if a.length < b.length then none
  else
    let bdeg := b.length - 1
    match divExactLoop b (coeff b bdeg) bdeg (a.length - b.length + 1) a with
    | none => none
    | some qt => if fromRaw qt.2 = [] then some (fromRaw qt.1) else none

/-- The multiplicity-counting loop of `poly_z::factorize`:
`while let Some(quo) = div_exact(&a, &factor) { assert!(e <= 5); a = quo; e += 1 }`.
`none` models the `assert!(e <= 5)` abort.  The loop body is entered at most
seven times before the assertion aborts, so the fuel `8` passed by
`factLoop` is never exhausted. -/
def multLoopAux (F : List ℤ) : ℕ → List ℤ → ℕ → Option (List ℤ × ℕ)
  | 0, _, _ => none
  | fuel + 1, a, e =>
      match specDivExact a F with
      | none => some (a, e)
      | some quo => if 5 < e then none else multLoopAux F fuel quo (e + 1)

/-- The `for factor in factors` loop of `poly_z::factorize`, threading the
current polynomial through the multiplicity loops. -/
def factLoop : List ℤ → List (List ℤ) → Option (List ℤ × List (List ℤ × ℕ))
  | a, [] => some (a, [])
  | a, F :: rest =>
      match multLoopAux F 8 a 0 with
      | none => none
      | some ae => (factLoop ae.1 rest).map (fun ar => (ar.1, (F, ae.2) :: ar.2))

/-- `Polynomial::differential` over ℤ (polynomial.rs lines 57-69):
`tmp[i] = dat[i+1] * (i+1)`, then `from_raw`. -/
def polyDiffZ (f : List ℤ) : List ℤ :=
  if f = [] then f
  else fromRaw ((List.range (f.length - 1)).map fun i => coeff f (i + 1) * ((i : ℤ) + 1))

/-- Loop of `resultant_smart_gcd` (resultant.rs lines 45-70): like the
resultant loop but without sign tracking; a constant non-zero `g` makes the
gcd `1`.  `BigInt` division `/` is `Int.tdiv`. -/
def rsgLoop : ℕ → List ℤ → List ℤ → ℤ → ℤ → Option (List ℤ)
  | 0, _, _, _, _ => none
  | fu + 1, f, g, a, b =>
    if g = [] then some f
    else
      let fdeg := f.length - 1
      let gdeg := g.length - 1
      if gdeg = 0 then some (fromRaw [1])
      else if fdeg < gdeg then rsgLoop fu g f a b
      else
        let delta := fdeg - gdeg
        let h := (pseudoDivRem f g).2
        let factor := a * b ^ delta
        let g2 := h.map (fun x => x.tdiv factor)
        let a2 := coeff g (g.length - 1)
        let b2 := (a2 ^ delta * b).tdiv (b ^ delta)
        rsgLoop fu g g2 a2 b2

/-- `resultant_smart_gcd` (resultant.rs lines 34-73): divide out contents,
run the subresultant loop, make the result primitive and multiply by the
gcd of the contents. -/
def resultantSmartGcd (f g : List ℤ) : Option (List ℤ) :=
  if f = [] then some g
  else
    let contf := specContent f
    let contg := specContent g
    let d := (Int.gcd contf contg : ℤ)
    match rsgLoop (2 * (f.length + g.length) + 6) (polyDivF f contf) (polyDivF g contg) 1 1 with
    | none => none
    | some f2 => some (polyMulS (polyDivF f2 (specContent f2)) d)

/-- `differential` from `poly_mod/prim.rs` (derivative, then `poly_mod`). -/
def polyDiffP (f : List ℤ) (p : ℤ) : List ℤ :=
  if f = [] then [] else polyModF (polyDiffZ f) p

/-- `poly_gcd` from `poly_mod/prim.rs` (Euclidean recursion on `poly_divrem`
remainders; the fuel covers the strictly decreasing remainder degrees). -/
def polyGcdP : ℕ → List ℤ → List ℤ → ℤ → Option (List ℤ)
  | 0, _, _, _ => none
  | fu + 1, a, b, p =>
    let rem := (polyDivremP a b p).2
    if rem = [] then some b else polyGcdP fu b rem p

/-- `is_prime` from number-theory-elementary/src/primes.rs: trial division
over `2 ≤ d` with `d * d ≤ a`. -/
def isPrimeNat (a : ℕ) : Bool :=
  if a ≤ 1 then false
  else (List.range' 2 (a.sqrt - 1)).all (fun d => a % d ≠ 0)

/-- The `for now in Primes::new()` search of `get_factors_of_squarefree`
(poly_z/mod.rs lines 61-74): the first prime `p` for which
`gcd(a mod p, (a mod p)' mod p)` is a non-zero constant. -/
def primeSearch (a : List ℤ) : ℕ → ℕ → Option ℕ
  | 0, _ => none
  | fu + 1, now =>
    if isPrimeNat now then
      let am := polyModF a (now : ℤ)
      let apm := polyDiffP am (now : ℤ)
      match polyGcdP (a.length + 2) am apm (now : ℤ) with
      | none => none
      | some g => if g.length = 1 then some now else primeSearch a fu (now + 1)
    else primeSearch a fu (now + 1)

/-- The `while pe <= bound` loop (lines 75-80) computing the least
`pe = p^e > bound`. -/
def peLoop (p bound : ℤ) : ℕ → ℤ → ℕ → ℤ × ℕ
  | 0, pe, e => (pe, e)
  | fu + 1, pe, e => if pe ≤ bound then peLoop p bound fu (pe * p) (e + 1) else (pe, e)

/-- `poly_ext_gcd` from `poly_mod/prim.rs` (recursive extended Euclid mod p),
returning `(g, u, v)` with `g = a*u + b*v` mod p. -/
def polyExtGcdP : ℕ → List ℤ → List ℤ → ℤ → Option (List ℤ × List ℤ × List ℤ)
  | 0, _, _, _ => none
  | fu + 1, a, b, p =>
    let qr := polyDivremP a b p
    if qr.2 = [] then some (b, qr.2, fromRaw [1])
    else
      match polyExtGcdP fu b qr.2 p with
      | none => none
      | some guv =>
        some (guv.1, guv.2.2,
          polyModF (polySub guv.2.1 (polyModF (polyMul qr.1 guv.2.2) p)) p)

/-- `poly_coprime_witness` from `poly_mod/prim.rs`.  The constant Bezout
coefficient `g0.extended_gcd(p).x.mod_floor(p)` is embedded as
`(Int.gcdA g0 p).fmod p`: all Bezout coefficients of a pair agree modulo
`p / gcd`, so when `gcd(g0, p) = 1` (the only case in which the function's
output is meaningful) the value is independent of the algorithm computing
it. -/
def polyCoprimeWitness (a b : List ℤ) (p : ℤ) : Option (List ℤ × List ℤ) :=
  match polyExtGcdP (a.length + b.length + 2) a b p with
  | none => none
  | some guv =>
    if guv.1.length = 1 then
      let inv := (Int.gcdA (coeff guv.1 0) p).fmod p
      some (polyModF (polyMulS guv.2.1 inv) p, polyModF (polyMulS guv.2.2 inv) p)
    else none

/-- The running prefix products mod `q` of `hensel_lift_multiple`
(poly_mod/hensel.rs lines 63-68). -/
def accProds (q : ℤ) : List (List ℤ) → List ℤ → List (List ℤ)
  | [], _ => []
  | f :: rest, cur =>
    let cur2 := polyModF (polyMul cur f) q
    cur2 :: accProds q rest cur2

/-- The `for i in (1..n).rev()` loop of `hensel_lift_multiple` (lines 69-78),
already producing the reversed result list. -/
def hlmLoop (p q : ℤ) (accumulated factors : List (List ℤ)) :
    ℕ → List ℤ → Option (List (List ℤ))
  | 0, product => some [product]
  | i + 1, product =>
    match polyCoprimeWitness (accumulated.getD i []) (factors.getD (i + 1) []) p with
    | none => none
    | some uv =>
      let ab := henselLift p q product (accumulated.getD i []) (factors.getD (i + 1) []) uv.1 uv.2
      match hlmLoop p q accumulated factors i ab.1 with
      | none => none
      | some rest => some (rest ++ [ab.2.1])

/-- `hensel_lift_multiple` from `poly_mod/hensel.rs` (lines 49-81). -/
def henselLiftMultiple (p q : ℤ) (c : List ℤ) (factors : List (List ℤ)) :
    Option (List (List ℤ) × ℤ) :=
  if factors.length = 0 then some ([], q * (Int.gcd p q : ℤ))
  else
    match hlmLoop p q (accProds q factors (fromRaw [1])) factors (factors.length - 1) c with
    | none => none
    | some res => some (res, q * (Int.gcd p q : ℤ))

/-- The `for _ in 1..e` loop of `lift_factorization` (poly_mod/hensel.rs
lines 101-108).  As in `polyCoprimeWitness`, `lc.extended_gcd(next_cur).x`
is embedded as `Int.gcdA`. -/
def liftLoop (p : ℤ) (c : List ℤ) (lc : ℤ) : ℕ → List (List ℤ) → ℤ → Option (List (List ℤ))
  | 0, res, _ => some res
  | k + 1, res, cur =>
    let nextCur := cur * p
    let invlc := (Int.gcdA lc nextCur).fmod nextCur
    let divided := polyModF (polyMulS c invlc) nextCur
    match henselLiftMultiple p cur divided res with
    | none => none
    | some su => liftLoop p c lc k su.1 nextCur

/-- `lift_factorization` from `poly_mod/hensel.rs` (lines 88-110). -/
def liftFactorization (p : ℤ) (e : ℕ) (c : List ℤ) (factors : List (List ℤ)) :
    Option (List (List ℤ)) :=
  liftLoop p c (coeff c (c.length - 1)) (e - 1) factors p

/-- Number of set bits of `bits` among positions `0..len` (Rust
`bits.count_ones()`; the two agree for `bits < 2^len`). -/
def popcountBelow (len bits : ℕ) : ℕ :=
  ((List.range len).filter (fun i => bits.testBit i)).length

/-- The subset product mod `p^e` for a bitmask (poly_z/mod.rs lines 97-102). -/
def comboProd (lifted : List (List ℤ)) (pe : ℤ) (bits : ℕ) : List ℤ :=
  (List.range lifted.length).foldl
    (fun prod i => if bits.testBit i then polyModF (polyMul prod (lifted.getD i [])) pe else prod)
    (fromRaw [1])

/-- Symmetric recentring of the coefficients into `[-p^e/2, p^e/2)` (lines
103-105).  For a non-zero `prod` the Rust `prod.deg() + 1` equals
`prod.length`; for the zero polynomial Rust's sentinel degree would make the
`vec![pe2; ...]` allocation abort, a case the recombination never produces. -/
def recenter (prod : List ℤ) (pe pe2 : ℤ) : List ℤ :=
  let bias := fromRaw (List.replicate prod.length pe2)
  polySub (polyModF (polyAdd prod bias) pe) bias

/-- The `for bits` search (lines 93-119): the first bitmask of popcount `d`
whose recentred subset product divides `a` exactly, with its product and
quotient. -/
def comboSearch (lifted : List (List ℤ)) (a : List ℤ) (pe pe2 : ℤ) (d : ℕ) :
    Option (ℕ × List ℤ × List ℤ) :=
  (List.range (2 ^ lifted.length)).foldl
    (fun found bits =>
      match found with
      | some r => some r
      | none =>
        if popcountBelow lifted.length bits = d then
          match specDivExact a (recenter (comboProd lifted pe bits) pe pe2) with
          | none => none
          | some quo => some (bits, recenter (comboProd lifted pe bits) pe pe2, quo)
        else none)
    none

/-- The recombination loop `'outer` (lines 91-121): returns the accepted
factors in discovery order and the final remaining `a`.  `none` models the
`assert!(lifted.len() <= 25)` abort. -/
def comboLoop : ℕ → List (List ℤ) → List ℤ → ℤ → ℤ → ℕ → Option (List (List ℤ) × List ℤ)
  | 0, _, _, _, _, _ => none
  | fu + 1, lifted, a, pe, pe2, d =>
    if 2 * d ≤ lifted.length then
      if 25 < lifted.length then none
      else
        match comboSearch lifted a pe pe2 d with
        | none => comboLoop fu lifted a pe pe2 (d + 1)
        | some bpq =>
          let lifted2 := (List.range lifted.length).filterMap
            (fun i => if bpq.1.testBit i then none else some (lifted.getD i []))
          match comboLoop fu lifted2 bpq.2.2 pe pe2 d with
          | none => none
          | some ra => some (bpq.2.1 :: ra.1, ra.2)
    else some ([], a)

/-- `get_factors_of_squarefree` after the `factorize_mod_p` call (poly_z
lines 83-123): the multiplicity-1 assert, the Hensel lift to `p^e` and the
recombination; `factors` is the mod-p factor list. -/
def gfsCore (a : List ℤ) (p : ℤ) (e : ℕ) (pe : ℤ) (factors : List (List ℤ × ℕ)) :
    Option (List (List ℤ)) :=
  if factors.all (fun fe => fe.2 = 1) then
    match liftFactorization p e a (factors.map (fun fe => fe.1)) with
    | none => none
    | some lifted =>
      match comboLoop (2 * lifted.length + 3) lifted a pe (pe.tdiv 2) 1 with
      | none => none
      | some ra => some (ra.1 ++ [ra.2])
  else none

/-- `get_factors_of_squarefree` (poly_z/mod.rs lines 46-124), parameterised
over the genuinely absent `poly_mod::factorize_mod_p` (fmp; declared as
`mod factorize_mod_p;` in poly_mod/mod.rs, whose file is missing from the
snapshot): the `assert_eq!(lc == 1)` monicity check, the Mignotte-style
bound, the prime search, the `p^e > bound` loop, then `gfsCore` on the
oracle's factor list.  For a constant input (which `factorize` never
passes) Rust's `0..n-1` underflows; the embedding's truncated subtraction
gives `2^0` there. -/
def getFactorsOfSquarefree (fmp : List ℤ → ℤ → ℕ → List (List ℤ × ℕ)) (a : List ℤ) :
    Option (List (List ℤ)) :=
  let n := a.length - 1
  if coeff a n = 1 then
    let sum := |coeff a n| + (List.range (n + 1)).foldl (fun s i => s + |coeff a i|) 0
    let bound := sum * 2 ^ (n - 1) * 2 * |coeff a n|
    match primeSearch a (bound.toNat + 4) 2 with
    | none => none
    | some pu =>
      let pe1 := peLoop (pu : ℤ) bound (bound.toNat + 2) 1 0
      gfsCore a (pu : ℤ) pe1.2 pe1.1 (fmp a (pu : ℤ) pu)
  else none

/-- The tail of `poly_z::factorize` after the squarefree part is factored:
the multiplicity-counting loop over the factor list. -/
def factorizeTail (a1 : List ℤ) (conta : ℤ) (ofac : Option (List (List ℤ))) :
    Option (ℤ × List (List ℤ × ℕ)) :=
  match ofac with
  | none => none
  | some factors =>
    match factLoop a1 factors with
    | none => none
    | some ar => some (conta, ar.2)

/-- `poly_z::factorize` (poly_z/mod.rs lines 13-43), parameterised over the
absent `factorize_mod_p` back-end only: content and primitive part, the
squarefree part via `differential`, `resultant_gcd` and `div_exact` (the
`.expect` is `none` on failure), then `get_factors_of_squarefree` and the
multiplicity loop with its `assert!(e <= 5)`. -/
def factorizePolyZ (fmp : List ℤ → ℤ → ℕ → List (List ℤ × ℕ)) (a : List ℤ) :
    Option (ℤ × List (List ℤ × ℕ)) :=
  if a = [] then some (0, [])
  else
    let conta := specContent a
    if a.length = 1 then some (conta, [])
    else
      let a1 := polyDivF a conta
      match resultantSmartGcd a1 (polyDiffZ a1) with
      | none => none
      | some gcd =>
        if gcd.length = 1 then factorizeTail a1 conta (getFactorsOfSquarefree fmp a1)
        else
          match specDivExact a1 gcd with
          | none => none
          | some sqfree => factorizeTail a1 conta (getFactorsOfSquarefree fmp sqfree)

/-- `polyPowZ q e`: the `e`-th power of a coefficient list (used only to
state the contract of the absent `factorize_mod_p`). -/
def polyPowZ (q : List ℤ) : ℕ → List ℤ
  | 0 => [1]
  | k + 1 => polyMul (polyPowZ q k) q

/-- Modelled from the spec: the contract of the absent randomized
`factorize_mod_p(f, p)` ("returns (g_i, e_i) with Π g_i^(e_i) ≡ c · f
(mod p) for some non-zero constant c; each g_i is irreducible mod p").
Irreducibility itself is not needed below and is weakened to the two
consequences used: each returned polynomial is non-constant and reduced
mod p, and each multiplicity is positive. -/
def SpecFactorsModP (f : List ℤ) (p : ℤ) (fl : List (List ℤ × ℕ)) : Prop :=
  (∀ ge ∈ fl, polyModF ge.1 p = ge.1 ∧ 2 ≤ ge.1.length ∧ 1 ≤ ge.2) ∧
  ∃ c : ℤ, ¬ p ∣ c ∧
    polyModF (fl.foldl (fun acc ge => polyMul acc (polyPowZ ge.1 ge.2)) [1]) p
      = polyModF (polyMulS f c) p

/-- Entry `(i, j)` of a rational matrix stored as a list of rows
(out-of-range reads give `0`). -/
def mget (a : List (List ℚ)) (i j : ℕ) : ℚ := (a.getD i []).getD j 0

/-- Pivot search of `determinant.rs`: `for j in i..n { if a[j][i] != 0 { idx = Some(j);
break } }`; the fuel is the number of remaining candidates `n - j`. -/
def findPivot (a : List (List ℚ)) (i : ℕ) : ℕ → ℕ → Option ℕ
  | 0, _ => none
  | fuel + 1, j => if mget a j i ≠ 0 then some j else findPivot a i fuel (j + 1)

/-- `a.swap(i, j)` on the list of rows. -/
def lswap (a : List (List ℚ)) (i j : ℕ) : List (List ℚ) :=
  (a.set i (a.getD j [])).set j (a.getD i [])

/-- The inner row operation of `determinant.rs`: with `factor = a[j][i] / a[i][i]`,
`a[j][k] -= factor * a[i][k]` for `k in i..n` (`piv` is row `i`, `row` is row `j`). -/
def rowElim (n i : ℕ) (piv row : List ℚ) : List ℚ :=
  (List.range row.length).map fun k =>
    if i ≤ k ∧ k < n then row.getD k 0 - row.getD i 0 / piv.getD i 0 * piv.getD k 0
    else row.getD k 0

/-- The `for j in i + 1..n` elimination loop of `determinant.rs`. -/
def elimBelow (n i : ℕ) (a : List (List ℚ)) : List (List ℚ) :=
  (List.range a.length).map fun j =>
    if i < j ∧ j < n then rowElim n i (a.getD i []) (a.getD j []) else a.getD j []

/-- Main loop of `determinant.rs` (`for i in 0..n`); returns `0` when no pivot is
found and otherwise swaps the pivot row up, eliminates below it and multiplies
the running `result` by the pivot.  The fuel is `n - i`. -/
def detLoop (n : ℕ) : ℕ → ℕ → List (List ℚ) → ℚ → ℚ
  | 0, _, _, result => result
  | fuel + 1, i, a, result =>
    match findPivot a i (fuel + 1) i with
    | none => 0
    | some idx =>
      let a2 := elimBelow n i (lswap a i idx)
      detLoop n fuel (i + 1) a2 (result * mget a2 i i)

/-- `determinant.rs::determinant`: Gaussian elimination over `BigRational`.
Row swaps do not negate `result`, so the outcome is the determinant only up
to sign. -/
def detAlg (a : List (List ℚ)) : ℚ := detLoop a.length a.length 0 a 1

/-- `order.rs::index`: `determinant(b) / determinant(a)`, `panic!` (modelled as
`none`) when the quotient is not an integer; `none` also models the `BigRational`
division-by-zero panic when `determinant(a) = 0`. -/
def index (a b : List (List ℚ)) : Option ℤ :=
  if detAlg a = 0 then none
  else if (detAlg b / detAlg a).den = 1 then some (detAlg b / detAlg a).num else none

/-- The matrix is a square `n × n` table of rationals. -/
def SquareMat (n : ℕ) (a : List (List ℚ)) : Prop :=
  a.length = n ∧ ∀ row ∈ a, row.length = n

/-- Mathematical view of a list-of-rows matrix. -/
def toMat (n : ℕ) (a : List (List ℚ)) : Matrix (Fin n) (Fin n) ℚ :=
  Matrix.of fun i j => mget a (i : ℕ) (j : ℕ)

/-- Column `k < i` has zero entries strictly below the diagonal: the invariant
maintained by the elimination loop for the already-processed columns. -/
def Zeroed (n i : ℕ) (a : List (List ℚ)) : Prop :=
  ∀ k j, k < i → k < j → j < n → mget a j k = 0

/-- Entry `table[i][j][k]` of a multiplication table (out-of-range reads give `0`). -/
def tget (t : List (List (List ℤ))) (i j k : ℕ) : ℤ :=
  ((t.getD i []).getD j []).getD k 0

/-- `mult_table.rs::MultTable::mul`: `result[k] = Σ_i Σ_j a[i]*b[j]*table[i][j][k]`,
with `n = a.len()`. -/
def mulT (table : List (List (List ℤ))) (a b : List ℤ) : List ℤ :=
  (List.range a.length).map fun k =>
    ((List.range a.length).map fun i =>
      ((List.range a.length).map fun j =>
        a.getD i 0 * b.getD j 0 * tget table i j k).sum).sum

/-- The rational matrix `sum` built by both `MultTable::norm` and `MultTable::inv`:
`sum[j][k] = Σ_i a[i] * table[i][j][k]`, with `n = self.deg() = table.len()`. -/
def sumMat (table : List (List (List ℤ))) (a : List ℤ) : List (List ℚ) :=
  (List.range table.length).map fun j =>
    (List.range table.length).map fun k =>
      ((List.range table.length).map fun i =>
        (a.getD i 0 : ℚ) * (tget table i j k : ℚ)).sum

/-- Rust `BigRational::to_integer()`: numerator divided by denominator, truncated
towards zero. -/
def ratToInt (q : ℚ) : ℤ := q.num.tdiv (q.den : ℤ)

/-- `MultTable::norm`: the determinant of the multiplication-by-`a` matrix,
computed by the sign-dropping `determinant` routine. -/
def normT (table : List (List (List ℤ))) (a : List ℤ) : ℤ :=
  ratToInt (detAlg (sumMat table a))

/-- The identity matrix built at the start of `matrix.rs::inv`. -/
def idMat (n : ℕ) : List (List ℚ) :=
  (List.range n).map fun i => (List.range n).map fun j => if j = i then (1 : ℚ) else 0

/-- `matrix.rs::inv`: `a[i][k] *= factor` for `k in 0..n`, on row `i`. -/
def scaleRow (n i : ℕ) (f : ℚ) (a : List (List ℚ)) : List (List ℚ) :=
  (List.range a.length).map fun j =>
    if j = i then
      (List.range (a.getD j []).length).map fun k =>
        if k < n then (a.getD j []).getD k 0 * f else (a.getD j []).getD k 0
    else a.getD j []

/-- `matrix.rs::inv`: for every row `j ≠ i` (`j in 0..n`), subtract
`factor * row i` from row `j` of `b`, with `factor = asrc[j][i]`. -/
def elimAllB (n i : ℕ) (asrc b : List (List ℚ)) : List (List ℚ) :=
  (List.range b.length).map fun j =>
    if j ≠ i ∧ j < n then
      (List.range (b.getD j []).length).map fun k =>
        if k < n then (b.getD j []).getD k 0 - mget asrc j i * mget b i k
        else (b.getD j []).getD k 0
    else b.getD j []

/-- Main loop of `matrix.rs::inv` (Gauss-Jordan on `a` with the same row
operations mirrored on `b`); `none` models `Err(MatrixNotInvertible)`. -/
def gjLoop (n : ℕ) : ℕ → ℕ → List (List ℚ) → List (List ℚ) →
    Option (List (List ℚ))
  | 0, _, _, b => some b
  | fuel + 1, i, a, b =>
    match findPivot a i (fuel + 1) i with
    | none => none
    | some idx =>
      let a1 := lswap a i idx
      let b1 := lswap b i idx
      let f := (mget a1 i i)⁻¹
      let a2 := scaleRow n i f a1
      let b2 := scaleRow n i f b1
      gjLoop n fuel (i + 1) (elimAllB n i a2 a2) (elimAllB n i a2 b2)

/-- `matrix.rs::inv`. -/
def matInv (a : List (List ℚ)) : Option (List (List ℚ)) :=
  gjLoop a.length a.length 0 a (idMat a.length)

/-- `mult_table.rs::MultTable::inv`: `(ans, norm)` with
`ans[i] = (inv[0][i] * norm).to_integer()` and `norm = self.norm(a).abs()`;
`none` models the `unwrap()` panic when the matrix is not invertible. -/
def invT (table : List (List (List ℤ))) (a : List ℤ) : Option (List ℤ × ℤ) :=
  match matInv (sumMat table a) with
  | none => none
  | some binv =>
    some ((List.range table.length).map fun i =>
      ratToInt (mget binv 0 i * ((|normT table a| : ℤ) : ℚ)), |normT table a|)

/-- Columns `k < i` of the Gauss-Jordan work matrix are the corresponding
identity columns. -/
def Icols (n i : ℕ) (a : List (List ℚ)) : Prop :=
  ∀ k j, k < i → j < n → mget a j k = if j = k then (1 : ℚ) else 0

/-- The `loop` of `resultant.rs::resultant_smart`, with explicit fuel.  The
state is `(f, g, a, b, s)`; `s` flips whenever both degrees are odd (note that
a swap iteration flips and `continue`s, after which the same parity test flips
again).  Rust `BigInt` division is `Int.tdiv`; the in-place division of `g` by
`a * b^delta` does not re-normalise the coefficient vector. -/
def rsLoop : ℕ → List ℤ → List ℤ → ℤ → ℤ → ℤ → Option ℤ
  | 0, _, _, _, _, _ => none
  | fuel + 1, f, g, a, b, s =>
    if g = [] then some 0
    else
      let fdeg := f.length - 1
      let gdeg := g.length - 1
      let s' := if fdeg % 2 = 1 ∧ gdeg % 2 = 1 then -s else s
      if gdeg = 0 then
        let r := (coeff g 0) ^ fdeg
        let r2 := r.tdiv (b ^ (fdeg - 1))
        some (if s' = -1 then -r2 else r2)
      else if fdeg < gdeg then
        rsLoop fuel g f a b s'
      else
        let delta := fdeg - gdeg
        let h := (pseudoDivRem f g).2
        let factor := a * b ^ delta
        let g2 := h.map (fun x => x.tdiv factor)
        let f2 := g
        let a2 := coeff f2 (f2.length - 1)
        let b2 := (a2 ^ delta * b).tdiv (b ^ delta)
        rsLoop fuel f2 g2 a2 b2 s'

/-- `resultant.rs::resultant_smart` (the public `resultant`).  The fuel
`2 * (f.length + g.length) + 6` dominates the loop's running time: every
division step strictly shrinks `g` and swaps cannot happen twice in a row. -/
def resultantSmart (f g : List ℤ) : Option ℤ :=
  if f = [] then some 0
  else rsLoop (2 * (f.length + g.length) + 6) f g 1 1 1



/-- `Polynomial::differential`. -/
def polyDiff (f : List ℤ) : List ℤ :=
  if f = [] then f
  else fromRaw ((List.range (f.length - 1)).map fun i => coeff f (i + 1) * (i + 1))

/-- `discriminant.rs::discriminant`. -/
def discPoly (f : List ℤ) : Option ℤ :=
  match resultantSmart f (polyDiff f) with
  | none => none
  | some res =>
    let m := f.length - 1
    let res2 := if m % 4 = 2 ∨ m % 4 = 3 then -res else res
    some (res2.tdiv (coeff f m))


/-- `order.rs::non_monic_initial_order`. -/
def nmio (minPoly : List ℤ) : List (List ℚ) :=
  let deg := minPoly.length - 1
  (List.range deg).map fun i =>
    (List.range deg).map fun j =>
      if i = 0 ∧ j = 0 then 1
      else if 1 ≤ i ∧ 1 ≤ j ∧ j ≤ i then (coeff minPoly (deg - (i - j)) : ℚ)
      else 0


/-- legacy `hnf.rs::floor_div`. -/
def floorDivL (a b : ℤ) : ℤ :=
  let q := a.tdiv b
  if a < q * b then q - 1 else q

/-- linear crate `hnf.rs::floor_div`. -/
def floorDivU (a b : ℤ) : ℤ :=
  if b < 0 then
    let q := (-a).tdiv (-b)
    if -a < q * (-b) then q - 1 else q
  else
    let q := a.tdiv b
    if a < q * b then q - 1 else q

-- integer matrices as List (List ℤ)
def zget (a : List (List ℤ)) (i j : ℕ) : ℤ := (a.getD i []).getD j 0

def zsetRow (a : List (List ℤ)) (i : ℕ) (r : List ℤ) : List (List ℤ) := a.set i r

def zswap (a : List (List ℤ)) (i j : ℕ) : List (List ℤ) :=
  (a.set i (a.getD j [])).set j (a.getD i [])

/-- Step 4/5 reduction: `A_j -= q * A_k` for all columns (row length m). -/
def rowSubMul (rj rk : List ℤ) (q : ℤ) : List ℤ :=
  (List.range rj.length).map fun v => rj.getD v 0 - rk.getD v 0 * q

/-- Rust `std::cmp::min` on `(BigInt, usize)` pairs: lexicographic,
returning the first argument on ties. -/
def pairMin (x y : ℤ × ℕ) : ℤ × ℕ :=
  if x.1 < y.1 ∨ (x.1 = y.1 ∧ x.2 ≤ y.2) then x else y

/-- legacy hnf Step 3: choose the row `j0 ∈ [0, k]` minimising the pair
`(key, j)` where the FIRST nonzero row contributes its raw value (no abs; the
repo bug) and later rows contribute absolute values. -/
def legacyChoose (a : List (List ℤ)) (i k : ℕ) : ℕ :=
  match (List.range k).find? (fun j => zget a j i ≠ 0) with
  | none => k  -- unreachable (allzero checked before)
  | some ind =>
    let start : ℤ × ℕ := (zget a ind i, ind)
    let mi := (List.range' (ind + 1) (k - ind)).foldl
      (fun mi j => if zget a j i ≠ 0 then pairMin mi (|zget a j i|, j) else mi) start
    mi.2

/-- linear crate Step 3 (uses abs for the initial candidate as well). -/
def linChoose (a : List (List ℤ)) (i k : ℕ) : ℕ :=
  match (List.range k).find? (fun j => zget a j i ≠ 0) with
  | none => k
  | some ind =>
    let start : ℤ × ℕ := (|zget a ind i|, ind)
    let mi := (List.range' (ind + 1) (k - ind)).foldl
      (fun mi j => if zget a j i ≠ 0 then pairMin mi (|zget a j i|, j) else mi) start
    mi.2

/-- One execution of legacy Step 3+4 (choose, swap, reduce rows `0..k`). -/
def legacyStep34 (a : List (List ℤ)) (i k m : ℕ) : List (List ℤ) :=
  let j0 := legacyChoose a i k
  let a1 := zswap a j0 k
  let b := zget a1 k i
  (List.range a1.length).map fun j =>
    if j < k then rowSubMul ((a1.getD j []).take m) ((a1.getD k []).take m) (floorDivL (zget a1 j i) b)
    else a1.getD j []

/-- legacy inner `loop` with fuel. -/
def legacyInner (m : ℕ) : ℕ → List (List ℤ) → ℕ → ℕ → Option (List (List ℤ))
  | 0, _, _, _ => none
  | fuel + 1, a, i, k =>
    if (List.range k).all (fun j => zget a j i = 0) then
      if zget a k i < 0 then
        some (a.set k ((a.getD k []).map (fun x => x * (-1))))
      else some a
    else
      legacyInner m fuel (legacyStep34 a i k m) i k

/-- legacy Step 5. -/
def legacyStep5 (a : List (List ℤ)) (i k n m : ℕ) : List (List ℤ) :=
  let b := zget a k i
  (List.range a.length).map fun j =>
    if k + 1 ≤ j ∧ j < n then
      rowSubMul ((a.getD j []).take m) ((a.getD k []).take m) (floorDivL (zget a j i) b)
    else a.getD j []

/-- legacy hnf outer loop over `i = m-1 .. l`, with state `(a, k)`. -/
def legacyOuter (n m l : ℕ) (innerFuel : ℕ) : ℕ → List (List ℤ) → ℕ → ℕ → Option (List (List ℤ) × ℕ)
  | 0, _, _, _ => none
  | fuel + 1, a, i, k =>
    match legacyInner m innerFuel a i k with
    | none => none
    | some a1 =>
      let (a2, k2) : List (List ℤ) × ℕ :=
        if zget a1 k i = 0 then (a1, k + 1)
        else (legacyStep5 a1 i k n m, k)
      if i = l then some (a2, k2)
      else legacyOuter n m l innerFuel fuel a2 (i - 1) (k2 - 1)

/-- `src/src/hnf.rs::hnf` (legacy). -/
def legacyHnf (a : List (List ℤ)) : Option (List (List ℤ)) :=
  let n := a.length
  let m := (a.getD 0 []).length
  let l := max m n - n
  let k := n - 1
  match legacyOuter n m l 1000 (m + 1) a (m - 1) k with
  | none => none
  | some (a2, k2) => some (a2.drop k2)


/-- Step 3+4 of `hnf_with_u` on the combined matrix `[A | U]` (row length `m + n`):
choose with abs, swap, reduce rows `0..k` by `floor_div`. -/
def linStep34 (c : List (List ℤ)) (i k : ℕ) : List (List ℤ) :=
  let j0 := linChoose c i k
  let c1 := zswap c j0 k
  let b := zget c1 k i
  (List.range c1.length).map fun j =>
    if j < k then rowSubMul (c1.getD j []) (c1.getD k []) (floorDivU (zget c1 j i) b)
    else c1.getD j []

def linInner : ℕ → List (List ℤ) → ℕ → ℕ → Option (List (List ℤ))
  | 0, _, _, _ => none
  | fuel + 1, c, i, k =>
    if (List.range k).all (fun j => zget c j i = 0) then
      if zget c k i < 0 then
        some (c.set k ((c.getD k []).map (fun x => x * (-1))))
      else some c
    else
      linInner fuel (linStep34 c i k) i k

def linStep5 (c : List (List ℤ)) (i k n : ℕ) : List (List ℤ) :=
  let b := zget c k i
  (List.range c.length).map fun j =>
    if k + 1 ≤ j ∧ j < n then
      rowSubMul (c.getD j []) (c.getD k []) (floorDivU (zget c j i) b)
    else c.getD j []

def linOuter (n : ℕ) (innerFuel : ℕ) :
    ℕ → List (List ℤ) → ℕ → ℕ → Option (List (List ℤ) × ℕ)
  | 0, _, _, _ => none
  | fuel + 1, c, i, k =>
    match linInner innerFuel c i k with
    | none => none
    | some c1 =>
      let ck : List (List ℤ) × ℕ :=
        if zget c1 k i = 0 then (c1, k + 1) else (linStep5 c1 i k n, k)
      if ck.2 = 0 ∨ i = 0 then some ck
      else linOuter n innerFuel fuel ck.1 (i - 1) (ck.2 - 1)

/-- `number-theory-linear/src/hnf.rs::hnf_with_u`: returns `(W, U, k)`. -/
def hnfWithU (a : List (List ℤ)) : Option (List (List ℤ) × List (List ℤ) × ℕ) :=
  if a = [] then some ([], [], 0)
  else
    let n := a.length
    let m := (a.getD 0 []).length
    let c0 := (List.range n).map fun j =>
      (a.getD j []) ++ (List.range n).map fun v => if v = j then (1 : ℤ) else 0
    match linOuter n 10000 (m + 1) c0 (m - 1) (n - 1) with
    | none => none
    | some (c2, k2) =>
      some ((c2.drop k2).map (fun r => r.take m), c2.map (fun r => r.drop m), k2)

/-- `HNF::new` of the linear crate. -/
def hnfNew (a : List (List ℤ)) : Option (List (List ℤ)) :=
  match hnfWithU a with
  | none => none
  | some (w, _, _) => some w

/-- `HNF::kernel`. -/
def hnfKernel (a : List (List ℤ)) : Option (List (List ℤ)) :=
  match hnfWithU a with
  | none => none
  | some (_, u, k) => some (u.take k)


/-- `gauss_elim.rs::gauss_elim`: solves `x · A = b` by column operations.
State `(a, b, col)`; iterates `row = 0 .. n-1`. -/
def gaussStep (a : List (List ℚ)) (b : List ℚ) (row col : ℕ) :
    Option (List (List ℚ) × List ℚ) :=
  let n := a.length
  match (List.range' col (n - col)).find? (fun i => mget a row i ≠ 0) with
  | none => none
  | some nxt =>
    let a1 := a.map fun r => (r.set col (r.getD nxt 0)).set nxt (r.getD col 0)
    let b1 := (b.set col (b.getD nxt 0)).set nxt (b.getD col 0)
    let arc := mget a1 row col
    let a2 := a1.map fun r => r.set col (r.getD col 0 / arc)
    let b2 := b1.set col (b1.getD col 0 / arc)
    let a3 := (List.range a2.length).map fun ri =>
      (List.range (a2.getD ri []).length).map fun i =>
        if i ≠ col ∧ i < n then
          mget a2 ri i - mget a2 row i * mget a2 ri col
        else mget a2 ri i
    let b3 := (List.range b2.length).map fun i =>
      if i ≠ col ∧ i < n then
        b2.getD i 0 - mget a2 row i * b2.getD col 0
      else b2.getD i 0
    some (a3, b3)

def gaussLoop : ℕ → List (List ℚ) → List ℚ → ℕ → Option (List ℚ)
  | 0, _, b, _ => some b
  | fuel + 1, a, b, row =>
    match gaussStep a b row row with
    | none => none
    | some (a1, b1) => gaussLoop fuel a1 b1 (row + 1)

def gaussElim (a : List (List ℚ)) (b : List ℚ) : Option (List ℚ) :=
  gaussLoop a.length a b 0


/-- `round2.rs::mul_mod_p` (entries reduced with `%` = `tmod`). -/
def mulModP (a b : List ℤ) (table : List (List (List ℤ))) (p : ℤ) : List ℤ :=
  let n := a.length
  (List.range n).map fun k =>
    (((List.range n).map fun i =>
      ((List.range n).map fun j =>
        (a.getD i 0 * b.getD j 0) * tget table i j k).sum).sum).tmod p

/-- `round2.rs::pow_mod_p` main loop: state `(e, prod, cur)`. -/
def powModPLoop (table : List (List (List ℤ))) (p : ℤ) :
    ℕ → ℤ → List ℤ → List ℤ → List ℤ
  | 0, _, prod, _ => prod
  | fuel + 1, e, prod, cur =>
    if e ≤ 0 then prod
    else
      let prod1 := if e.tmod 2 = 1 then mulModP prod cur table p else prod
      let cur1 := mulModP cur cur table p
      powModPLoop table p fuel (e.tdiv 2) prod1 cur1

def powModP (a : List ℤ) (e : ℤ) (table : List (List (List ℤ))) (p : ℤ) : List ℤ :=
  powModPLoop table p ((e - 1).toNat + 1) (e - 1) a a

/-- The `pow` computation: smallest power of `p` that is `>= deg` (as BigInt). -/
def powAtLeast (p : ℤ) (deg : ℕ) : ℕ → ℤ → ℤ
  | 0, pow => pow
  | fuel + 1, pow => if pow < (deg : ℤ) then powAtLeast p deg fuel (pow * p) else pow

/-- mult tables mod p^2 and mod p of the order `basis` (round2, also
`Order::get_mult_table` without the mods).  Entry `[i][j][k]`. -/
def multTables (minPoly : List ℤ) (basis : List (List ℚ)) (p2 p : ℤ) :
    Option (List (List (List ℤ)) × List (List (List ℤ))) :=
  let deg := minPoly.length - 1
  let rows := (List.range deg).map fun i =>
    (List.range deg).map fun j =>
      let oi := fromRaw (basis.getD i [])
      let oj := fromRaw (basis.getD j [])
      let prod := mulWithMod oi oj minPoly
      let b := (List.range deg).map fun k => coeff prod k
      match gaussElim basis b with
      | none => none
      | some inv =>
        if inv.all (fun q => q.den = 1) then
          some ((List.range deg).map fun k => ((inv.getD k 0).num.tmod p2))
        else none
  if rows.all (fun r => r.all (fun c => c.isSome)) then
    let t2 := rows.map fun r => r.map (fun c => c.getD [])
    some (t2, t2.map fun r => r.map (fun row => row.map (fun x => x.tmod p)))
  else none

/-- The `while index > 1` loop at the end of `one_step`: counts how many times
`index` is divisible by `p` (`assert!(index % p == 0)` modelled as `none`). -/
def howLoop (p : ℤ) : ℕ → ℤ → ℕ → Option (ℤ × ℕ)
  | 0, _, _ => none
  | fuel + 1, idx, hm =>
    if idx > 1 then
      if idx.tmod p = 0 then howLoop p fuel (idx.tdiv p) (hm + 1)
      else none
    else some (idx, hm)

/-- `round2.rs::one_step`. -/
def oneStep (minPoly : List ℤ) (basis : List (List ℚ)) (p : ℤ) :
    Option (List (List ℚ) × ℕ) :=
  let deg := minPoly.length - 1
  let pow := powAtLeast p deg (deg + 2) 1
  let p2 := p * p
  match multTables minPoly basis p2 p with
  | none => none
  | some (table2, table) =>
    let phiw := (List.range deg).map fun i =>
      powModP ((List.range deg).map fun j => if j = i then (1 : ℤ) else 0) pow table p
    let bigBasis := phiw ++ (List.range deg).map fun i =>
      (List.range deg).map fun j => if j = i then p else 0
    match hnfKernel bigBasis with
    | none => none
    | some ker =>
      match hnfNew ker with
      | none => none
      | some ipFull =>
        let i_p := ipFull.map (fun r => r.take deg)
        let ipLen := i_p.length
        -- the U_p loop
        let upResult := (List.range ipLen).foldl (fun (acc : Option (List (List ℤ))) i =>
          match acc with
          | none => none
          | some u_p =>
            let tmpBasis := (u_p.map fun uj => mulModP (i_p.getD i []) uj table2 p2)
              ++ (i_p.map fun r => r.map (fun x => x * p))
            match hnfKernel tmpBasis with
            | none => none
            | some ker2 =>
              match hnfNew ker2 with
              | none => none
              | some newUpFull =>
                let newUp := newUpFull.map (fun r => r.take u_p.length)
                let tmp2 := (List.range newUp.length).map fun i2 =>
                  (List.range deg).map fun k =>
                    ((List.range u_p.length).map fun j =>
                      zget u_p j k * zget newUp i2 j).sum
                hnfNew tmp2) (some i_p)
        match upResult with
        | none => none
        | some u_p =>
          if deg < u_p.length then none else
          let newOBasis := u_p ++ (List.range deg).map fun i =>
            (List.range deg).map fun j => if j = i then p else 0
          match hnfNew newOBasis with
          | none => none
          | some upH =>
            if upH.length ≠ deg then none
            else
              let newO : List (List ℚ) := (List.range deg).map fun i =>
                (List.range deg).map fun k =>
                  ((List.range deg).map fun j =>
                    ((zget upH i j : ℚ) / (p : ℚ)) * mget basis j k).sum
              match index newO basis with
              | none => none
              | some ind =>
                match howLoop p (ind.toNat + 2) ind 0 with
                | none => none
                | some hm => some (newO, hm.2)


/-- `Order::hnf_reduce`. -/
def lcmDen (basis : List (List ℚ)) : ℤ :=
  basis.foldl (fun l row => row.foldl (fun l q => Int.lcm l (q.den : ℤ)) l) 1

def hnfReduce (basis : List (List ℚ)) : Option (List (List ℚ)) :=
  let lcm := lcmDen basis
  let deg := basis.length
  let ibasis := (List.range deg).map fun i =>
    (List.range deg).map fun j => ratToInt (mget basis i j * (lcm : ℚ))
  match legacyHnf ibasis with
  | none => none
  | some h =>
    some ((List.range deg).map fun i =>
      (List.range deg).map fun j => (zget h i j : ℚ) / (lcm : ℚ))

/-- `Order::discriminant`. -/
def orderDisc (minPoly : List ℤ) (basis : List (List ℚ)) : Option ℤ :=
  let deg := minPoly.length - 1
  match discPoly minPoly with
  | none => none
  | some disc =>
    let det := detAlg basis
    let lc := coeff minPoly deg
    let value := (disc : ℚ) * det * det / ((lc ^ (2 * (deg - 1)) : ℤ) : ℚ)
    if value.den = 1 then some value.num else none

/-- `factorize.rs::factorize` (trial division). -/
def factIntInner (p : ℤ) : ℕ → ℤ → ℕ → ℤ × ℕ
  | 0, n, e => (n, e)
  | fuel + 1, n, e => if n.tmod p = 0 then factIntInner p fuel (n.tdiv p) (e + 1) else (n, e)

def factIntOuter : ℕ → ℤ → ℤ → List (ℤ × ℕ) → Option (List (ℤ × ℕ))
  | 0, _, _, _ => none
  | fuel + 1, p, n, acc =>
    if p * p ≤ n then
      let ne := factIntInner p (n.toNat + 1) n 0
      let acc1 := if ne.2 > 0 then acc ++ [(p, ne.2)] else acc
      factIntOuter fuel (p + 1) ne.1 acc1
    else if n > 1 then some (acc ++ [(n, 1)]) else some acc

def factorizeInt (n : ℤ) : Option (List (ℤ × ℕ)) :=
  factIntOuter (n.toNat + 2) 2 n []


/-- the `while e >= 2` loop of `find_integral_basis`. -/
def fibInner (minPoly : List ℤ) (p : ℤ) :
    ℕ → ℕ → List (List ℚ) → Option (List (List ℚ))
  | 0, _, _ => none
  | fuel + 1, e, basis =>
    if e ≥ 2 then
      match oneStep minPoly basis p with
      | none => none
      | some (newO, howmany) =>
        if howmany = 0 then some newO
        else fibInner minPoly p fuel (e - 2 * howmany) newO
    else some basis

def fibOuter (minPoly : List ℤ) : List (ℤ × ℕ) → List (List ℚ) → Option (List (List ℚ))
  | [], basis => some basis
  | (p, e) :: rest, basis =>
    match fibInner minPoly p (e + 1) e basis with
    | none => none
    | some b2 => fibOuter minPoly rest b2

/-- `find_integral_basis`. -/
def findIntegralBasis (minPoly : List ℤ) : Option (List (List ℚ)) :=
  match hnfReduce (nmio minPoly) with
  | none => none
  | some o =>
    match orderDisc minPoly o with
    | none => none
    | some disc =>
      match factorizeInt |disc| with
      | none => none
      | some fac => fibOuter minPoly fac o

def fibDisc (minPoly : List ℤ) : Option ℤ :=
  match findIntegralBasis minPoly with
  | none => none
  | some o => orderDisc minPoly o



/-- The first `m` entries of a row, as a vector in `ℤ^m` (missing entries are 0). -/
def rowVecA (m : ℕ) (r : List ℤ) : Fin m → ℤ := fun j => r.getD j 0

/-- The set of row vectors (`A`-parts) of a matrix. -/
def rowSetA (m : ℕ) (c : List (List ℤ)) : Set (Fin m → ℤ) :=
  {v | ∃ r ∈ c, v = rowVecA m r}

/-- The ℤ-module generated by the rows of a matrix (first `m` columns). -/
def spanA (m : ℕ) (c : List (List ℤ)) : Submodule ℤ (Fin m → ℤ) :=
  Submodule.span ℤ (rowSetA m c)

/-- Lower-triangular HNF shape for rows `k ≤ r < n` of `c`, with pivot columns
given by `pc`: pivots positive, entries to the right of each pivot zero,
entries below each pivot in `[0, pivot)`, pivot columns strictly increasing. -/
def ShapedFin (n m k : ℕ) (pc : ℕ → ℕ) (c : List (List ℤ)) : Prop :=
  (∀ r, k ≤ r → r < n → pc r < m ∧ 0 < zget c r (pc r) ∧
    (∀ col, pc r < col → col < m → zget c r col = 0) ∧
    (∀ r2, r < r2 → r2 < n → 0 ≤ zget c r2 (pc r) ∧ zget c r2 (pc r) < zget c r (pc r)))
  ∧ (∀ r, k ≤ r → r + 1 < n → pc r < pc (r + 1))

/-- Well-formed state: `n` rows, each of length `L`. -/
def CWF (n L : ℕ) (c : List (List ℤ)) : Prop :=
  c.length = n ∧ ∀ r ∈ c, r.length = L

end RustNT

namespace RustNT

theorem coeff_nil {R : Type} [Zero R] (n : ℕ) : coeff ([] : List R) n = 0 := rfl

theorem coeff_eq_zero_of_le {R : Type} [Zero R] (l : List R) {n : ℕ}
    (h : l.length ≤ n) : coeff l n = 0 :=
  List.getD_eq_default _ _ h

theorem fromRaw_append_eq {R : Type} [Zero R] [DecidableEq R] (l : List R) :
    fromRaw l ++ (l.reverse.takeWhile (fun x => x = 0)).reverse = l := by
  unfold fromRaw List.rdropWhile
  rw [← List.reverse_append, List.takeWhile_append_dropWhile, List.reverse_reverse]

theorem mem_dropped_eq_zero {R : Type} [Zero R] [DecidableEq R] (l : List R) (x : R)
    (hx : x ∈ (l.reverse.takeWhile (fun x => x = 0)).reverse) : x = 0 := by
  rw [List.mem_reverse] at hx
  have := List.mem_takeWhile_imp hx
  simpa using this

theorem coeff_fromRaw {R : Type} [Zero R] [DecidableEq R] (l : List R) (n : ℕ) :
    coeff (fromRaw l) n = coeff l n := by
  have hsplit := fromRaw_append_eq l
  unfold coeff
  rcases Nat.lt_or_ge n (fromRaw l).length with h | h
  · conv_rhs => rw [← hsplit]
    rw [List.getD_append _ _ _ _ h]
  · rw [List.getD_eq_default _ _ h]
    conv_rhs => rw [← hsplit]
    rw [List.getD_append_right _ _ _ _ h]
    rcases Nat.lt_or_ge (n - (fromRaw l).length)
        (l.reverse.takeWhile (fun x => x = 0)).reverse.length with h2 | h2
    · have hmem : (l.reverse.takeWhile (fun x => x = 0)).reverse.getD
          (n - (fromRaw l).length) 0 ∈ (l.reverse.takeWhile (fun x => x = 0)).reverse := by
        rw [List.getD_eq_getElem _ _ h2]
        exact List.getElem_mem _
      exact (mem_dropped_eq_zero l _ hmem).symm
    · rw [List.getD_eq_default _ _ h2]

theorem isPoly_fromRaw {R : Type} [Zero R] [DecidableEq R] (l : List R) :
    IsPoly (fromRaw l) := by
  intro x hx hx0
  have hne : fromRaw l ≠ [] := by
    intro hnil
    rw [hnil] at hx
    exact Option.noConfusion hx
  have hlast := List.rdropWhile_last_not (fun x => decide (x = 0)) l hne
  rw [List.getLast?_eq_getLast _ hne] at hx
  have heq : (fromRaw l).getLast hne = x := Option.some.inj hx
  unfold fromRaw at heq
  simp only [decide_eq_true_eq] at hlast
  rw [heq] at hlast
  exact hlast hx0

theorem isPoly_iff_getLast {R : Type} [Zero R] {l : List R} :
    IsPoly l ↔ l.getLast? ≠ some 0 := by
  constructor
  · intro hp heq
    exact hp 0 heq rfl
  · intro h x hx hx0
    rw [hx0] at hx
    exact h hx

theorem coeff_last {R : Type} [Zero R] (l : List R) (h : l ≠ []) :
    coeff l (l.length - 1) = l.getLast h := by
  have hlt : l.length - 1 < l.length := by
    have := List.length_pos.mpr h
    omega
  unfold coeff
  rw [List.getD_eq_getElem _ _ hlt, List.getLast_eq_getElem]

theorem isPoly_coeff_ne {R : Type} [Zero R] {l : List R} (hl : IsPoly l) (h : l ≠ []) :
    coeff l (l.length - 1) ≠ 0 := by
  rw [coeff_last l h]
  exact hl _ (List.getLast?_eq_getLast _ h)

theorem isPoly_ext {R : Type} [Zero R] {a b : List R} (ha : IsPoly a) (hb : IsPoly b)
    (h : ∀ n, coeff a n = coeff b n) : a = b := by
  have hlen : a.length = b.length := by
    rcases Nat.lt_trichotomy a.length b.length with hlt | he | hgt
    · exfalso
      have hbne : b ≠ [] := by
        intro hnil; rw [hnil] at hlt; simp at hlt
      have h1 : coeff a (b.length - 1) = 0 :=
        coeff_eq_zero_of_le a (by omega)
      exact isPoly_coeff_ne hb hbne (by rw [← h]; exact h1)
    · exact he
    · exfalso
      have hane : a ≠ [] := by
        intro hnil; rw [hnil] at hgt; simp at hgt
      have h1 : coeff b (a.length - 1) = 0 :=
        coeff_eq_zero_of_le b (by omega)
      exact isPoly_coeff_ne ha hane (by rw [h]; exact h1)
  apply List.ext_getElem hlen
  intro n h1 h2
  have := h n
  unfold coeff at this
  rwa [List.getD_eq_getElem _ _ h1, List.getD_eq_getElem _ _ h2] at this

theorem coeff_mapRange {R : Type} [Zero R] (f : ℕ → R) (m n : ℕ) :
    coeff ((List.range m).map f) n = if n < m then f n else 0 := by
  unfold coeff
  rcases Nat.lt_or_ge n m with h | h
  · rw [List.getD_eq_getElem _ _ (by simpa using h)]
    simp [h]
  · rw [List.getD_eq_default _ _ (by simpa using h)]
    simp [Nat.not_lt.mpr h]

theorem sum_range_list {M : Type} [AddCommMonoid M] (f : ℕ → M) (k : ℕ) :
    ((List.range k).map f).sum = ∑ i ∈ Finset.range k, f i := by
  induction k with
  | zero => simp
  | succ k ih =>
    rw [List.range_succ, List.map_append, List.sum_append, Finset.sum_range_succ, ih]
    simp

theorem coeff_polyAdd {R : Type} [AddCommMonoid R] [DecidableEq R] (a b : List R) (n : ℕ) :
    coeff (polyAdd a b) n = coeff a n + coeff b n := by
  unfold polyAdd
  split_ifs with h1 h2
  · subst h1; simp [coeff]
  · subst h2; simp [coeff]
  · rw [coeff_fromRaw, coeff_mapRange]
    split_ifs with h
    · rfl
    · rw [coeff_eq_zero_of_le a (by omega), coeff_eq_zero_of_le b (by omega), add_zero]

theorem coeff_polyNeg {R : Type} [Ring R] (a : List R) (n : ℕ) :
    coeff (polyNeg a) n = -coeff a n := by
  unfold polyNeg coeff
  rcases Nat.lt_or_ge n a.length with h | h
  · rw [List.getD_eq_getElem _ _ (by simpa using h), List.getD_eq_getElem _ _ h]
    simp
  · rw [List.getD_eq_default _ _ (by simpa using h), List.getD_eq_default _ _ h]
    simp

theorem coeff_polySub {R : Type} [Ring R] [DecidableEq R] (a b : List R) (n : ℕ) :
    coeff (polySub a b) n = coeff a n - coeff b n := by
  unfold polySub
  split_ifs with h1 h2
  · subst h1; rw [coeff_polyNeg]; simp [coeff]
  · subst h2; simp [coeff]
  · rw [coeff_fromRaw, coeff_mapRange]
    split_ifs with h
    · rfl
    · rw [coeff_eq_zero_of_le a (by omega), coeff_eq_zero_of_le b (by omega), sub_zero]

theorem coeff_polyMul {R : Type} [CommRing R] [DecidableEq R] (a b : List R) (n : ℕ) :
    coeff (polyMul a b) n = ∑ i ∈ Finset.range (n + 1), coeff a i * coeff b (n - i) := by
  unfold polyMul
  split_ifs with h1 h2
  · subst h1
    simp [coeff]
  · subst h2
    simp [coeff]
  · rw [coeff_fromRaw, coeff_mapRange]
    split_ifs with h
    · rw [sum_range_list]
    · symm
      apply Finset.sum_eq_zero
      intro i hi
      rw [Finset.mem_range] at hi
      rcases Nat.lt_or_ge i a.length with ha | ha
      · have : b.length ≤ n - i := by
          have h3 : 0 < a.length := List.length_pos.mpr h1
          have h4 : 0 < b.length := List.length_pos.mpr h2
          omega
        rw [coeff_eq_zero_of_le b this, mul_zero]
      · rw [coeff_eq_zero_of_le a ha, zero_mul]

theorem coeff_map_mul (a : List ℤ) (f : ℤ) (n : ℕ) :
    coeff (a.map (fun x => x * f)) n = coeff a n * f := by
  unfold coeff
  rcases Nat.lt_or_ge n a.length with h | h
  · rw [List.getD_eq_getElem _ _ (by simpa using h), List.getD_eq_getElem _ _ h]
    simp
  · rw [List.getD_eq_default _ _ (by simpa using h), List.getD_eq_default _ _ h, zero_mul]

theorem fromRaw_length_le {R : Type} [Zero R] [DecidableEq R] {l : List R} {m : ℕ}
    (h : ∀ n, m ≤ n → coeff l n = 0) : (fromRaw l).length ≤ m := by
  by_contra hcon
  push_neg at hcon
  have hne : fromRaw l ≠ [] := by
    intro hnil; rw [hnil] at hcon; simp at hcon
  have h1 := isPoly_coeff_ne (isPoly_fromRaw l) hne
  rw [coeff_fromRaw] at h1
  exact h1 (h _ (by omega))

theorem coeff_append_single {R : Type} [AddCommMonoid R] {q : List R} {c : ℕ} (hq : q.length = c)
    (x : R) (i : ℕ) : coeff (q ++ [x]) i = coeff q i + (if i = c then x else 0) := by
  subst hq
  unfold coeff
  rcases Nat.lt_trichotomy i q.length with h | h | h
  · rw [List.getD_append _ _ _ _ h, if_neg (by omega), add_zero]
  · subst h
    rw [List.getD_append_right _ _ _ _ (le_refl _), Nat.sub_self,
      List.getD_eq_default q _ (le_refl _), if_pos rfl]
    simp [List.getD]
  · rw [List.getD_append_right _ _ _ _ (by omega), if_neg (by omega),
      List.getD_eq_default q _ (by omega), List.getD_eq_default _ _ (by simp; omega)]
    simp

theorem pdrLoop_identity (b : List ℤ) (lcb : ℤ) (bdeg : ℕ) (hb : b.length ≤ bdeg + 1) :
    ∀ (c : ℕ) (tmp : List ℤ), c + bdeg ≤ tmp.length →
      (pdrLoop b lcb bdeg c tmp).1.length = c ∧
      (pdrLoop b lcb bdeg c tmp).2.length = tmp.length ∧
      ∀ n, coeff tmp n =
        (∑ i ∈ Finset.range (n + 1),
          coeff (pdrLoop b lcb bdeg c tmp).1 i * coeff b (n - i))
        + coeff (pdrLoop b lcb bdeg c tmp).2 n := by
  intro c
  induction c with
  | zero =>
    intro tmp _
    refine ⟨rfl, rfl, fun n => ?_⟩
    simp [pdrLoop, coeff_nil]
  | succ c ih =>
    intro tmp hlen
    simp only [pdrLoop]
    set coef := (coeff tmp (c + bdeg)).tdiv lcb with hcoef
    set tmp' := (List.range tmp.length).map
      (fun j => if c ≤ j ∧ j ≤ c + bdeg
                then coeff tmp j - coef * coeff b (j - c) else coeff tmp j) with htmp'
    have hlen' : tmp'.length = tmp.length := by simp [htmp']
    obtain ⟨ih1, ih2, ih3⟩ := ih tmp' (by omega)
    refine ⟨by simp [ih1], by rw [ih2, hlen'], fun n => ?_⟩
    have hstep : coeff tmp n = coeff tmp' n +
        (if c ≤ n ∧ n ≤ c + bdeg then coef * coeff b (n - c) else 0) := by
      rcases Nat.lt_or_ge n tmp.length with h | h
      · rw [htmp', coeff_mapRange, if_pos h]
        split_ifs with h2
        · ring
        · ring
      · rw [coeff_eq_zero_of_le tmp h, coeff_eq_zero_of_le tmp' (by omega),
          if_neg (by omega), add_zero]
    have hq : ∀ i, coeff ((pdrLoop b lcb bdeg c tmp').1 ++ [coef]) i =
        coeff (pdrLoop b lcb bdeg c tmp').1 i + (if i = c then coef else 0) :=
      coeff_append_single ih1 coef
    have hsum : (∑ i ∈ Finset.range (n + 1),
          coeff ((pdrLoop b lcb bdeg c tmp').1 ++ [coef]) i * coeff b (n - i)) =
        (∑ i ∈ Finset.range (n + 1),
          coeff (pdrLoop b lcb bdeg c tmp').1 i * coeff b (n - i))
        + (if c ≤ n then coef * coeff b (n - c) else 0) := by
      have : ∀ i ∈ Finset.range (n + 1),
          coeff ((pdrLoop b lcb bdeg c tmp').1 ++ [coef]) i * coeff b (n - i) =
          coeff (pdrLoop b lcb bdeg c tmp').1 i * coeff b (n - i)
          + (if i = c then coef * coeff b (n - c) else 0) := by
        intro i hi
        rw [hq i, add_mul]
        congr 1
        split_ifs with h
        · subst h; rfl
        · exact zero_mul _
      rw [Finset.sum_congr rfl this, Finset.sum_add_distrib]
      congr 1
      rw [Finset.sum_ite_eq' (Finset.range (n + 1)) c (fun _ => coef * coeff b (n - c))]
      simp only [Finset.mem_range]
      congr 1
      simp [Nat.lt_succ_iff]
    have hext : (if c ≤ n ∧ n ≤ c + bdeg then coef * coeff b (n - c) else 0) =
        (if c ≤ n then coef * coeff b (n - c) else 0) := by
      by_cases hA : c ≤ n ∧ n ≤ c + bdeg
      · rw [if_pos hA, if_pos hA.1]
      · rw [if_neg hA]
        by_cases hB : c ≤ n
        · have h3 : c + bdeg < n := by
            rcases Nat.lt_or_ge (c + bdeg) n with h | h
            · exact h
            · exact absurd ⟨hB, h⟩ hA
          rw [if_pos hB, coeff_eq_zero_of_le b (by omega), mul_zero]
        · rw [if_neg hB]
    rw [hstep, ih3 n, hsum, hext]
    ring

theorem pdrLoop_rem_bound (b : List ℤ) (lcb : ℤ) (bdeg : ℕ) (hlcb : lcb ≠ 0)
    (hlb : coeff b bdeg = lcb) :
    ∀ (c : ℕ) (tmp : List ℤ), c + bdeg ≤ tmp.length →
      (∀ n, lcb ^ c ∣ coeff tmp n) →
      (∀ n, c + bdeg ≤ n → coeff tmp n = 0) →
      ∀ n, bdeg ≤ n → coeff (pdrLoop b lcb bdeg c tmp).2 n = 0 := by
  intro c
  induction c with
  | zero =>
    intro tmp _ _ hz n hn
    exact hz n (by omega)
  | succ c ih =>
    intro tmp hlen hdvd hz
    simp only [pdrLoop]
    set coef := (coeff tmp (c + bdeg)).tdiv lcb with hcoef
    set tmp' := (List.range tmp.length).map
      (fun j => if c ≤ j ∧ j ≤ c + bdeg
                then coeff tmp j - coef * coeff b (j - c) else coeff tmp j) with htmp'
    have hlen' : tmp'.length = tmp.length := by simp [htmp']
    obtain ⟨m, hm⟩ := hdvd (c + bdeg)
    have hmeq : coeff tmp (c + bdeg) = lcb * (lcb ^ c * m) := by
      rw [hm, pow_succ]; ring
    have hcoefeq : coef = lcb ^ c * m := by
      rw [hcoef, hmeq, Int.mul_tdiv_cancel_left _ hlcb]
    have hcoefdvd : lcb ^ c ∣ coef := ⟨m, hcoefeq⟩
    have hstep : ∀ j, coeff tmp' j =
        (if c ≤ j ∧ j ≤ c + bdeg then coeff tmp j - coef * coeff b (j - c)
         else coeff tmp j) := by
      intro j
      rcases Nat.lt_or_ge j tmp.length with h | h
      · rw [htmp', coeff_mapRange, if_pos h]
      · rw [coeff_eq_zero_of_le tmp' (by omega)]
        have hj : coeff tmp j = 0 := coeff_eq_zero_of_le tmp h
        split_ifs with h2
        · rw [hj, coeff_eq_zero_of_le b (by omega), mul_zero, sub_zero]
        · rw [hj]
    apply ih tmp' (by omega)
    · intro n
      rw [hstep n]
      split_ifs with h
      · exact dvd_sub (dvd_trans (pow_dvd_pow lcb (by omega)) (hdvd n))
          (Dvd.dvd.mul_right hcoefdvd _)
      · exact dvd_trans (pow_dvd_pow lcb (by omega)) (hdvd n)
    · intro n hn
      rw [hstep n]
      rcases Nat.lt_or_ge n (c + bdeg + 1) with h | h
      · have hn' : n = c + bdeg := by omega
        subst hn'
        rw [if_pos ⟨by omega, le_refl _⟩]
        have hsub : c + bdeg - c = bdeg := by omega
        rw [hsub, hlb, hmeq, hcoefeq]
        ring
      · rw [if_neg (by omega)]
        exact hz n (by omega)

/-- The amended claim C3: for `b ≠ 0` and (`a = 0` or `deg a ≥ deg b`),
pseudo-division satisfies `lc(b)^(deg a - deg b + 1) · a = Q · b + R` with
`R = 0` or `deg R < deg b`. -/
theorem pseudoDivRem_amended (a b : List ℤ) (ha : IsPoly a) (hb : IsPoly b)
    (hbne : b ≠ []) (hdeg : a = [] ∨ b.length ≤ a.length) :
    (∀ n, coeff b (b.length - 1) ^ ((a.length - 1) - (b.length - 1) + 1) * coeff a n
        = coeff (polyAdd (polyMul (pseudoDivRem a b).1 b) (pseudoDivRem a b).2) n)
    ∧ ((pseudoDivRem a b).2 = [] ∨ (pseudoDivRem a b).2.length < b.length) := by
  rcases hdeg with hanil | hlen
  · subst hanil
    have h0 : pseudoDivRem [] b = (fromRaw [0], []) := by
      unfold pseudoDivRem
      rw [if_pos (Or.inl rfl)]
    rw [h0]
    constructor
    · intro n
      have : fromRaw [(0 : ℤ)] = [] := rfl
      rw [this]
      simp [polyMul, polyAdd, coeff_nil, mul_zero]
    · left; rfl
  · have hane : a ≠ [] := by
      intro hnil
      rw [hnil] at hlen
      have hb0 : b.length = 0 := by simpa using hlen
      exact hbne (List.length_eq_zero.mp hb0)
    have hcond : ¬(a = [] ∨ b = [] ∨ a.length < b.length) := by
      push_neg
      exact ⟨hane, hbne, by omega⟩
    have hblen : 0 < b.length := List.length_pos.mpr hbne
    have halen : 0 < a.length := List.length_pos.mpr hane
    set adeg := a.length - 1 with hadeg
    set bdeg := b.length - 1 with hbdeg
    set lcb := coeff b bdeg with hlcb
    set diff := adeg - bdeg with hdiff
    set factor := lcb ^ (diff + 1) with hfactor
    set tmp := a.map (fun x => x * factor) with htmp
    have hpdr : pseudoDivRem a b =
        (fromRaw (pdrLoop b lcb bdeg (diff + 1) tmp).1,
         fromRaw (pdrLoop b lcb bdeg (diff + 1) tmp).2) := by
      unfold pseudoDivRem
      rw [if_neg hcond]
    have hlb : b.length ≤ bdeg + 1 := by omega
    have htmplen : tmp.length = a.length := by simp [htmp]
    have hcnt : diff + 1 + bdeg ≤ tmp.length := by
      rw [htmplen]; omega
    obtain ⟨hq, ht, hid⟩ := pdrLoop_identity b lcb bdeg hlb (diff + 1) tmp hcnt
    have hlcbne : lcb ≠ 0 := by
      rw [hlcb, hbdeg]
      exact isPoly_coeff_ne hb hbne
    have hbound := pdrLoop_rem_bound b lcb bdeg hlcbne rfl (diff + 1) tmp hcnt
      (fun n => by
        rw [htmp, coeff_map_mul, hfactor]
        exact Dvd.dvd.mul_left dvd_rfl _)
      (fun n hn => by
        apply coeff_eq_zero_of_le
        rw [htmplen]; omega)
    constructor
    · intro n
      rw [hpdr]
      have h1 : coeff tmp n = coeff a n * factor := by
        rw [htmp, coeff_map_mul]
      have h2 := hid n
      rw [h1, mul_comm (coeff a n) factor] at h2
      rw [coeff_polyAdd, coeff_polyMul]
      simp only [coeff_fromRaw]
      exact h2
    · right
      rw [hpdr]
      dsimp only
      have hb1 : (fromRaw (pdrLoop b lcb bdeg (diff + 1) tmp).2).length ≤ bdeg :=
        fromRaw_length_le (fun n hn => hbound n hn)
      omega

/-- Sanity check: the embedding reproduces the repository's own unit test
`test_pseudo_div_rem_bigint` exactly. -/
theorem pseudoDivRem_matches_repo_test :
    pseudoDivRem [5, 0, 2, 0, 6, 9] [6, 6, 6, 1, 7] =
      ([33, 63], [47, -576, -478, -411]) := by decide

/-- Witness for the amended claim C3, at the repository's own test input
`f = 9x⁵+6x⁴+2x²+5`, `g = 7x⁴+x³+6x²+6x+6`. -/
theorem pseudoDivRem_amended_witness :
    (([(6 : ℤ), 6, 6, 1, 7] : List ℤ) ≠ [] ∧
      ([(6 : ℤ), 6, 6, 1, 7] : List ℤ).length ≤ ([(5 : ℤ), 0, 2, 0, 6, 9] : List ℤ).length) ∧
    ((∀ n, coeff [(6 : ℤ), 6, 6, 1, 7] (([(6 : ℤ), 6, 6, 1, 7] : List ℤ).length - 1) ^
          ((([(5 : ℤ), 0, 2, 0, 6, 9] : List ℤ).length - 1)
            - (([(6 : ℤ), 6, 6, 1, 7] : List ℤ).length - 1) + 1) *
          coeff [(5 : ℤ), 0, 2, 0, 6, 9] n
        = coeff (polyAdd
            (polyMul (pseudoDivRem [5, 0, 2, 0, 6, 9] [6, 6, 6, 1, 7]).1 [6, 6, 6, 1, 7])
            (pseudoDivRem [5, 0, 2, 0, 6, 9] [6, 6, 6, 1, 7]).2) n)
      ∧ ((pseudoDivRem [5, 0, 2, 0, 6, 9] [6, 6, 6, 1, 7]).2 = []
          ∨ (pseudoDivRem [5, 0, 2, 0, 6, 9] [6, 6, 6, 1, 7]).2.length
            < ([(6 : ℤ), 6, 6, 1, 7] : List ℤ).length)) :=
  ⟨⟨by decide, by decide⟩,
   pseudoDivRem_amended [5, 0, 2, 0, 6, 9] [6, 6, 6, 1, 7]
     (isPoly_iff_getLast.mpr (by decide)) (isPoly_iff_getLast.mpr (by decide))
     (by decide) (Or.inr (by decide))⟩

theorem coeff_toPoly (l : List ℤ) (n : ℕ) : (toPoly l).coeff n = coeff l n := by
  unfold toPoly
  rw [Polynomial.finset_sum_coeff]
  simp only [Polynomial.coeff_C_mul, Polynomial.coeff_X_pow, mul_ite, mul_one, mul_zero]
  rw [Finset.sum_ite_eq (Finset.range l.length) n (fun i => coeff l i)]
  simp only [Finset.mem_range]
  split_ifs with h
  · rfl
  · rw [coeff_eq_zero_of_le l (by omega)]

theorem toPoly_polyAdd (a b : List ℤ) : toPoly (polyAdd a b) = toPoly a + toPoly b :=
  Polynomial.ext fun n => by
    rw [coeff_toPoly, coeff_polyAdd, Polynomial.coeff_add, coeff_toPoly, coeff_toPoly]

theorem toPoly_polySub (a b : List ℤ) : toPoly (polySub a b) = toPoly a - toPoly b :=
  Polynomial.ext fun n => by
    rw [coeff_toPoly, coeff_polySub, Polynomial.coeff_sub, coeff_toPoly, coeff_toPoly]

theorem toPoly_polyMul (a b : List ℤ) : toPoly (polyMul a b) = toPoly a * toPoly b :=
  Polynomial.ext fun n => by
    rw [coeff_toPoly, coeff_polyMul, Polynomial.coeff_mul,
      Finset.Nat.sum_antidiagonal_eq_sum_range_succ
        (fun i j => (toPoly a).coeff i * (toPoly b).coeff j)]
    exact Finset.sum_congr rfl fun i _ => by rw [coeff_toPoly, coeff_toPoly]

theorem coeff_polyMulS (f : List ℤ) (m : ℤ) (n : ℕ) :
    coeff (polyMulS f m) n = coeff f n * m := by
  unfold polyMulS
  split_ifs with h
  · subst h; simp [coeff_nil]
  · rw [coeff_fromRaw, coeff_mapRange]
    split_ifs with h2
    · rfl
    · rw [coeff_eq_zero_of_le f (by omega), zero_mul]

theorem toPoly_polyMulS (f : List ℤ) (m : ℤ) :
    toPoly (polyMulS f m) = toPoly f * Polynomial.C m :=
  Polynomial.ext fun n => by
    rw [coeff_toPoly, coeff_polyMulS, Polynomial.coeff_mul_C, coeff_toPoly]

theorem toPoly_one : toPoly [(1 : ℤ)] = 1 := by
  unfold toPoly
  simp [coeff]

theorem coeff_polyModF (f : List ℤ) (p : ℤ) (n : ℕ) :
    coeff (polyModF f p) n = (coeff f n).fmod p := by
  unfold polyModF
  split_ifs with h
  · subst h; simp [coeff_nil, Int.zero_fmod]
  · rw [coeff_fromRaw, coeff_mapRange]
    split_ifs with h2
    · rfl
    · rw [coeff_eq_zero_of_le f (by omega), Int.zero_fmod]

theorem coeff_polyDivF (f : List ℤ) (d : ℤ) (n : ℕ) :
    coeff (polyDivF f d) n = (coeff f n).fdiv d := by
  unfold polyDivF
  split_ifs with h
  · subst h; simp [coeff_nil, Int.zero_fdiv]
  · rw [coeff_fromRaw, coeff_mapRange]
    split_ifs with h2
    · rfl
    · rw [coeff_eq_zero_of_le f (by omega), Int.zero_fdiv]

theorem fmod_sub_self_dvd (m x : ℤ) : m ∣ x.fmod m - x := by
  have h := Int.fmod_add_fdiv x m
  have h2 : x.fmod m - x = -(m * x.fdiv m) := by linarith
  rw [h2]
  exact dvd_neg.mpr (dvd_mul_right m _)

theorem polyCong_polyModF (f : List ℤ) (m : ℤ) : PolyCong m (polyModF f m) f := by
  intro n
  rw [coeff_polyModF]
  exact fmod_sub_self_dvd m (coeff f n)

theorem polyCong_iff (m : ℤ) (f g : List ℤ) :
    PolyCong m f g ↔ Polynomial.C m ∣ toPoly f - toPoly g := by
  rw [Polynomial.C_dvd_iff_dvd_coeff]
  constructor <;> intro h n
  · simpa [Polynomial.coeff_sub, coeff_toPoly] using h n
  · simpa [Polynomial.coeff_sub, coeff_toPoly] using h n

theorem polyCong_of_checked (m : ℤ) (f g : List ℤ) (N : ℕ)
    (hN : f.length ≤ N ∧ g.length ≤ N)
    (h : ∀ n < N, m ∣ coeff f n - coeff g n) : PolyCong m f g := by
  intro n
  by_cases hn : n < N
  · exact h n hn
  · rw [coeff_eq_zero_of_le f (by omega), coeff_eq_zero_of_le g (by omega)]
    simp

/-- Claim C5: the Hensel-lift step.  Under the documented preconditions
(`c ≡ ab (mod q)`, `au + bv ≡ 1 (mod p)`, `gcd(lc a, gcd(p,q)) = 1`,
`deg u < deg b`, `deg v < deg a`, `deg c = deg a + deg b`; `p, q` nonzero so
that the divisions in the code are defined), `hensel_lift` returns
`(a₁, b₁, qr)` with `qr = q·gcd(p,q)` and `c ≡ a₁·b₁ (mod q·gcd(p,q))`. -/
theorem henselLift_spec (p q : ℤ) (c a b u v : List ℤ)
    (hp : p ≠ 0) (hq : q ≠ 0)
    (hcong1 : PolyCong q c (polyMul a b))
    (hcong2 : PolyCong p (polyAdd (polyMul a u) (polyMul b v)) [1])
    (hgcd : Int.gcd (coeff a (a.length - 1)) (Int.gcd p q) = 1)
    (hdegu : u.length < b.length)
    (hdegv : v.length < a.length)
    (hdegc : c.length + 1 = a.length + b.length) :
    (henselLift p q c a b u v).2.2 = q * Int.gcd p q ∧
    PolyCong (q * Int.gcd p q) c
      (polyMul (henselLift p q c a b u v).1 (henselLift p q c a b u v).2.1) := by
  set r : ℤ := (Int.gcd p q : ℤ) with hrdef
  have hrp : r ∣ p := Int.gcd_dvd_left
  have hrq : r ∣ q := Int.gcd_dvd_right
  set g := polyDivF (polySub c (polyMul a b)) q with hgdef
  set f := polyModF g r with hfdef
  set t := (polyDivremP (polyMul v f) a r).1 with htdef
  set a0 := polySub (polyMul v f) (polyMul a t) with ha0def
  set b0 := polyAdd (polyMul u f) (polyMul b t) with hb0def
  set a1 := polyModF (polyAdd a (polyMulS a0 q)) (q * r) with ha1def
  set b1 := polyModF (polyAdd b (polyMulS b0 q)) (q * r) with hb1def
  have hunfold : henselLift p q c a b u v = (a1, b1, q * r) := rfl
  rw [hunfold]
  refine ⟨rfl, ?_⟩
  have hG : toPoly c - toPoly a * toPoly b = Polynomial.C q * toPoly g := by
    apply Polynomial.ext
    intro n
    rw [Polynomial.coeff_sub, Polynomial.coeff_C_mul, ← toPoly_polyMul,
      coeff_toPoly, coeff_toPoly, coeff_toPoly, hgdef, coeff_polyDivF, coeff_polySub]
    obtain ⟨k, hk⟩ := hcong1 n
    rw [hk, Int.mul_fdiv_cancel_left _ hq]
  have hF : Polynomial.C r ∣ toPoly g - toPoly f := by
    have h2 := (polyCong_iff r f g).mp (polyCong_polyModF g r)
    have h3 := dvd_neg.mpr h2
    rwa [neg_sub] at h3
  have hUVr : Polynomial.C r ∣ 1 - (toPoly a * toPoly u + toPoly b * toPoly v) := by
    have h2 := (polyCong_iff p (polyAdd (polyMul a u) (polyMul b v)) [1]).mp hcong2
    rw [toPoly_polyAdd, toPoly_polyMul, toPoly_polyMul, toPoly_one] at h2
    have h3 : Polynomial.C r ∣ Polynomial.C p := map_dvd Polynomial.C hrp
    have h4 := dvd_neg.mpr (dvd_trans h3 h2)
    rwa [neg_sub] at h4
  have hA0eq : toPoly a0 = toPoly v * toPoly f - toPoly a * toPoly t := by
    rw [ha0def, toPoly_polySub, toPoly_polyMul, toPoly_polyMul]
  have hB0eq : toPoly b0 = toPoly u * toPoly f + toPoly b * toPoly t := by
    rw [hb0def, toPoly_polyAdd, toPoly_polyMul, toPoly_polyMul]
  have hA1cong : Polynomial.C (q * r) ∣ toPoly a1 - (toPoly a + Polynomial.C q * toPoly a0) := by
    have h6 := (polyCong_iff (q * r) a1 (polyAdd a (polyMulS a0 q))).mp
      (by rw [ha1def]; exact polyCong_polyModF _ _)
    rw [toPoly_polyAdd, toPoly_polyMulS, mul_comm (toPoly a0) (Polynomial.C q)] at h6
    exact h6
  have hB1cong : Polynomial.C (q * r) ∣ toPoly b1 - (toPoly b + Polynomial.C q * toPoly b0) := by
    have h6 := (polyCong_iff (q * r) b1 (polyAdd b (polyMulS b0 q))).mp
      (by rw [hb1def]; exact polyCong_polyModF _ _)
    rw [toPoly_polyAdd, toPoly_polyMulS, mul_comm (toPoly b0) (Polynomial.C q)] at h6
    exact h6
  have hCqr : Polynomial.C (q * r) = Polynomial.C q * Polynomial.C r := map_mul _ _ _
  have hstep1 : Polynomial.C (q * r) ∣ toPoly a1 * toPoly b1
      - (toPoly a + Polynomial.C q * toPoly a0) * (toPoly b + Polynomial.C q * toPoly b0) := by
    have hexp : toPoly a1 * toPoly b1
        - (toPoly a + Polynomial.C q * toPoly a0) * (toPoly b + Polynomial.C q * toPoly b0)
        = toPoly a1 * (toPoly b1 - (toPoly b + Polynomial.C q * toPoly b0))
          + (toPoly a1 - (toPoly a + Polynomial.C q * toPoly a0))
            * (toPoly b + Polynomial.C q * toPoly b0) := by ring
    rw [hexp]
    exact dvd_add (Dvd.dvd.mul_left hB1cong _) (Dvd.dvd.mul_right hA1cong _)
  have hbig : toPoly c
      - (toPoly a + Polynomial.C q * toPoly a0) * (toPoly b + Polynomial.C q * toPoly b0)
      = Polynomial.C q * (toPoly g - toPoly f)
        + Polynomial.C q * (toPoly f * (1 - (toPoly a * toPoly u + toPoly b * toPoly v)))
        - Polynomial.C q * Polynomial.C q * (toPoly a0 * toPoly b0) := by
    have hc' : toPoly c = toPoly a * toPoly b + Polynomial.C q * toPoly g := by
      rw [← hG]; ring
    rw [hc', hA0eq, hB0eq]
    ring
  have h1' : Polynomial.C (q * r) ∣ Polynomial.C q * (toPoly g - toPoly f) := by
    rw [hCqr]; exact mul_dvd_mul_left _ hF
  have h2' : Polynomial.C (q * r) ∣
      Polynomial.C q * (toPoly f * (1 - (toPoly a * toPoly u + toPoly b * toPoly v))) := by
    rw [hCqr]; exact mul_dvd_mul_left _ (Dvd.dvd.mul_left hUVr _)
  have h3' : Polynomial.C (q * r) ∣
      Polynomial.C q * Polynomial.C q * (toPoly a0 * toPoly b0) := by
    rw [hCqr]
    have hcc : Polynomial.C r ∣ Polynomial.C q := map_dvd Polynomial.C hrq
    have heq : Polynomial.C q * Polynomial.C q * (toPoly a0 * toPoly b0)
        = Polynomial.C q * (Polynomial.C q * (toPoly a0 * toPoly b0)) := by ring
    rw [heq]
    exact mul_dvd_mul_left _ (dvd_mul_of_dvd_left hcc _)
  have hfinal : Polynomial.C (q * r) ∣ toPoly c - toPoly a1 * toPoly b1 := by
    have hsplit : toPoly c - toPoly a1 * toPoly b1
        = (toPoly c - (toPoly a + Polynomial.C q * toPoly a0)
            * (toPoly b + Polynomial.C q * toPoly b0))
          - (toPoly a1 * toPoly b1 - (toPoly a + Polynomial.C q * toPoly a0)
            * (toPoly b + Polynomial.C q * toPoly b0)) := by ring
    rw [hsplit, hbig]
    exact dvd_sub (dvd_sub (dvd_add h1' h2') h3') hstep1
  rw [polyCong_iff, toPoly_polyMul]
  exact hfinal

/-- Sanity check: the embedding reproduces the repository's unit test
`hensel_lift_works_0`: lifting `x²+2x+3 = (x-3)(x-4) (mod 9)` to
`(x+60)(x+23) (mod 81)`. -/
theorem henselLift_matches_repo_test :
    henselLift 9 9 [3, 2, 1] [-3, 1] [-4, 1] [1] [-1] = ([60, 1], [23, 1], 81) := by
  decide

/-- Witness for claim C5 at the repository's test input (Cohen's example). -/
theorem henselLift_spec_witness :
    ((9 : ℤ) ≠ 0 ∧ PolyCong 9 [3, 2, 1] (polyMul [-3, 1] [-4, 1]) ∧
      PolyCong 9 (polyAdd (polyMul [-3, 1] [1]) (polyMul [-4, 1] [-1])) [1] ∧
      Int.gcd (coeff [(-3 : ℤ), 1] (([(-3 : ℤ), 1] : List ℤ).length - 1)) (Int.gcd 9 9) = 1 ∧
      ([(1 : ℤ)] : List ℤ).length < ([(-4 : ℤ), 1] : List ℤ).length ∧
      ([(-1 : ℤ)] : List ℤ).length < ([(-3 : ℤ), 1] : List ℤ).length ∧
      ([(3 : ℤ), 2, 1] : List ℤ).length + 1
        = ([(-3 : ℤ), 1] : List ℤ).length + ([(-4 : ℤ), 1] : List ℤ).length) ∧
    ((henselLift 9 9 [3, 2, 1] [-3, 1] [-4, 1] [1] [-1]).2.2 = 9 * Int.gcd 9 9 ∧
      PolyCong (9 * Int.gcd 9 9) [3, 2, 1]
        (polyMul (henselLift 9 9 [3, 2, 1] [-3, 1] [-4, 1] [1] [-1]).1
          (henselLift 9 9 [3, 2, 1] [-3, 1] [-4, 1] [1] [-1]).2.1)) :=
  ⟨⟨by decide,
    polyCong_of_checked _ _ _ 3 (by decide) (by decide),
    polyCong_of_checked _ _ _ 2 (by decide) (by decide),
    by decide, by decide, by decide, by decide⟩,
   henselLift_spec 9 9 [3, 2, 1] [-3, 1] [-4, 1] [1] [-1] (by decide) (by decide)
     (polyCong_of_checked _ _ _ 3 (by decide) (by decide))
     (polyCong_of_checked _ _ _ 2 (by decide) (by decide))
     (by decide) (by decide) (by decide) (by decide)⟩

/-- Claim C3 as stated is false: with `f = 1` and `g = 2x²` (both nonzero), the
code returns `(Q, R) = (0, 1)`, but
`lc(g)^(deg f - deg g + 1) · f = 2^((0-2)+1) · 1 = 2 ≠ 1 = Q·g + R`
(natural-number exponent arithmetic; an integer exponent would be negative and
the identity meaningless over `Z`). -/
theorem pseudoDivRem_claim_counterexample :
    ¬ (∀ n, coeff [0, 0, 2] ([0, 0, 2].length - 1) ^
          (([(1 : ℤ)].length - 1) - ([0, 0, 2].length - 1) + 1) * coeff [(1 : ℤ)] n
        = coeff (polyAdd (polyMul (pseudoDivRem [1] [0, 0, 2]).1 [0, 0, 2])
            (pseudoDivRem [1] [0, 0, 2]).2) n) := by
  intro h
  have := h 0
  revert this
  decide

end RustNT

namespace RustNT

theorem fromRaw_length_le_self {R : Type} [Zero R] [DecidableEq R] (l : List R) :
    (fromRaw l).length ≤ l.length :=
  List.IsPrefix.length_le (List.rdropWhile_prefix _ _)

theorem polyAdd_length_le {R : Type} [AddCommMonoid R] [DecidableEq R] (a b : List R) :
    (polyAdd a b).length ≤ max a.length b.length := by
  unfold polyAdd
  split_ifs with h1 h2
  · subst h1; exact le_max_right _ _
  · subst h2; exact le_max_left _ _
  · exact le_trans (fromRaw_length_le_self _) (by simp)

theorem polySub_length_le {R : Type} [Ring R] [DecidableEq R] (a b : List R) :
    (polySub a b).length ≤ max a.length b.length := by
  unfold polySub
  split_ifs with h1 h2
  · subst h1
    simp only [polyNeg, List.length_map]
    exact le_max_right _ _
  · subst h2; exact le_max_left _ _
  · exact le_trans (fromRaw_length_le_self _) (by simp)

theorem mulWithMod_length (a b : List ℚ) (c : List ℤ) :
    mulWithMod a b c = [] ∨ (mulWithMod a b c).length ≤ c.length - 1 := by
  unfold mulWithMod
  split_ifs with h
  · exact Or.inl rfl
  · right
    exact le_trans (fromRaw_length_le_self _) (by simp)

theorem polyAdd_nil_right {R : Type} [AddCommMonoid R] [DecidableEq R] (a : List R) :
    polyAdd a [] = a := by
  unfold polyAdd
  split_ifs with h h2
  · rw [h]
  · rfl
  · exact absurd rfl h2

theorem polySub_nil_right (a : List ℚ) : polySub a [] = a := by
  unfold polySub
  split_ifs with h h2
  · rw [h]; rfl
  · rfl
  · exact absurd rfl h2

theorem algInv_add {x y : Alg} (hxy : x.minPoly = y.minPoly)
    (hx : AlgInv x) (hy : AlgInv y) : AlgInv (Alg.add x y) := by
  unfold AlgInv Alg.add at *
  simp only at *
  rcases hx with hx | hx <;> rcases hy with hy | hy
  · left
    rw [hx, hy]
    rfl
  · right
    have h2 : polyAdd x.expr y.expr = y.expr := by rw [hx]; rfl
    rw [h2, hxy]
    exact hy
  · right
    have h2 : polyAdd x.expr y.expr = x.expr := by rw [hy, polyAdd_nil_right]
    rw [h2]
    exact hx
  · right
    have hlen := polyAdd_length_le x.expr y.expr
    have hmax : max x.expr.length y.expr.length < x.minPoly.length :=
      max_lt hx (by rw [hxy]; exact hy)
    omega

theorem algInv_sub {x y : Alg} (hxy : x.minPoly = y.minPoly)
    (hx : AlgInv x) (hy : AlgInv y) : AlgInv (Alg.sub x y) := by
  unfold AlgInv Alg.sub at *
  simp only at *
  rcases hx with hx | hx <;> rcases hy with hy | hy
  · left
    rw [hx, hy]
    rfl
  · right
    have h2 : polySub x.expr y.expr = polyNeg y.expr := by rw [hx]; rfl
    rw [h2, hxy]
    unfold polyNeg
    rw [List.length_map]
    exact hy
  · right
    have h2 : polySub x.expr y.expr = x.expr := by rw [hy, polySub_nil_right]
    rw [h2]
    exact hx
  · right
    have hlen := polySub_length_le x.expr y.expr
    have hmax : max x.expr.length y.expr.length < x.minPoly.length :=
      max_lt hx (by rw [hxy]; exact hy)
    omega

theorem algInv_mul {x y : Alg} (hxy : x.minPoly = y.minPoly)
    (hx : AlgInv x) (hy : AlgInv y) : AlgInv (Alg.mul x y) := by
  unfold AlgInv Alg.mul at *
  simp only at *
  rcases mulWithMod_length x.expr y.expr x.minPoly with h | h
  · exact Or.inl h
  · rcases hx with hx | hx
    · left
      unfold mulWithMod
      rw [if_pos (Or.inl hx)]
    · right
      omega

theorem algPowAux_inv : ∀ (fuel e : ℕ) (prod cur : Alg),
    prod.minPoly = cur.minPoly → AlgInv prod → AlgInv cur →
    AlgInv (algPowAux fuel e prod cur) ∧ (algPowAux fuel e prod cur).minPoly = prod.minPoly := by
  intro fuel
  induction fuel with
  | zero => intro e prod cur _ hp _; exact ⟨hp, rfl⟩
  | succ fuel ih =>
    intro e prod cur hmp hp hc
    unfold algPowAux
    by_cases he : 0 < e
    · rw [if_pos he]
      have hmul_mp : (Alg.mul cur cur).minPoly = cur.minPoly := rfl
      have hprod' : (if e % 2 = 1 then Alg.mul prod cur else prod).minPoly = prod.minPoly := by
        split_ifs <;> rfl
      have hpinv' : AlgInv (if e % 2 = 1 then Alg.mul prod cur else prod) := by
        split_ifs
        · exact algInv_mul hmp hp hc
        · exact hp
      have hcinv' : AlgInv (Alg.mul cur cur) := algInv_mul rfl hc hc
      have hih := ih (e / 2) (if e % 2 = 1 then Alg.mul prod cur else prod) (Alg.mul cur cur)
        (by rw [hprod', hmul_mp]; exact hmp) hpinv' hcinv'
      exact ⟨hih.1, by rw [hih.2, hprod']⟩
    · rw [if_neg he]
      exact ⟨hp, rfl⟩

theorem algInv_pow {x : Alg} (hmp : 2 ≤ x.minPoly.length) (hx : AlgInv x) :
    AlgInv (Alg.powN x e) := by
  unfold Alg.powN
  have hone : AlgInv (Alg.fromInt x.minPoly 1) := by
    unfold AlgInv Alg.fromInt
    right
    simp only
    calc (fromRaw [((1 : ℤ) : ℚ)]).length ≤ 1 := fromRaw_length_le_self _
      _ < x.minPoly.length := by omega
  exact (algPowAux_inv (e + 1) e (Alg.fromInt x.minPoly 1) x rfl hone hx).1

/-- The amended claim C9: the invariant `deg expr < deg min_poly` (`expr = 0`
allowed) is established by the constructors — `new` needs `deg min_poly ≥ 2`,
`new_const`/`from_int` need `deg min_poly ≥ 1`, `with_expr` needs an input
satisfying the bound — and is preserved by `add`, `sub`, `mul` and `pow` on
operands sharing the same `min_poly` (`pow` needs `deg min_poly ≥ 1` for its
starting value 1). -/
theorem algebraic_invariant_amended :
    (∀ mp : List ℤ, 3 ≤ mp.length → AlgInv (Alg.new mp)) ∧
    (∀ (mp : List ℤ) (x : ℚ), 2 ≤ mp.length → AlgInv (Alg.newConst mp x)) ∧
    (∀ (mp : List ℤ) (x : ℤ), 2 ≤ mp.length → AlgInv (Alg.fromInt mp x)) ∧
    (∀ (mp : List ℤ) (e : List ℚ), (e = [] ∨ e.length < mp.length) →
      AlgInv (Alg.withExpr mp e)) ∧
    (∀ x y : Alg, x.minPoly = y.minPoly → AlgInv x → AlgInv y → AlgInv (Alg.add x y)) ∧
    (∀ x y : Alg, x.minPoly = y.minPoly → AlgInv x → AlgInv y → AlgInv (Alg.sub x y)) ∧
    (∀ x y : Alg, x.minPoly = y.minPoly → AlgInv x → AlgInv y → AlgInv (Alg.mul x y)) ∧
    (∀ (x : Alg) (e : ℕ), 2 ≤ x.minPoly.length → AlgInv x → AlgInv (Alg.powN x e)) := by
  refine ⟨?_, ?_, ?_, ?_, ?_, ?_, ?_, ?_⟩
  · intro mp hmp
    right
    unfold Alg.new
    simp only
    calc (fromRaw [(0 : ℚ), 1]).length ≤ 2 := fromRaw_length_le_self _
      _ < mp.length := by omega
  · intro mp x hmp
    right
    unfold Alg.newConst
    simp only
    calc (fromRaw [x]).length ≤ 1 := fromRaw_length_le_self _
      _ < mp.length := by omega
  · intro mp x hmp
    right
    unfold Alg.fromInt
    simp only
    calc (fromRaw [(x : ℚ)]).length ≤ 1 := fromRaw_length_le_self _
      _ < mp.length := by omega
  · intro mp e he
    exact he
  · exact fun x y h hx hy => algInv_add h hx hy
  · exact fun x y h hx hy => algInv_sub h hx hy
  · exact fun x y h hx hy => algInv_mul h hx hy
  · exact fun x e hmp hx => algInv_pow hmp hx

/-- Claim C9 as stated is false for the constructor `Algebraic::new` with a
degree-1 minimal polynomial: `new(x + 2)` (used by the repository's own test
`decompose_works_2`) has `expr = x` with `deg expr = 1 = deg min_poly`,
violating `deg expr < deg min_poly`. -/
theorem algebraic_invariant_counterexample : ¬ AlgInv (Alg.new [2, 1]) := by
  unfold AlgInv Alg.new
  decide

/-- Witness for the amended claim C9 at concrete inputs over `x³ + x + 1`
(the repository's `test_alg_mul` minimal polynomial). -/
theorem algebraic_invariant_amended_witness :
    (3 ≤ ([(1 : ℤ), 1, 0, 1] : List ℤ).length ∧ AlgInv (Alg.new [1, 1, 0, 1])) ∧
    ((Alg.new [1, 1, 0, 1]).minPoly = (Alg.new [1, 1, 0, 1]).minPoly ∧
      AlgInv (Alg.mul (Alg.new [1, 1, 0, 1]) (Alg.new [1, 1, 0, 1]))) ∧
    (2 ≤ (Alg.new [1, 1, 0, 1]).minPoly.length ∧
      AlgInv (Alg.powN (Alg.new [1, 1, 0, 1]) 5)) :=
  ⟨⟨by decide, algebraic_invariant_amended.1 [1, 1, 0, 1] (by decide)⟩,
   ⟨rfl, algebraic_invariant_amended.2.2.2.2.2.2.1 _ _ rfl
      (algebraic_invariant_amended.1 [1, 1, 0, 1] (by decide))
      (algebraic_invariant_amended.1 [1, 1, 0, 1] (by decide))⟩,
   ⟨by decide, algebraic_invariant_amended.2.2.2.2.2.2.2 _ 5 (by decide)
      (algebraic_invariant_amended.1 [1, 1, 0, 1] (by decide))⟩⟩

end RustNT

namespace RustNT

theorem toPoly_nil : toPoly [] = 0 := by
  unfold toPoly
  simp

theorem toPoly_fromRaw (l : List ℤ) : toPoly (fromRaw l) = toPoly l :=
  Polynomial.ext fun n => by rw [coeff_toPoly, coeff_toPoly, coeff_fromRaw]

theorem coeff_toPoly_mul (x y : List ℤ) (n : ℕ) :
    (toPoly x * toPoly y).coeff n
      = ∑ i ∈ Finset.range (n + 1), coeff x i * coeff y (n - i) := by
  rw [Polynomial.coeff_mul, Finset.Nat.sum_antidiagonal_eq_sum_range_succ
    (fun i j => (toPoly x).coeff i * (toPoly y).coeff j)]
  exact Finset.sum_congr rfl fun i _ => by rw [coeff_toPoly, coeff_toPoly]

theorem toPoly_natDegree_le (l : List ℤ) : (toPoly l).natDegree ≤ l.length - 1 := by
  apply Polynomial.natDegree_le_iff_coeff_eq_zero.mpr
  intro m hm
  rw [coeff_toPoly]
  exact coeff_eq_zero_of_le l (by omega)

theorem toPoly_ne_zero {l : List ℤ} (hl : IsPoly l) (hne : l ≠ []) : toPoly l ≠ 0 := by
  intro h
  apply isPoly_coeff_ne hl hne
  rw [← coeff_toPoly, h, Polynomial.coeff_zero]

theorem toPoly_natDegree {l : List ℤ} (hl : IsPoly l) (hne : l ≠ []) :
    (toPoly l).natDegree = l.length - 1 := by
  refine le_antisymm (toPoly_natDegree_le l) ?_
  apply Polynomial.le_natDegree_of_ne_zero
  rw [coeff_toPoly]
  exact isPoly_coeff_ne hl hne

theorem isPoly_of_monic {F : List ℤ} (hne : F ≠ []) (hm : coeff F (F.length - 1) = 1) :
    IsPoly F := by
  intro x hx hx0
  rw [List.getLast?_eq_getLast _ hne] at hx
  have hx1 : x = coeff F (F.length - 1) := by
    rw [coeff_last F hne]
    exact (Option.some.inj hx).symm
  rw [hx1, hm] at hx0
  exact one_ne_zero hx0

theorem toPoly_monic {F : List ℤ} (hne : F ≠ []) (hm : coeff F (F.length - 1) = 1) :
    (toPoly F).Monic := by
  unfold Polynomial.Monic
  rw [Polynomial.leadingCoeff, toPoly_natDegree (isPoly_of_monic hne hm) hne, coeff_toPoly]
  exact hm

theorem divExactLoop_identity (b : List ℤ) (lcb : ℤ) (bdeg : ℕ) (hb : b.length ≤ bdeg + 1) :
    ∀ (c : ℕ) (tmp : List ℤ) (qt : List ℤ × List ℤ), c + bdeg ≤ tmp.length →
      divExactLoop b lcb bdeg c tmp = some qt →
      qt.1.length = c ∧ qt.2.length = tmp.length ∧
      ∀ n, coeff tmp n =
        (∑ i ∈ Finset.range (n + 1), coeff qt.1 i * coeff b (n - i)) + coeff qt.2 n := by
  intro c
  induction c with
  | zero =>
    intro tmp qt _ heq
    simp only [divExactLoop] at heq
    obtain rfl := Option.some.inj heq
    refine ⟨rfl, rfl, fun n => ?_⟩
    simp [coeff_nil]
  | succ c ih =>
    intro tmp qt hlen heq
    simp only [divExactLoop] at heq
    by_cases hdvd : lcb ∣ coeff tmp (c + bdeg)
    swap
    · rw [if_neg hdvd] at heq
      exact absurd heq (by simp)
    rw [if_pos hdvd, Option.map_eq_some'] at heq
    obtain ⟨qt0, hq0, hqeq⟩ := heq
    set coef := (coeff tmp (c + bdeg)).tdiv lcb with hcoef
    set tmp' := (List.range tmp.length).map
      (fun j => if c ≤ j ∧ j ≤ c + bdeg
                then coeff tmp j - coef * coeff b (j - c) else coeff tmp j) with htmp'
    have hlen' : tmp'.length = tmp.length := by simp [htmp']
    obtain ⟨ih1, ih2, ih3⟩ := ih tmp' qt0 (by omega) hq0
    subst hqeq
    refine ⟨by simp [ih1], by rw [ih2, hlen'], fun n => ?_⟩
    have hstep : coeff tmp n = coeff tmp' n +
        (if c ≤ n ∧ n ≤ c + bdeg then coef * coeff b (n - c) else 0) := by
      rcases Nat.lt_or_ge n tmp.length with h | h
      · rw [htmp', coeff_mapRange, if_pos h]
        split_ifs with h2
        · ring
        · ring
      · rw [coeff_eq_zero_of_le tmp h, coeff_eq_zero_of_le tmp' (by omega),
          if_neg (by omega), add_zero]
    have hq : ∀ i, coeff (qt0.1 ++ [coef]) i =
        coeff qt0.1 i + (if i = c then coef else 0) :=
      coeff_append_single ih1 coef
    have hsum : (∑ i ∈ Finset.range (n + 1),
          coeff (qt0.1 ++ [coef]) i * coeff b (n - i)) =
        (∑ i ∈ Finset.range (n + 1), coeff qt0.1 i * coeff b (n - i))
        + (if c ≤ n then coef * coeff b (n - c) else 0) := by
      have hterm : ∀ i ∈ Finset.range (n + 1),
          coeff (qt0.1 ++ [coef]) i * coeff b (n - i) =
          coeff qt0.1 i * coeff b (n - i)
          + (if i = c then coef * coeff b (n - c) else 0) := by
        intro i hi
        rw [hq i, add_mul]
        congr 1
        split_ifs with h
        · subst h; rfl
        · exact zero_mul _
      rw [Finset.sum_congr rfl hterm, Finset.sum_add_distrib]
      congr 1
      rw [Finset.sum_ite_eq' (Finset.range (n + 1)) c (fun _ => coef * coeff b (n - c))]
      simp only [Finset.mem_range]
      congr 1
      simp [Nat.lt_succ_iff]
    have hext : (if c ≤ n ∧ n ≤ c + bdeg then coef * coeff b (n - c) else 0) =
        (if c ≤ n then coef * coeff b (n - c) else 0) := by
      by_cases hA : c ≤ n ∧ n ≤ c + bdeg
      · rw [if_pos hA, if_pos hA.1]
      · rw [if_neg hA]
        by_cases hB : c ≤ n
        · have h3 : c + bdeg < n := by
            rcases Nat.lt_or_ge (c + bdeg) n with h | h
            · exact h
            · exact absurd ⟨hB, h⟩ hA
          rw [if_pos hB, coeff_eq_zero_of_le b (by omega), mul_zero]
        · rw [if_neg hB]
    rw [hstep, ih3 n, hsum, hext]
    ring

theorem divExactLoop_rem_bound (b : List ℤ) (lcb : ℤ) (bdeg : ℕ) (hlcb : lcb ≠ 0)
    (hlb : coeff b bdeg = lcb) :
    ∀ (c : ℕ) (tmp : List ℤ) (qt : List ℤ × List ℤ), c + bdeg ≤ tmp.length →
      (∀ n, c + bdeg ≤ n → coeff tmp n = 0) →
      divExactLoop b lcb bdeg c tmp = some qt →
      ∀ n, bdeg ≤ n → coeff qt.2 n = 0 := by
  intro c
  induction c with
  | zero =>
    intro tmp qt _ hz heq n hn
    simp only [divExactLoop] at heq
    obtain rfl := Option.some.inj heq
    exact hz n (by omega)
  | succ c ih =>
    intro tmp qt hlen hz heq
    simp only [divExactLoop] at heq
    by_cases hdvd : lcb ∣ coeff tmp (c + bdeg)
    swap
    · rw [if_neg hdvd] at heq
      exact absurd heq (by simp)
    rw [if_pos hdvd, Option.map_eq_some'] at heq
    obtain ⟨qt0, hq0, hqeq⟩ := heq
    set coef := (coeff tmp (c + bdeg)).tdiv lcb with hcoef
    set tmp' := (List.range tmp.length).map
      (fun j => if c ≤ j ∧ j ≤ c + bdeg
                then coeff tmp j - coef * coeff b (j - c) else coeff tmp j) with htmp'
    have hlen' : tmp'.length = tmp.length := by simp [htmp']
    obtain ⟨m, hm⟩ := hdvd
    have hcoefeq : coef = m := by
      rw [hcoef, hm, Int.mul_tdiv_cancel_left _ hlcb]
    have hstep : ∀ j, coeff tmp' j =
        (if c ≤ j ∧ j ≤ c + bdeg then coeff tmp j - coef * coeff b (j - c)
         else coeff tmp j) := by
      intro j
      rcases Nat.lt_or_ge j tmp.length with h | h
      · rw [htmp', coeff_mapRange, if_pos h]
      · rw [coeff_eq_zero_of_le tmp' (by omega)]
        have hj : coeff tmp j = 0 := coeff_eq_zero_of_le tmp h
        split_ifs with h2
        · rw [hj, coeff_eq_zero_of_le b (by omega), mul_zero, sub_zero]
        · rw [hj]
    have hrec := ih tmp' qt0 (by omega) (fun n hn => by
      rw [hstep n]
      rcases Nat.lt_or_ge n (c + bdeg + 1) with h | h
      · have hn' : n = c + bdeg := by omega
        subst hn'
        rw [if_pos ⟨by omega, le_refl _⟩]
        have hsub : c + bdeg - c = bdeg := by omega
        rw [hsub, hlb, hm, hcoefeq]
        ring
      · rw [if_neg (by omega)]
        exact hz n (by omega)) hq0
    subst hqeq
    exact hrec

theorem divExactLoop_one_isSome (b : List ℤ) (bdeg : ℕ) :
    ∀ (c : ℕ) (tmp : List ℤ), (divExactLoop b 1 bdeg c tmp).isSome := by
  intro c
  induction c with
  | zero => intro tmp; simp [divExactLoop]
  | succ c ih =>
    intro tmp
    simp only [divExactLoop]
    rw [if_pos (one_dvd _)]
    cases hres : divExactLoop b 1 bdeg c ((List.range tmp.length).map
      (fun j => if c ≤ j ∧ j ≤ c + bdeg
                then coeff tmp j - (coeff tmp (c + bdeg)).tdiv 1 * coeff b (j - c)
                else coeff tmp j)) with
    | none =>
      have := ih ((List.range tmp.length).map
        (fun j => if c ≤ j ∧ j ≤ c + bdeg
                  then coeff tmp j - (coeff tmp (c + bdeg)).tdiv 1 * coeff b (j - c)
                  else coeff tmp j))
      rw [hres] at this
      simp at this
    | some qt =>
      simp

end RustNT

namespace RustNT

theorem specDivExact_sound {a b q : List ℤ} (h : specDivExact a b = some q) :
    toPoly a = toPoly b * toPoly q := by
  unfold specDivExact at h
  by_cases h1 : a = []
  · rw [if_pos h1] at h
    obtain rfl := Option.some.inj h
    rw [h1, toPoly_nil, mul_zero]
  rw [if_neg h1] at h
  by_cases h2 : b = []
  · rw [if_pos h2] at h
    exact absurd h (by simp)
  rw [if_neg h2] at h
  by_cases h3 : a.length < b.length
  · rw [if_pos h3] at h
    exact absurd h (by simp)
  rw [if_neg h3] at h
  dsimp only at h
  cases hloop : divExactLoop b (coeff b (b.length - 1)) (b.length - 1)
      (a.length - b.length + 1) a with
  | none =>
    rw [hloop] at h
    exact absurd h (by simp)
  | some qt =>
    rw [hloop] at h
    dsimp only at h
    by_cases hrem : fromRaw qt.2 = []
    swap
    · rw [if_neg hrem] at h
      exact absurd h (by simp)
    rw [if_pos hrem] at h
    obtain rfl := Option.some.inj h
    have hbl : 0 < b.length := List.length_pos.mpr h2
    have hal : 0 < a.length := List.length_pos.mpr h1
    obtain ⟨hq1, hq2, hid⟩ := divExactLoop_identity b (coeff b (b.length - 1))
      (b.length - 1) (by omega) (a.length - b.length + 1) a qt (by omega) hloop
    have hzero : ∀ n, coeff qt.2 n = 0 := by
      intro n
      rw [← coeff_fromRaw, hrem, coeff_nil]
    have hmain : toPoly a = toPoly qt.1 * toPoly b := by
      apply Polynomial.ext
      intro n
      rw [coeff_toPoly, coeff_toPoly_mul, hid n, hzero n, add_zero]
    rw [hmain, toPoly_fromRaw, mul_comm]

theorem specDivExact_complete {a b : List ℤ} (ha : IsPoly a) (hbne : b ≠ [])
    (hm : coeff b (b.length - 1) = 1) (hdvd : toPoly b ∣ toPoly a) :
    (specDivExact a b).isSome := by
  unfold specDivExact
  by_cases h1 : a = []
  · rw [if_pos h1]
    simp
  rw [if_neg h1, if_neg hbne]
  have hbl : 0 < b.length := List.length_pos.mpr hbne
  have hal : 0 < a.length := List.length_pos.mpr h1
  by_cases h3 : a.length < b.length
  · exfalso
    have ha0 : toPoly a ≠ 0 := toPoly_ne_zero ha h1
    have hdeg := Polynomial.natDegree_le_of_dvd hdvd ha0
    rw [toPoly_natDegree (isPoly_of_monic hbne hm) hbne, toPoly_natDegree ha h1] at hdeg
    omega
  rw [if_neg h3]
  dsimp only
  rw [hm]
  cases hloop : divExactLoop b 1 (b.length - 1) (a.length - b.length + 1) a with
  | none =>
    have hsome := divExactLoop_one_isSome b (b.length - 1) (a.length - b.length + 1) a
    rw [hloop] at hsome
    simp at hsome
  | some qt =>
    dsimp only
    obtain ⟨hq1, hq2, hid⟩ := divExactLoop_identity b 1
      (b.length - 1) (by omega) (a.length - b.length + 1) a qt (by omega) hloop
    have hbound := divExactLoop_rem_bound b 1 (b.length - 1) one_ne_zero hm
      (a.length - b.length + 1) a qt (by omega)
      (fun n hn => coeff_eq_zero_of_le a (by omega)) hloop
    have hsplit : toPoly a = toPoly qt.1 * toPoly b + toPoly qt.2 := by
      apply Polynomial.ext
      intro n
      rw [Polynomial.coeff_add, coeff_toPoly, coeff_toPoly, coeff_toPoly_mul, hid n]
    have hR : toPoly b ∣ toPoly qt.2 := by
      have heq2 : toPoly qt.2 = toPoly a - toPoly qt.1 * toPoly b := by
        rw [hsplit]; ring
      rw [heq2]
      exact dvd_sub hdvd (dvd_mul_left _ _)
    have hRzero : toPoly qt.2 = 0 := by
      by_cases hb1 : b.length = 1
      · apply Polynomial.ext
        intro n
        rw [coeff_toPoly, Polynomial.coeff_zero]
        exact hbound n (by omega)
      · by_contra hR0
        have hd1 := Polynomial.natDegree_le_of_dvd hR hR0
        have hd2 : (toPoly qt.2).natDegree ≤ b.length - 2 := by
          apply Polynomial.natDegree_le_iff_coeff_eq_zero.mpr
          intro m hmgt
          rw [coeff_toPoly]
          exact hbound m (by omega)
        rw [toPoly_natDegree (isPoly_of_monic hbne hm) hbne] at hd1
        omega
    have hcoe : ∀ n, coeff qt.2 n = 0 := fun n => by
      rw [← coeff_toPoly, hRzero, Polynomial.coeff_zero]
    have hnil : fromRaw qt.2 = [] := by
      have hlen0 := fromRaw_length_le (l := qt.2) (m := 0) (fun n _ => hcoe n)
      exact List.length_eq_zero.mp (by omega)
    rw [if_pos hnil]
    simp

theorem isPoly_specDivExact {a b q : List ℤ} (h : specDivExact a b = some q) : IsPoly q := by
  unfold specDivExact at h
  by_cases h1 : a = []
  · rw [if_pos h1] at h
    obtain rfl := Option.some.inj h
    intro x hx
    simp at hx
  rw [if_neg h1] at h
  by_cases h2 : b = []
  · rw [if_pos h2] at h
    exact absurd h (by simp)
  rw [if_neg h2] at h
  by_cases h3 : a.length < b.length
  · rw [if_pos h3] at h
    exact absurd h (by simp)
  rw [if_neg h3] at h
  dsimp only at h
  cases hloop : divExactLoop b (coeff b (b.length - 1)) (b.length - 1)
      (a.length - b.length + 1) a with
  | none =>
    rw [hloop] at h
    exact absurd h (by simp)
  | some qt =>
    rw [hloop] at h
    dsimp only at h
    by_cases hrem : fromRaw qt.2 = []
    · rw [if_pos hrem] at h
      obtain rfl := Option.some.inj h
      exact isPoly_fromRaw _
    · rw [if_neg hrem] at h
      exact absurd h (by simp)

theorem multLoopAux_some (F : List ℤ) :
    ∀ (fuel : ℕ) (a : List ℤ) (e : ℕ) (ae : List ℤ × ℕ),
      multLoopAux F fuel a e = some ae →
      IsPoly a →
      (∃ k : ℕ, toPoly a = toPoly F ^ k * toPoly ae.1) ∧ IsPoly ae.1 := by
  intro fuel
  induction fuel with
  | zero =>
    intro a e ae h _
    exact absurd h (by simp [multLoopAux])
  | succ fuel ih =>
    intro a e ae h hpa
    simp only [multLoopAux] at h
    cases hdiv : specDivExact a F with
    | none =>
      rw [hdiv] at h
      obtain rfl := Option.some.inj h
      exact ⟨⟨0, by rw [pow_zero, one_mul]⟩, hpa⟩
    | some quo =>
      rw [hdiv] at h
      dsimp only at h
      by_cases he : 5 < e
      · rw [if_pos he] at h
        exact absurd h (by simp)
      · rw [if_neg he] at h
        obtain ⟨⟨k, hk⟩, hpq⟩ := ih quo (e + 1) ae h (isPoly_specDivExact hdiv)
        refine ⟨⟨k + 1, ?_⟩, hpq⟩
        rw [specDivExact_sound hdiv, hk, pow_succ]
        ring

theorem multLoopAux_none (F : List ℤ) :
    ∀ (fuel : ℕ) (a : List ℤ) (e : ℕ),
      multLoopAux F fuel a e = none →
      toPoly F ^ (min fuel (7 - e)) ∣ toPoly a := by
  intro fuel
  induction fuel with
  | zero =>
    intro a e _
    simp
  | succ fuel ih =>
    intro a e h
    simp only [multLoopAux] at h
    cases hdiv : specDivExact a F with
    | none =>
      rw [hdiv] at h
      exact absurd h (by simp)
    | some quo =>
      rw [hdiv] at h
      dsimp only at h
      by_cases he : 5 < e
      swap
      · rw [if_neg he] at h
        have hrec := ih quo (e + 1) h
        rw [specDivExact_sound hdiv]
        have hmin : min (fuel + 1) (7 - e) ≤ min fuel (7 - (e + 1)) + 1 := by omega
        calc toPoly F ^ min (fuel + 1) (7 - e)
            ∣ toPoly F ^ (min fuel (7 - (e + 1)) + 1) := pow_dvd_pow _ hmin
          _ ∣ toPoly F * toPoly quo := by
              rw [pow_succ, mul_comm (toPoly F ^ _) (toPoly F)]
              exact mul_dvd_mul_left _ hrec
      · rcases Nat.lt_or_ge e 7 with h7 | h7
        · have he6 : e = 6 := by omega
          have hmin : min (fuel + 1) (7 - e) = 1 := by
            subst he6; simp
          rw [hmin, pow_one, specDivExact_sound hdiv]
          exact Dvd.intro _ rfl
        · have hmin : min (fuel + 1) (7 - e) = 0 := by omega
          rw [hmin, pow_zero]
          exact one_dvd _

theorem multLoopAux_aborts (F : List ℤ) (hFne : F ≠ [])
    (hm : coeff F (F.length - 1) = 1) :
    ∀ (fuel e : ℕ) (a : List ℤ), IsPoly a → fuel + e = 8 → e ≤ 6 →
      toPoly F ^ (7 - e) ∣ toPoly a →
      multLoopAux F fuel a e = none := by
  intro fuel
  induction fuel with
  | zero =>
    intro e a _ hfe he _
    omega
  | succ fuel ih =>
    intro e a hpa hfe he hdvd
    have hF1 : toPoly F ∣ toPoly a :=
      dvd_trans (dvd_pow_self (toPoly F) (by omega)) hdvd
    have hsome := specDivExact_complete hpa hFne hm hF1
    simp only [multLoopAux]
    cases hdiv : specDivExact a F with
    | none =>
      rw [hdiv] at hsome
      simp at hsome
    | some quo =>
      dsimp only
      by_cases he5 : 5 < e
      · rw [if_pos he5]
      · rw [if_neg he5]
        have he' : e + 1 ≤ 6 := by omega
        apply ih (e + 1) quo (isPoly_specDivExact hdiv) (by omega) he'
        have hFz : toPoly F ≠ 0 :=
          Polynomial.Monic.ne_zero (toPoly_monic hFne hm)
        have heq : toPoly a = toPoly F * toPoly quo := specDivExact_sound hdiv
        have h7e : 7 - e = (7 - (e + 1)) + 1 := by omega
        rw [heq, h7e, pow_succ, mul_comm (toPoly F ^ (7 - (e + 1))) (toPoly F)] at hdvd
        exact (mul_dvd_mul_iff_left hFz).mp hdvd

end RustNT

namespace RustNT

theorem isPoly_polyDivF (f : List ℤ) (d : ℤ) : IsPoly (polyDivF f d) := by
  unfold polyDivF
  split_ifs with h
  · intro x hx
    rw [h] at hx
    simp at hx
  · exact isPoly_fromRaw _

theorem factLoop_none_of_mem (F : List ℤ) (hFne : F ≠ [])
    (hm : coeff F (F.length - 1) = 1) (hFprime : Prime (toPoly F)) :
    ∀ (l : List (List ℤ)) (a : List ℤ), IsPoly a → F ∈ l →
      (∀ G ∈ l, G ≠ F → Irreducible (toPoly G)) →
      (∀ G ∈ l, G ≠ F → ¬ Associated (toPoly F) (toPoly G)) →
      toPoly F ^ 7 ∣ toPoly a →
      factLoop a l = none := by
  intro l
  induction l with
  | nil =>
    intro a _ hF
    simp at hF
  | cons G rest ih =>
    intro a hpa hF hirr hassoc hdvd
    simp only [factLoop]
    by_cases hGF : G = F
    · subst hGF
      have habort := multLoopAux_aborts G hFne hm 8 0 a hpa rfl (by omega)
        (by simpa using hdvd)
      rw [habort]
    · cases hrun : multLoopAux G 8 a 0 with
      | none => rfl
      | some ae =>
        obtain ⟨⟨k, hk⟩, hpq⟩ := multLoopAux_some G 8 a 0 ae hrun hpa
        have hndvd : ¬ toPoly F ∣ toPoly G := by
          intro hFG
          obtain ⟨c, hc⟩ := hFG
          rcases (hirr G (List.mem_cons_self G rest) hGF).isUnit_or_isUnit hc with hu | hu
          · exact hFprime.not_unit hu
          · refine hassoc G (List.mem_cons_self G rest) hGF ⟨hu.unit, ?_⟩
            rw [IsUnit.unit_spec, ← hc]
        have hdvd' : toPoly F ^ 7 ∣ toPoly ae.1 := by
          rw [hk] at hdvd
          have hnd : ¬ toPoly F ∣ toPoly G ^ k :=
            fun hcon => hndvd (hFprime.dvd_of_dvd_pow hcon)
          exact hFprime.pow_dvd_of_dvd_mul_left 7 hnd hdvd
        have hFrest : F ∈ rest := by
          rcases List.mem_cons.mp hF with h | h
          · exact absurd h.symm hGF
          · exact h
        have hrest := ih ae.1 hpq hFrest
          (fun G' hG' hne => hirr G' (List.mem_cons_of_mem _ hG') hne)
          (fun G' hG' hne => hassoc G' (List.mem_cons_of_mem _ hG') hne) hdvd'
        dsimp only
        rw [hrest]
        rfl

theorem factLoop_isSome : ∀ (l : List (List ℤ)) (a : List ℤ), IsPoly a →
    (∀ F ∈ l, ¬ toPoly F ^ 7 ∣ toPoly a) → (factLoop a l).isSome := by
  intro l
  induction l with
  | nil =>
    intro a _ _
    simp [factLoop]
  | cons F rest ih =>
    intro a hpa hnd
    simp only [factLoop]
    cases hrun : multLoopAux F 8 a 0 with
    | none =>
      exfalso
      have hmlnone := multLoopAux_none F 8 a 0 hrun
      exact hnd F (List.mem_cons_self F rest) (by simpa using hmlnone)
    | some ae =>
      obtain ⟨⟨k, hk⟩, hpq⟩ := multLoopAux_some F 8 a 0 ae hrun hpa
      have hd : toPoly ae.1 ∣ toPoly a := ⟨toPoly F ^ k, by rw [hk]; ring⟩
      have hih := ih ae.1 hpq
        (fun G hG hcon => hnd G (List.mem_cons_of_mem _ hG) (dvd_trans hcon hd))
      dsimp only
      cases hfl : factLoop ae.1 rest with
      | none =>
        rw [hfl] at hih
        simp at hih
      | some ar => simp

theorem irreducible_toPoly_x_add_one : Irreducible (toPoly [1, 1]) := by
  have hmon : (toPoly [1, 1]).Monic := toPoly_monic (by simp) (by decide)
  apply Polynomial.Monic.irreducible_of_degree_eq_one _ hmon
  have hne : toPoly [1, 1] ≠ 0 := hmon.ne_zero
  rw [Polynomial.degree_eq_natDegree hne,
    toPoly_natDegree (isPoly_of_monic (by simp) (by decide)) (by simp)]
  rfl

theorem toPoly_x_add_one_pow_seven :
    toPoly [1, 1] ^ 7 = toPoly [1, 7, 21, 35, 35, 21, 7, 1] := by
  have h7 : polyMul [(1 : ℤ), 1] (polyMul [1, 1] (polyMul [1, 1] (polyMul [1, 1]
      (polyMul [1, 1] (polyMul [1, 1] [1, 1]))))) = [1, 7, 21, 35, 35, 21, 7, 1] := by
    decide
  have hstep : toPoly [1, 1] ^ 7 = toPoly (polyMul [(1 : ℤ), 1] (polyMul [1, 1] (polyMul [1, 1]
      (polyMul [1, 1] (polyMul [1, 1] (polyMul [1, 1] [1, 1])))))) := by
    simp only [toPoly_polyMul]
    ring
  rw [hstep, h7]


end RustNT

namespace RustNT

theorem getD_mem_rows (a : List (List ℚ)) (j : ℕ) (hj : j < a.length) : a.getD j [] ∈ a := by
  rw [List.getD_eq_getElem _ _ hj]
  exact List.getElem_mem _

theorem getD_set_rows (a : List (List ℚ)) (i r : ℕ) (x : List ℚ) (hi : i < a.length) :
    (a.set i x).getD r [] = if r = i then x else a.getD r [] := by
  by_cases h : r = i
  · subst h
    rw [if_pos rfl]
    simp [List.getD_eq_getElem?_getD, List.getElem?_set_self, hi]
  · rw [if_neg h]
    simp [List.getD_eq_getElem?_getD, List.getElem?_set_ne (fun hc => h hc.symm)]

theorem mget_lswap (a : List (List ℚ)) (i idx : ℕ) (hi : i < a.length)
    (hidx : idx < a.length) (r c : ℕ) :
    mget (lswap a i idx) r c =
      if r = idx then mget a i c else if r = i then mget a idx c else mget a r c := by
  unfold lswap mget
  rw [getD_set_rows _ idx r _ (by simpa using hidx)]
  by_cases hr : r = idx
  · rw [if_pos hr, if_pos hr]
  · rw [if_neg hr, if_neg hr, getD_set_rows _ i r _ hi]
    by_cases hr2 : r = i
    · rw [if_pos hr2, if_pos hr2]
    · rw [if_neg hr2, if_neg hr2]

theorem squareMat_lswap {n : ℕ} {a : List (List ℚ)} (h : SquareMat n a) (i j : ℕ)
    (hi : i < a.length) (hj : j < a.length) : SquareMat n (lswap a i j) := by
  obtain ⟨hlen, hrow⟩ := h
  refine ⟨by simp [lswap, hlen], ?_⟩
  intro row hmem
  unfold lswap at hmem
  rcases List.mem_or_eq_of_mem_set hmem with hmem2 | hEq
  · rcases List.mem_or_eq_of_mem_set hmem2 with hmem3 | hEq2
    · exact hrow row hmem3
    · subst hEq2
      exact hrow _ (getD_mem_rows a j hj)
  · subst hEq
    exact hrow _ (getD_mem_rows a i hi)

theorem length_rowElim (n i : ℕ) (piv row : List ℚ) :
    (rowElim n i piv row).length = row.length := by
  simp [rowElim]

theorem getD_rowElim (n i : ℕ) (piv row : List ℚ) (k : ℕ) (hk : k < row.length) :
    (rowElim n i piv row).getD k 0 =
      if i ≤ k ∧ k < n then row.getD k 0 - row.getD i 0 / piv.getD i 0 * piv.getD k 0
      else row.getD k 0 := by
  unfold rowElim
  rw [List.getD_eq_getElem _ _ (by simp [hk])]
  simp

theorem getD_elimBelow (n i : ℕ) (a : List (List ℚ)) (j : ℕ) (hj : j < a.length) :
    (elimBelow n i a).getD j [] =
      if i < j ∧ j < n then rowElim n i (a.getD i []) (a.getD j []) else a.getD j [] := by
  unfold elimBelow
  rw [List.getD_eq_getElem _ _ (by simp [hj])]
  simp

theorem squareMat_elimBelow {n : ℕ} {a : List (List ℚ)} (h : SquareMat n a) (i : ℕ) :
    SquareMat n (elimBelow n i a) := by
  obtain ⟨hlen, hrow⟩ := h
  refine ⟨by simp [elimBelow, hlen], ?_⟩
  intro row hmem
  unfold elimBelow at hmem
  rw [List.mem_map] at hmem
  obtain ⟨j, hjmem, hEq⟩ := hmem
  rw [List.mem_range] at hjmem
  have hgd : a.getD j [] ∈ a := getD_mem_rows a j hjmem
  by_cases hc : i < j ∧ j < n
  · rw [if_pos hc] at hEq
    rw [← hEq, length_rowElim]
    exact hrow _ hgd
  · rw [if_neg hc] at hEq
    rw [← hEq]
    exact hrow _ hgd

theorem mget_elimBelow {n : ℕ} {a : List (List ℚ)} (hsq : SquareMat n a) (i j k : ℕ)
    (hj : j < n) (hk : k < n) :
    mget (elimBelow n i a) j k =
      if i < j ∧ i ≤ k then mget a j k - mget a j i / mget a i i * mget a i k
      else mget a j k := by
  obtain ⟨hlen, hrow⟩ := hsq
  have hj' : j < a.length := by omega
  unfold mget
  rw [getD_elimBelow n i a j hj']
  by_cases hc : i < j
  · rw [if_pos ⟨hc, hj⟩]
    have hrl : (a.getD j []).length = n := hrow _ (getD_mem_rows a j hj')
    rw [getD_rowElim n i _ _ k (by omega)]
    by_cases hc2 : i ≤ k
    · rw [if_pos ⟨hc2, hk⟩, if_pos ⟨hc, hc2⟩]
    · rw [if_neg (by tauto), if_neg (by tauto)]
  · rw [if_neg (by tauto), if_neg (by tauto)]

theorem zeroed_lswap {n i : ℕ} {a : List (List ℚ)} (hlen : a.length = n) (hz : Zeroed n i a)
    (idx : ℕ) (hi : i < n) (hidx : idx < n) (hii : i ≤ idx) : Zeroed n i (lswap a i idx) := by
  intro k j hk hkj hjn
  rw [mget_lswap a i idx (by omega) (by omega) j k]
  by_cases h1 : j = idx
  · rw [if_pos h1]
    exact hz k i hk (by omega) (by omega)
  · rw [if_neg h1]
    by_cases h2 : j = i
    · rw [if_pos h2]
      exact hz k idx hk (by omega) (by omega)
    · rw [if_neg h2]
      exact hz k j hk hkj hjn

theorem zeroed_elimBelow {n i : ℕ} {a : List (List ℚ)} (hsq : SquareMat n a)
    (hz : Zeroed n i a) (hi : i < n) (hp : mget a i i ≠ 0) :
    Zeroed n (i + 1) (elimBelow n i a) := by
  intro k j hk hkj hjn
  rw [mget_elimBelow hsq i j k hjn (by omega)]
  by_cases hc : i < j ∧ i ≤ k
  · rw [if_pos hc]
    have hki : k = i := by omega
    subst hki
    rw [div_mul_cancel₀ _ hp, sub_self]
  · rw [if_neg hc]
    by_cases hk2 : k < i
    · exact hz k j hk2 hkj hjn
    · exact absurd ⟨by omega, by omega⟩ hc

theorem findPivot_spec (a : List (List ℚ)) (i : ℕ) :
    ∀ fuel j idx, findPivot a i fuel j = some idx →
      j ≤ idx ∧ idx < j + fuel ∧ mget a idx i ≠ 0 := by
  intro fuel
  induction fuel with
  | zero =>
    intro j idx h
    simp [findPivot] at h
  | succ m ih =>
    intro j idx h
    simp only [findPivot] at h
    by_cases hm : mget a j i ≠ 0
    · rw [if_pos hm] at h
      injection h with h2
      subst h2
      exact ⟨le_refl _, by omega, hm⟩
    · rw [if_neg hm] at h
      obtain ⟨h1, h2, h3⟩ := ih (j + 1) idx h
      exact ⟨by omega, by omega, h3⟩

theorem det_elim_aux {n : ℕ} (M : Matrix (Fin n) (Fin n) ℚ) (i : Fin n) (f : Fin n → ℚ) :
    ∀ t, (Matrix.of fun j k : Fin n =>
        if (i : ℕ) < (j : ℕ) ∧ (j : ℕ) < (i : ℕ) + 1 + t then M j k - f j * M i k
        else M j k).det = M.det := by
  intro t
  induction t with
  | zero =>
    congr 1
    ext j k
    simp only [Matrix.of_apply]
    rw [if_neg (by omega)]
  | succ m ih =>
    by_cases hm : (i : ℕ) + 1 + m < n
    · set j0 : Fin n := ⟨(i : ℕ) + 1 + m, hm⟩ with hj0
      have hj0v : (j0 : ℕ) = (i : ℕ) + 1 + m := rfl
      set N : Matrix (Fin n) (Fin n) ℚ := Matrix.of fun j k : Fin n =>
        if (i : ℕ) < (j : ℕ) ∧ (j : ℕ) < (i : ℕ) + 1 + m then M j k - f j * M i k
        else M j k with hN
      have hstep : (Matrix.of fun j k : Fin n =>
          if (i : ℕ) < (j : ℕ) ∧ (j : ℕ) < (i : ℕ) + 1 + (m + 1) then M j k - f j * M i k
          else M j k) = N.updateRow j0 (N j0 + (-(f j0)) • N i) := by
        ext j k
        rw [Matrix.updateRow_apply]
        by_cases hj : j = j0
        · subst hj
          rw [if_pos rfl]
          simp only [Pi.add_apply, Pi.smul_apply, smul_eq_mul, hN, Matrix.of_apply]
          rw [if_pos ⟨by omega, by omega⟩, if_neg (by omega), if_neg (by omega)]
          ring
        · rw [if_neg hj]
          simp only [hN, Matrix.of_apply]
          have hne : (j : ℕ) ≠ (i : ℕ) + 1 + m := by
            intro hEq
            exact hj (Fin.ext_iff.mpr (hEq.trans hj0v.symm))
          by_cases hc2 : (i : ℕ) < (j : ℕ) ∧ (j : ℕ) < (i : ℕ) + 1 + (m + 1)
          · rw [if_pos hc2, if_pos ⟨hc2.1, by omega⟩]
          · rw [if_neg hc2, if_neg (by omega)]
      rw [hstep, Matrix.det_updateRow_add_smul_self N
        (Fin.ne_of_val_ne (by rw [hj0v]; omega)) (-(f j0))]
      exact ih
    · have hsame : (Matrix.of fun j k : Fin n =>
          if (i : ℕ) < (j : ℕ) ∧ (j : ℕ) < (i : ℕ) + 1 + (m + 1) then M j k - f j * M i k
          else M j k) = (Matrix.of fun j k : Fin n =>
          if (i : ℕ) < (j : ℕ) ∧ (j : ℕ) < (i : ℕ) + 1 + m then M j k - f j * M i k
          else M j k) := by
        ext j k
        simp only [Matrix.of_apply]
        have hjn : (j : ℕ) < n := j.isLt
        by_cases hc : (i : ℕ) < (j : ℕ)
        · rw [if_pos ⟨hc, by omega⟩, if_pos ⟨hc, by omega⟩]
        · rw [if_neg (by tauto), if_neg (by tauto)]
      rw [hsame]
      exact ih

theorem toMat_lswap {n : ℕ} {a : List (List ℚ)} (i idx : ℕ) (hi : i < n) (hidx : idx < n)
    (hlen : a.length = n) :
    toMat n (lswap a i idx) =
      Matrix.of fun r => toMat n a (Equiv.swap ⟨i, hi⟩ ⟨idx, hidx⟩ r) := by
  ext r c
  simp only [toMat, Matrix.of_apply]
  rw [mget_lswap a i idx (by omega) (by omega) (r : ℕ) (c : ℕ)]
  by_cases h1 : (r : ℕ) = idx
  · rw [if_pos h1]
    have hr : r = (⟨idx, hidx⟩ : Fin n) := Fin.ext_iff.mpr h1
    rw [hr, Equiv.swap_apply_right]
  · rw [if_neg h1]
    by_cases h2 : (r : ℕ) = i
    · rw [if_pos h2]
      have hr : r = (⟨i, hi⟩ : Fin n) := Fin.ext_iff.mpr h2
      rw [hr, Equiv.swap_apply_left]
    · rw [if_neg h2]
      have hne1 : r ≠ (⟨i, hi⟩ : Fin n) := fun hc => h2 (by rw [hc])
      have hne2 : r ≠ (⟨idx, hidx⟩ : Fin n) := fun hc => h1 (by rw [hc])
      rw [Equiv.swap_apply_of_ne_of_ne hne1 hne2]

theorem det_toMat_lswap {n : ℕ} {a : List (List ℚ)} (hlen : a.length = n) (i idx : ℕ)
    (hi : i < n) (hidx : idx < n) :
    (toMat n (lswap a i idx)).det = (toMat n a).det ∨
    (toMat n (lswap a i idx)).det = -(toMat n a).det := by
  by_cases h : i = idx
  · left
    rw [toMat_lswap i idx hi hidx hlen]
    congr 1
    ext r c
    have hEq : (⟨i, hi⟩ : Fin n) = ⟨idx, hidx⟩ := Fin.ext_iff.mpr h
    rw [← hEq, Equiv.swap_self]
    rfl
  · right
    rw [toMat_lswap i idx hi hidx hlen]
    have hne : (⟨i, hi⟩ : Fin n) ≠ ⟨idx, hidx⟩ := fun hc => h (Fin.ext_iff.mp hc)
    have hp : (Matrix.of fun r => toMat n a (Equiv.swap ⟨i, hi⟩ ⟨idx, hidx⟩ r)).det
        = ((Equiv.Perm.sign (Equiv.swap (⟨i, hi⟩ : Fin n) ⟨idx, hidx⟩) : ℤ) : ℚ)
          * (toMat n a).det := by
      exact_mod_cast Matrix.det_permute _ _
    rw [hp, Equiv.Perm.sign_swap hne]
    norm_num

theorem det_toMat_zeroed {n : ℕ} {a : List (List ℚ)} (hz : Zeroed n n a) :
    (toMat n a).det = ∏ j : Fin n, toMat n a j j := by
  apply Matrix.det_of_upperTriangular
  intro j k hjk
  exact hz (k : ℕ) (j : ℕ) k.isLt hjk j.isLt

theorem detLoop_spec (n : ℕ) :
    ∀ (fuel i : ℕ) (a : List (List ℚ)) (result : ℚ),
      SquareMat n a → i + fuel = n → Zeroed n i a →
      detLoop n fuel i a result ≠ 0 →
      ∃ ε, (ε = 1 ∨ ε = -1) ∧
        (∏ k ∈ Finset.range i, mget a k k) * detLoop n fuel i a result =
          result * (ε * (toMat n a).det) := by
  intro fuel
  induction fuel with
  | zero =>
    intro i a result hsq hin hz hne
    obtain rfl : i = n := by omega
    refine ⟨1, Or.inl rfl, ?_⟩
    rw [show detLoop i 0 i a result = result from rfl]
    rw [det_toMat_zeroed hz]
    have hprod : ∏ j : Fin i, toMat i a j j = ∏ k ∈ Finset.range i, mget a k k :=
      Fin.prod_univ_eq_prod_range (fun k => mget a k k) i
    rw [hprod]
    ring
  | succ m ih =>
    intro i a result hsq hin hz hne
    have hstep : detLoop n (m + 1) i a result =
        match findPivot a i (m + 1) i with
        | none => 0
        | some idx =>
          detLoop n m (i + 1) (elimBelow n i (lswap a i idx))
            (result * mget (elimBelow n i (lswap a i idx)) i i) := rfl
    cases hfp : findPivot a i (m + 1) i with
    | none =>
      rw [hstep, hfp] at hne
      exact absurd rfl hne
    | some idx =>
      rw [hstep, hfp] at hne ⊢
      dsimp only at hne ⊢
      obtain ⟨hge, hlt, hpiv⟩ := findPivot_spec a i (m + 1) i idx hfp
      have hi : i < n := by omega
      have hidx : idx < n := by omega
      have hlen : a.length = n := hsq.1
      have hsq1 : SquareMat n (lswap a i idx) := squareMat_lswap hsq i idx (by omega) (by omega)
      have hz1 : Zeroed n i (lswap a i idx) := zeroed_lswap hlen hz idx hi hidx hge
      have hpiv1 : mget (lswap a i idx) i i ≠ 0 := by
        rw [mget_lswap a i idx (by omega) (by omega) i i]
        by_cases h1 : i = idx
        · rw [if_pos h1]
          rw [h1] at hpiv ⊢
          exact hpiv
        · rw [if_neg h1, if_pos rfl]
          exact hpiv
      set a2 := elimBelow n i (lswap a i idx) with ha2
      have hsq2 : SquareMat n a2 := squareMat_elimBelow hsq1 i
      have hz2 : Zeroed n (i + 1) a2 := zeroed_elimBelow hsq1 hz1 hi hpiv1
      have hm2 : mget a2 i i = mget (lswap a i idx) i i := by
        rw [ha2, mget_elimBelow hsq1 i i i hi hi]
        rw [if_neg (by omega)]
      have hdiag : ∀ k, k < i → mget a2 k k = mget a k k := by
        intro k hk
        rw [ha2, mget_elimBelow hsq1 i k k (by omega) (by omega), if_neg (by omega)]
        rw [mget_lswap a i idx (by omega) (by omega) k k,
          if_neg (by omega), if_neg (by omega)]
      obtain ⟨ε, hε, hIH⟩ := ih (i + 1) a2 (result * mget a2 i i) hsq2 (by omega) hz2 hne
      have hdet2 : (toMat n a2).det = (toMat n (lswap a i idx)).det := by
        have hkey : toMat n a2 = Matrix.of fun j k : Fin n =>
            if (((⟨i, hi⟩ : Fin n)) : ℕ) < (j : ℕ) ∧
                (j : ℕ) < (((⟨i, hi⟩ : Fin n)) : ℕ) + 1 + n
            then toMat n (lswap a i idx) j k -
              (fun j : Fin n => mget (lswap a i idx) (j : ℕ) i
                / mget (lswap a i idx) i i) j * toMat n (lswap a i idx) ⟨i, hi⟩ k
            else toMat n (lswap a i idx) j k := by
          ext j k
          simp only [Matrix.of_apply]
          rw [show toMat n a2 j k = mget a2 (j : ℕ) (k : ℕ) from rfl, ha2,
            mget_elimBelow hsq1 i (j : ℕ) (k : ℕ) j.isLt k.isLt]
          by_cases hcj : i < (j : ℕ)
          · by_cases hck : i ≤ (k : ℕ)
            · rw [if_pos ⟨hcj, hck⟩, if_pos ⟨by omega, by omega⟩]
              rfl
            · rw [if_neg (by omega), if_pos ⟨by omega, by omega⟩]
              have h0 : mget (lswap a i idx) i (k : ℕ) = 0 :=
                hz1 (k : ℕ) i (by omega) (by omega) hi
              rw [show toMat n (lswap a i idx) ⟨i, hi⟩ k
                  = mget (lswap a i idx) i (k : ℕ) from rfl, h0,
                show toMat n (lswap a i idx) j k
                  = mget (lswap a i idx) (j : ℕ) (k : ℕ) from rfl]
              ring
          · rw [if_neg (by omega), if_neg (by omega)]
            rfl
        rw [hkey]
        exact det_elim_aux (toMat n (lswap a i idx)) ⟨i, hi⟩ _ n
      have hdet1 := det_toMat_lswap hlen i idx hi hidx
      have hprod_succ : ∏ k ∈ Finset.range (i + 1), mget a2 k k
          = (∏ k ∈ Finset.range i, mget a k k) * mget a2 i i := by
        rw [Finset.prod_range_succ]
        congr 1
        exact Finset.prod_congr rfl (fun k hk => hdiag k (Finset.mem_range.mp hk))
      rw [hprod_succ] at hIH
      have hp_ne : mget a2 i i ≠ 0 := by
        rw [hm2]
        exact hpiv1
      obtain ⟨ε2, hε2, hd2⟩ : ∃ ε2, (ε2 = 1 ∨ ε2 = -1) ∧
          (toMat n a2).det = ε2 * (toMat n a).det := by
        rcases hdet1 with hd1 | hd1
        · exact ⟨1, Or.inl rfl, by rw [hdet2, hd1]; ring⟩
        · exact ⟨-1, Or.inr rfl, by rw [hdet2, hd1]; ring⟩
      refine ⟨ε * ε2, ?_, ?_⟩
      · rcases hε with rfl | rfl <;> rcases hε2 with rfl | rfl <;> norm_num
      · apply mul_left_cancel₀ hp_ne
        calc mget a2 i i * ((∏ k ∈ Finset.range i, mget a k k) *
              detLoop n m (i + 1) a2 (result * mget a2 i i))
            = ((∏ k ∈ Finset.range i, mget a k k) * mget a2 i i) *
              detLoop n m (i + 1) a2 (result * mget a2 i i) := by ring
          _ = (result * mget a2 i i) * (ε * (toMat n a2).det) := hIH
          _ = mget a2 i i * (result * (ε * ε2 * (toMat n a).det)) := by rw [hd2]; ring

theorem detAlg_sign {n : ℕ} {a : List (List ℚ)} (hsq : SquareMat n a) (h : detAlg a ≠ 0) :
    ∃ ε, (ε = 1 ∨ ε = -1) ∧ detAlg a = ε * (toMat n a).det := by
  have hlen := hsq.1
  have hd : detAlg a = detLoop n n 0 a 1 := by rw [detAlg, hlen]
  rw [hd] at h ⊢
  obtain ⟨ε, hε, hIH⟩ := detLoop_spec n n 0 a 1 hsq (by omega)
    (fun k j hk => absurd hk (Nat.not_lt_zero k)) h
  refine ⟨ε, hε, ?_⟩
  simpa using hIH

end RustNT

namespace RustNT

theorem detAlg_two_diag (x y : ℚ) (hx : x ≠ 0) (hy : y ≠ 0) :
    detAlg [[x, 0], [0, y]] = x * y := by
  have hB : detAlg [[x, 0], [0, y]] =
      match findPivot [[x, 0], [0, y]] 0 2 0 with
      | none => 0
      | some idx =>
        detLoop 2 1 1 (elimBelow 2 0 (lswap [[x, 0], [0, y]] 0 idx))
          (1 * mget (elimBelow 2 0 (lswap [[x, 0], [0, y]] 0 idx)) 0 0) := rfl
  have hC : findPivot [[x, 0], [0, y]] 0 2 0 =
      if mget [[x, 0], [0, y]] 0 0 ≠ 0 then some 0
      else findPivot [[x, 0], [0, y]] 0 1 1 := rfl
  have hCx : mget [[x, 0], [0, y]] 0 0 = x := rfl
  rw [hCx] at hC
  rw [if_pos hx] at hC
  rw [hB, hC]
  dsimp only
  have hD : lswap [[x, 0], [0, y]] 0 0 = [[x, 0], [0, y]] := rfl
  rw [hD]
  have hE : elimBelow 2 0 [[x, 0], [0, y]] = [[x, 0], [0, y]] := by
    have h1 : elimBelow 2 0 [[x, 0], [0, y]] =
        [[x, 0], [0 - 0 / x * x, y - 0 / x * 0]] := rfl
    rw [h1]
    simp
  rw [hE]
  have hF : mget [[x, 0], [0, y]] 0 0 = x := rfl
  rw [hF]
  have hG : detLoop 2 1 1 [[x, 0], [0, y]] (1 * x) =
      match findPivot [[x, 0], [0, y]] 1 1 1 with
      | none => 0
      | some idx =>
        detLoop 2 0 2 (elimBelow 2 1 (lswap [[x, 0], [0, y]] 1 idx))
          (1 * x * mget (elimBelow 2 1 (lswap [[x, 0], [0, y]] 1 idx)) 1 1) := rfl
  have hH : findPivot [[x, 0], [0, y]] 1 1 1 =
      if mget [[x, 0], [0, y]] 1 1 ≠ 0 then some 1
      else findPivot [[x, 0], [0, y]] 1 0 2 := rfl
  have hHy : mget [[x, 0], [0, y]] 1 1 = y := rfl
  rw [hHy] at hH
  rw [if_pos hy] at hH
  rw [hG, hH]
  dsimp only
  have hI : elimBelow 2 1 (lswap [[x, 0], [0, y]] 1 1) = [[x, 0], [0, y]] := rfl
  rw [hI]
  have hJ : mget [[x, 0], [0, y]] 1 1 = y := rfl
  rw [hJ]
  have hK : detLoop 2 0 2 [[x, 0], [0, y]] (1 * x * y) = 1 * x * y := rfl
  rw [hK]
  ring

/-- Claim C4 amended: when `index(O1, O2)` returns a value `q` (the determinant
quotient is an integer and `determinant(O1)` is nonzero), then `q` is nonzero
and `|q| = |det(basis(O2))| / |det(basis(O1))|`.  The sign is NOT normalised:
the `determinant` routine ignores the sign of its row swaps and `index` takes
no absolute value, so the returned value can be negative. -/
theorem index_amended (n : ℕ) (a b : List (List ℚ)) (q : ℤ)
    (hsa : SquareMat n a) (hsb : SquareMat n b)
    (hda : detAlg a ≠ 0) (hdb : detAlg b ≠ 0)
    (hq : index a b = some q) :
    q ≠ 0 ∧ |(q : ℚ)| = |(toMat n b).det| / |(toMat n a).det| := by
  unfold index at hq
  rw [if_neg hda] at hq
  by_cases hden : (detAlg b / detAlg a).den = 1
  · rw [if_pos hden] at hq
    injection hq with hq2
    obtain ⟨εa, hεa, hA⟩ := detAlg_sign hsa hda
    obtain ⟨εb, hεb, hB⟩ := detAlg_sign hsb hdb
    have hqq : (q : ℚ) = detAlg b / detAlg a := by
      rw [← hq2]
      have h2 := Rat.num_div_den (detAlg b / detAlg a)
      rw [hden] at h2
      simpa using h2
    constructor
    · intro hq0
      rw [hq0] at hqq
      have h3 : detAlg b / detAlg a = 0 := by
        rw [← hqq]
        norm_num
      rcases div_eq_zero_iff.mp h3 with h4 | h4
      · exact hdb h4
      · exact hda h4
    · rw [hqq, abs_div, hA, hB]
      rcases hεa with rfl | rfl <;> rcases hεb with rfl | rfl <;>
        simp [abs_mul]
  · rw [if_neg hden] at hq
    exact absurd hq (by simp)

/-- Counterexample to claim C4 as stated: with `O1` the identity basis and
`O2 = [[1,0],[0,-1]]` (a sublattice of `O1` with linearly independent rows,
determinants `1` and `-1`), `index(O1, O2)` returns `-1`, which is not
`|det(basis(O2))/det(basis(O1))| = 1` and is not positive. -/
theorem index_claim_counterexample :
    index [[(1 : ℚ), 0], [0, 1]] [[(1 : ℚ), 0], [0, -1]] = some (-1) ∧
    (toMat 2 [[(1 : ℚ), 0], [0, 1]]).det = 1 ∧
    (toMat 2 [[(1 : ℚ), 0], [0, -1]]).det = -1 ∧
    ¬ (0 < (-1 : ℤ)) := by
  have hA : detAlg [[(1 : ℚ), 0], [0, 1]] = 1 := by
    rw [detAlg_two_diag 1 1 one_ne_zero one_ne_zero]
    norm_num
  have hB : detAlg [[(1 : ℚ), 0], [0, -1]] = -1 := by
    rw [detAlg_two_diag 1 (-1) one_ne_zero (by norm_num)]
    norm_num
  refine ⟨?_, ?_, ?_, by decide⟩
  · unfold index
    rw [hA, hB, if_neg one_ne_zero]
    have h1 : (-1 : ℚ) / 1 = -1 := div_one _
    rw [h1]
    rw [if_pos (show ((-1 : ℚ)).den = 1 from rfl)]
    rfl
  · rw [Matrix.det_fin_two,
      show (toMat 2 [[(1 : ℚ), 0], [0, 1]]) 0 0 = 1 from rfl,
      show (toMat 2 [[(1 : ℚ), 0], [0, 1]]) 1 1 = 1 from rfl,
      show (toMat 2 [[(1 : ℚ), 0], [0, 1]]) 0 1 = 0 from rfl,
      show (toMat 2 [[(1 : ℚ), 0], [0, 1]]) 1 0 = 0 from rfl]
    norm_num
  · rw [Matrix.det_fin_two,
      show (toMat 2 [[(1 : ℚ), 0], [0, -1]]) 0 0 = 1 from rfl,
      show (toMat 2 [[(1 : ℚ), 0], [0, -1]]) 1 1 = -1 from rfl,
      show (toMat 2 [[(1 : ℚ), 0], [0, -1]]) 0 1 = 0 from rfl,
      show (toMat 2 [[(1 : ℚ), 0], [0, -1]]) 1 0 = 0 from rfl]
    norm_num

/-- Witness for the amended claim C4 at `O1` the identity and `O2 = [[2,0],[0,1]]`:
`index` returns `2` and `|2| = |det O2|/|det O1|`. -/
theorem index_amended_witness :
    (SquareMat 2 [[(1 : ℚ), 0], [0, 1]] ∧ SquareMat 2 [[(2 : ℚ), 0], [0, 1]] ∧
      detAlg [[(1 : ℚ), 0], [0, 1]] ≠ 0 ∧ detAlg [[(2 : ℚ), 0], [0, 1]] ≠ 0 ∧
      index [[(1 : ℚ), 0], [0, 1]] [[(2 : ℚ), 0], [0, 1]] = some 2) ∧
    (2 : ℤ) ≠ 0 ∧ |((2 : ℤ) : ℚ)| =
      |(toMat 2 [[(2 : ℚ), 0], [0, 1]]).det| / |(toMat 2 [[(1 : ℚ), 0], [0, 1]]).det| := by
  have hA : detAlg [[(1 : ℚ), 0], [0, 1]] = 1 := by
    rw [detAlg_two_diag 1 1 one_ne_zero one_ne_zero]
    norm_num
  have hB : detAlg [[(2 : ℚ), 0], [0, 1]] = 2 := by
    rw [detAlg_two_diag 2 1 (by norm_num) one_ne_zero]
    norm_num
  have hA0 : detAlg [[(1 : ℚ), 0], [0, 1]] ≠ 0 := by
    rw [hA]
    exact one_ne_zero
  have hB0 : detAlg [[(2 : ℚ), 0], [0, 1]] ≠ 0 := by
    rw [hB]
    norm_num
  have hq : index [[(1 : ℚ), 0], [0, 1]] [[(2 : ℚ), 0], [0, 1]] = some 2 := by
    unfold index
    rw [hA, hB, if_neg one_ne_zero]
    have h1 : (2 : ℚ) / 1 = 2 := div_one _
    rw [h1]
    rw [if_pos (show ((2 : ℚ)).den = 1 from rfl)]
    rfl
  have hs1 : SquareMat 2 [[(1 : ℚ), 0], [0, 1]] := ⟨rfl, by decide⟩
  have hs2 : SquareMat 2 [[(2 : ℚ), 0], [0, 1]] := ⟨rfl, by decide⟩
  exact ⟨⟨hs1, hs2, hA0, hB0, hq⟩,
    index_amended 2 [[(1 : ℚ), 0], [0, 1]] [[(2 : ℚ), 0], [0, 1]] 2
      hs1 hs2 hA0 hB0 hq⟩

end RustNT

namespace RustNT

theorem squareMat_idMat (n : ℕ) : SquareMat n (idMat n) := by
  constructor
  · simp [idMat]
  · intro row hmem
    unfold idMat at hmem
    rw [List.mem_map] at hmem
    obtain ⟨i, _, hEq⟩ := hmem
    rw [← hEq]
    simp

theorem getD_map_range {α : Type} (d : α) (F : ℕ → α) (m j : ℕ) (hj : j < m) :
    ((List.range m).map F).getD j d = F j := by
  rw [List.getD_eq_getElem _ _ (by simpa using hj)]
  simp

theorem mget_idMat (n i j : ℕ) (hi : i < n) (hj : j < n) :
    mget (idMat n) i j = if j = i then (1 : ℚ) else 0 := by
  unfold mget idMat
  rw [getD_map_range [] _ n i hi, getD_map_range 0 _ n j hj]

theorem toMat_idMat (n : ℕ) : toMat n (idMat n) = 1 := by
  ext j k
  rw [Matrix.one_apply]
  show mget (idMat n) (j : ℕ) (k : ℕ) = _
  rw [mget_idMat n (j : ℕ) (k : ℕ) j.isLt k.isLt]
  by_cases h : j = k
  · rw [if_pos (by rw [h]), if_pos h]
  · rw [if_neg (fun hc => h (Fin.ext_iff.mpr hc.symm)), if_neg h]

theorem squareMat_scaleRow {n : ℕ} {a : List (List ℚ)} (hsq : SquareMat n a) (i : ℕ) (f : ℚ) :
    SquareMat n (scaleRow n i f a) := by
  obtain ⟨hlen, hrow⟩ := hsq
  refine ⟨by simp [scaleRow, hlen], ?_⟩
  intro row hmem
  unfold scaleRow at hmem
  rw [List.mem_map] at hmem
  obtain ⟨j, hjmem, hEq⟩ := hmem
  rw [List.mem_range] at hjmem
  have hgd : (a.getD j []).length = n := hrow _ (getD_mem_rows a j hjmem)
  by_cases hc : j = i
  · rw [if_pos hc] at hEq
    rw [← hEq]
    simp only [List.length_map, List.length_range]
    exact hgd
  · rw [if_neg hc] at hEq
    rw [← hEq]
    exact hgd

theorem mget_scaleRow {n : ℕ} {a : List (List ℚ)} (hsq : SquareMat n a) (i : ℕ) (f : ℚ)
    (j k : ℕ) (hj : j < n) (hk : k < n) :
    mget (scaleRow n i f a) j k = if j = i then mget a j k * f else mget a j k := by
  obtain ⟨hlen, hrow⟩ := hsq
  have hj' : j < a.length := by omega
  unfold mget scaleRow
  rw [getD_map_range [] _ a.length j hj']
  by_cases hc : j = i
  · rw [if_pos hc, if_pos hc]
    have hr : (a.getD j []).length = n := hrow _ (getD_mem_rows a j hj')
    rw [getD_map_range 0 _ (a.getD j []).length k (by omega)]
    rw [if_pos hk]
  · rw [if_neg hc, if_neg hc]

theorem toMat_scaleRow {n : ℕ} {a : List (List ℚ)} (hsq : SquareMat n a) (i : ℕ) (f : ℚ) :
    toMat n (scaleRow n i f a) = Matrix.of fun j k : Fin n =>
      if (j : ℕ) = i then toMat n a j k * f else toMat n a j k := by
  ext j k
  show mget (scaleRow n i f a) (j : ℕ) (k : ℕ) = _
  rw [mget_scaleRow hsq i f (j : ℕ) (k : ℕ) j.isLt k.isLt]
  rfl

theorem squareMat_elimAllB {n : ℕ} {b : List (List ℚ)} (hsq : SquareMat n b)
    (i : ℕ) (asrc : List (List ℚ)) : SquareMat n (elimAllB n i asrc b) := by
  obtain ⟨hlen, hrow⟩ := hsq
  refine ⟨by simp [elimAllB, hlen], ?_⟩
  intro row hmem
  unfold elimAllB at hmem
  rw [List.mem_map] at hmem
  obtain ⟨j, hjmem, hEq⟩ := hmem
  rw [List.mem_range] at hjmem
  have hgd : (b.getD j []).length = n := hrow _ (getD_mem_rows b j hjmem)
  by_cases hc : j ≠ i ∧ j < n
  · rw [if_pos hc] at hEq
    rw [← hEq]
    simp only [List.length_map, List.length_range]
    exact hgd
  · rw [if_neg hc] at hEq
    rw [← hEq]
    exact hgd

theorem mget_elimAllB {n : ℕ} {b : List (List ℚ)} (hsq : SquareMat n b)
    (i : ℕ) (asrc : List (List ℚ)) (j k : ℕ) (hj : j < n) (hk : k < n) :
    mget (elimAllB n i asrc b) j k =
      if j ≠ i then mget b j k - mget asrc j i * mget b i k else mget b j k := by
  obtain ⟨hlen, hrow⟩ := hsq
  have hj' : j < b.length := by omega
  unfold mget elimAllB
  rw [getD_map_range [] _ b.length j hj']
  by_cases hc : j ≠ i
  · rw [if_pos ⟨hc, hj⟩, if_pos hc]
    have hr : (b.getD j []).length = n := hrow _ (getD_mem_rows b j hj')
    rw [getD_map_range 0 _ (b.getD j []).length k (by omega)]
    rw [if_pos hk]
    rfl
  · rw [if_neg (by tauto), if_neg hc]

theorem toMat_elimAllB {n : ℕ} {b : List (List ℚ)} (hsq : SquareMat n b)
    (i : ℕ) (hi : i < n) (asrc : List (List ℚ)) :
    toMat n (elimAllB n i asrc b) = Matrix.of fun j k : Fin n =>
      if (j : ℕ) ≠ i then toMat n b j k - mget asrc (j : ℕ) i * toMat n b ⟨i, hi⟩ k
      else toMat n b j k := by
  ext j k
  show mget (elimAllB n i asrc b) (j : ℕ) (k : ℕ) = _
  rw [mget_elimAllB hsq i asrc (j : ℕ) (k : ℕ) j.isLt k.isLt]
  rfl

theorem toMat_eq_one_of_icols {n : ℕ} {a : List (List ℚ)} (hic : Icols n n a) :
    toMat n a = 1 := by
  ext j k
  rw [Matrix.one_apply]
  show mget a (j : ℕ) (k : ℕ) = _
  rw [hic (k : ℕ) (j : ℕ) k.isLt j.isLt]
  by_cases h : j = k
  · rw [if_pos (by rw [h]), if_pos h]
  · rw [if_neg (fun hc => h (Fin.ext_iff.mpr hc)), if_neg h]

theorem findPivot_none (a : List (List ℚ)) (i : ℕ) :
    ∀ fuel j, findPivot a i fuel j = none → ∀ r, j ≤ r → r < j + fuel → mget a r i = 0 := by
  intro fuel
  induction fuel with
  | zero =>
    intro j _ r h1 h2
    omega
  | succ m ih =>
    intro j h r h1 h2
    simp only [findPivot] at h
    by_cases hm : mget a j i ≠ 0
    · rw [if_pos hm] at h
      exact absurd h (by simp)
    · rw [if_neg hm] at h
      push_neg at hm
      by_cases hr : r = j
      · rw [hr]
        exact hm
      · exact ih (j + 1) h r (by omega) (by omega)

theorem mul_op_swap {n : ℕ} (X M : Matrix (Fin n) (Fin n) ℚ) (σ : Equiv.Perm (Fin n)) :
    (Matrix.of fun r => X (σ r)) * M = Matrix.of fun r => (X * M) (σ r) := by
  ext j k
  simp [Matrix.mul_apply]

theorem mul_op_scale {n : ℕ} (X M : Matrix (Fin n) (Fin n) ℚ) (c : Fin n → Prop)
    [DecidablePred c] (f : ℚ) :
    (Matrix.of fun j k => if c j then X j k * f else X j k) * M
      = Matrix.of fun j k => if c j then (X * M) j k * f else (X * M) j k := by
  ext j k
  simp only [Matrix.mul_apply, Matrix.of_apply]
  by_cases hc : c j
  · simp only [if_pos hc]
    rw [Finset.sum_mul]
    apply Finset.sum_congr rfl
    intro l _
    ring
  · simp only [if_neg hc]

theorem mul_op_elim {n : ℕ} (X M : Matrix (Fin n) (Fin n) ℚ) (c : Fin n → Prop)
    [DecidablePred c] (i0 : Fin n) (g : Fin n → ℚ) :
    (Matrix.of fun j k => if c j then X j k - g j * X i0 k else X j k) * M
      = Matrix.of fun j k => if c j then (X * M) j k - g j * (X * M) i0 k
        else (X * M) j k := by
  ext j k
  simp only [Matrix.mul_apply, Matrix.of_apply]
  by_cases hc : c j
  · simp only [if_pos hc]
    have hterm : ∀ l, (X j l - g j * X i0 l) * M l k
        = X j l * M l k - g j * (X i0 l * M l k) := by
      intro l
      ring
    rw [Finset.sum_congr rfl (fun l _ => hterm l), Finset.sum_sub_distrib, ← Finset.mul_sum]
  · simp only [if_neg hc]

theorem mulVec_zero_swap {n : ℕ} (X : Matrix (Fin n) (Fin n) ℚ) (σ : Equiv.Perm (Fin n))
    (v : Fin n → ℚ) (h : (Matrix.of fun r => X (σ r)).mulVec v = 0) : X.mulVec v = 0 := by
  funext s
  have h2 := congrFun h (σ.symm s)
  simpa [Matrix.mulVec, Matrix.dotProduct] using h2

theorem mulVec_zero_scale {n : ℕ} (X : Matrix (Fin n) (Fin n) ℚ) (c : Fin n → Prop)
    [DecidablePred c] (f : ℚ) (hf : f ≠ 0) (v : Fin n → ℚ)
    (h : (Matrix.of fun j k => if c j then X j k * f else X j k).mulVec v = 0) :
    X.mulVec v = 0 := by
  funext s
  have h2 := congrFun h s
  by_cases hs : c s
  · simp only [Matrix.mulVec, Matrix.dotProduct, Matrix.of_apply, if_pos hs,
      Pi.zero_apply] at h2
    have h3 : (∑ l, X s l * v l) * f = 0 := by
      rw [Finset.sum_mul, ← h2]
      apply Finset.sum_congr rfl
      intro l _
      ring
    rcases mul_eq_zero.mp h3 with h4 | h4
    · simpa [Matrix.mulVec, Matrix.dotProduct] using h4
    · exact absurd h4 hf
  · simp only [Matrix.mulVec, Matrix.dotProduct, Matrix.of_apply, if_neg hs,
      Pi.zero_apply] at h2
    simpa [Matrix.mulVec, Matrix.dotProduct] using h2

theorem mulVec_zero_elim {n : ℕ} (X : Matrix (Fin n) (Fin n) ℚ) (c : Fin n → Prop)
    [DecidablePred c] (i0 : Fin n) (hci : ¬ c i0) (g : Fin n → ℚ) (v : Fin n → ℚ)
    (h : (Matrix.of fun j k => if c j then X j k - g j * X i0 k else X j k).mulVec v = 0) :
    X.mulVec v = 0 := by
  have hi0 : ∑ l, X i0 l * v l = 0 := by
    have h2 := congrFun h i0
    simpa [Matrix.mulVec, Matrix.dotProduct, if_neg hci] using h2
  funext s
  have h2 := congrFun h s
  by_cases hs : c s
  · simp only [Matrix.mulVec, Matrix.dotProduct, Matrix.of_apply, if_pos hs,
      Pi.zero_apply] at h2
    have h3 : (∑ l, X s l * v l) - g s * (∑ l, X i0 l * v l) = 0 := by
      rw [← h2, Finset.mul_sum, ← Finset.sum_sub_distrib]
      apply Finset.sum_congr rfl
      intro l _
      ring
    rw [hi0] at h3
    simp only [Matrix.mulVec, Matrix.dotProduct, Pi.zero_apply]
    linarith [h3]
  · simp only [Matrix.mulVec, Matrix.dotProduct, Matrix.of_apply, if_neg hs,
      Pi.zero_apply] at h2
    simpa [Matrix.mulVec, Matrix.dotProduct] using h2

end RustNT

namespace RustNT

theorem icols_pivotfail_mulVec {n i : ℕ} {a : List (List ℚ)} (hi : i < n)
    (hic : Icols n i a) (hz : ∀ r, i ≤ r → r < n → mget a r i = 0) :
    ∃ v : Fin n → ℚ, v ≠ 0 ∧ (toMat n a).mulVec v = 0 := by
  refine ⟨fun j => if (j : ℕ) < i then mget a (j : ℕ) i
    else if (j : ℕ) = i then -1 else 0, ?_, ?_⟩
  · intro hv
    have h1 := congrFun hv ⟨i, hi⟩
    simp only [Pi.zero_apply] at h1
    rw [if_neg (lt_irrefl i)] at h1
    simp at h1
  · funext r
    simp only [Matrix.mulVec, Matrix.dotProduct, Pi.zero_apply]
    by_cases hr : (r : ℕ) < i
    · have hsummand : ∀ j : Fin n, toMat n a r j *
          (if (j : ℕ) < i then mget a (j : ℕ) i else if (j : ℕ) = i then -1 else 0)
          = (if j = r then mget a (r : ℕ) i else 0)
            + (if j = ⟨i, hi⟩ then -(mget a (r : ℕ) i) else 0) := by
        intro j
        by_cases hj1 : (j : ℕ) < i
        · have hA : toMat n a r j = if (r : ℕ) = (j : ℕ) then 1 else 0 :=
            hic (j : ℕ) (r : ℕ) hj1 r.isLt
          have hjne : j ≠ ⟨i, hi⟩ := fun hc => by
            have h2 := Fin.ext_iff.mp hc
            have h3 : ((⟨i, hi⟩ : Fin n) : ℕ) = i := rfl
            omega
          rw [if_pos hj1, hA]
          by_cases hjr : j = r
          · rw [if_pos (show (r : ℕ) = (j : ℕ) from by rw [hjr]), if_pos hjr,
              if_neg hjne, hjr]
            ring
          · rw [if_neg (show ¬ (r : ℕ) = (j : ℕ) from
                fun hc => hjr (Fin.ext_iff.mpr hc.symm)), if_neg hjr, if_neg hjne]
            ring
        · by_cases hj2 : (j : ℕ) = i
          · have hjF : j = ⟨i, hi⟩ := Fin.ext_iff.mpr hj2
            rw [if_neg hj1, if_pos hj2]
            have hjr : j ≠ r := fun hc => hj1 (hc.symm ▸ hr)
            rw [if_neg hjr, if_pos hjF]
            have hAr : toMat n a r j = mget a (r : ℕ) i := by
              rw [hjF]
              rfl
            rw [hAr]
            ring
          · rw [if_neg hj1, if_neg hj2]
            have hjr : j ≠ r := fun hc => hj1 (hc.symm ▸ hr)
            have hjne : j ≠ ⟨i, hi⟩ := fun hc => by
              have h2 := Fin.ext_iff.mp hc
              have h3 : ((⟨i, hi⟩ : Fin n) : ℕ) = i := rfl
              omega
            rw [if_neg hjr, if_neg hjne]
            ring
      rw [Finset.sum_congr rfl (fun j _ => hsummand j), Finset.sum_add_distrib,
        Finset.sum_ite_eq' Finset.univ r (fun _ => mget a (r : ℕ) i),
        Finset.sum_ite_eq' Finset.univ (⟨i, hi⟩ : Fin n) (fun _ => -(mget a (r : ℕ) i))]
      simp
    · apply Finset.sum_eq_zero
      intro j _
      by_cases hj1 : (j : ℕ) < i
      · have hA : toMat n a r j = if (r : ℕ) = (j : ℕ) then 1 else 0 :=
          hic (j : ℕ) (r : ℕ) hj1 r.isLt
        rw [hA, if_neg (by omega)]
        ring
      · by_cases hj2 : (j : ℕ) = i
        · have hA : toMat n a r j = mget a (r : ℕ) (j : ℕ) := rfl
          rw [if_neg hj1, if_pos hj2, hA, hj2, hz (r : ℕ) (by omega) r.isLt]
          ring
        · rw [if_neg hj1, if_neg hj2]
          ring

theorem gjLoop_spec (n : ℕ) (M : Matrix (Fin n) (Fin n) ℚ) (hdet : M.det ≠ 0) :
    ∀ (fuel i : ℕ) (a b : List (List ℚ)), i + fuel = n →
      SquareMat n a → SquareMat n b →
      Icols n i a →
      (∀ v : Fin n → ℚ, (toMat n a).mulVec v = 0 → M.mulVec v = 0) →
      toMat n b * M = toMat n a →
      ∃ binv, gjLoop n fuel i a b = some binv ∧ SquareMat n binv ∧
        toMat n binv * M = 1 := by
  intro fuel
  induction fuel with
  | zero =>
    intro i a b hin hsa hsb hic hker hbm
    obtain rfl : i = n := by omega
    refine ⟨b, rfl, hsb, ?_⟩
    rw [hbm, toMat_eq_one_of_icols hic]
  | succ m ih =>
    intro i a b hin hsa hsb hic hker hbm
    have hi : i < n := by omega
    cases hfp : findPivot a i (m + 1) i with
    | none =>
      exfalso
      have hzc : ∀ r, i ≤ r → r < n → mget a r i = 0 := by
        intro r h1 h2
        exact findPivot_none a i (m + 1) i hfp r h1 (by omega)
      obtain ⟨v, hv0, hvz⟩ := icols_pivotfail_mulVec hi hic hzc
      have hMv := hker v hvz
      exact hdet (Matrix.exists_mulVec_eq_zero_iff.mp ⟨v, hv0, hMv⟩)
    | some idx =>
      obtain ⟨hge, hlt, hpiv⟩ := findPivot_spec a i (m + 1) i idx hfp
      have hidx : idx < n := by omega
      have hlen : a.length = n := hsa.1
      have hlenb : b.length = n := hsb.1
      set σ : Equiv.Perm (Fin n) := Equiv.swap ⟨i, hi⟩ ⟨idx, hidx⟩ with hσ
      set a1 := lswap a i idx with ha1
      set b1 := lswap b i idx with hb1
      have hsa1 : SquareMat n a1 := squareMat_lswap hsa i idx (by omega) (by omega)
      have hsb1 : SquareMat n b1 := squareMat_lswap hsb i idx (by omega) (by omega)
      have hta1 : toMat n a1 = Matrix.of fun r => toMat n a (σ r) :=
        toMat_lswap i idx hi hidx hlen
      have htb1 : toMat n b1 = Matrix.of fun r => toMat n b (σ r) :=
        toMat_lswap i idx hi hidx hlenb
      have hp1 : mget a1 i i ≠ 0 := by
        rw [ha1, mget_lswap a i idx (by omega) (by omega) i i]
        by_cases h1 : i = idx
        · rw [if_pos h1]
          rw [h1] at hpiv ⊢
          exact hpiv
        · rw [if_neg h1, if_pos rfl]
          exact hpiv
      set f := (mget a1 i i)⁻¹ with hf
      have hfne : f ≠ 0 := inv_ne_zero hp1
      set a2 := scaleRow n i f a1 with ha2
      set b2 := scaleRow n i f b1 with hb2
      have hsa2 : SquareMat n a2 := squareMat_scaleRow hsa1 i f
      have hsb2 : SquareMat n b2 := squareMat_scaleRow hsb1 i f
      have hta2 : toMat n a2 = Matrix.of fun j k : Fin n =>
          if (j : ℕ) = i then toMat n a1 j k * f else toMat n a1 j k :=
        toMat_scaleRow hsa1 i f
      have htb2 : toMat n b2 = Matrix.of fun j k : Fin n =>
          if (j : ℕ) = i then toMat n b1 j k * f else toMat n b1 j k :=
        toMat_scaleRow hsb1 i f
      set a3 := elimAllB n i a2 a2 with ha3
      set b3 := elimAllB n i a2 b2 with hb3
      have hsa3 : SquareMat n a3 := squareMat_elimAllB hsa2 i a2
      have hsb3 : SquareMat n b3 := squareMat_elimAllB hsb2 i a2
      have hta3 : toMat n a3 = Matrix.of fun j k : Fin n =>
          if (j : ℕ) ≠ i then toMat n a2 j k - mget a2 (j : ℕ) i * toMat n a2 ⟨i, hi⟩ k
          else toMat n a2 j k :=
        toMat_elimAllB hsa2 i hi a2
      have htb3 : toMat n b3 = Matrix.of fun j k : Fin n =>
          if (j : ℕ) ≠ i then toMat n b2 j k - mget a2 (j : ℕ) i * toMat n b2 ⟨i, hi⟩ k
          else toMat n b2 j k :=
        toMat_elimAllB hsb2 i hi a2
      -- entries of a2 in processed columns
      have ha1cols : ∀ x k : ℕ, x < n → k < i → mget a1 x k = if x = k then 1 else 0 := by
        intro x k hx hk
        rw [ha1, mget_lswap a i idx (by omega) (by omega) x k]
        by_cases h1 : x = idx
        · rw [if_pos h1, hic k i hk hi]
          rw [if_neg (by omega), if_neg (by omega)]
        · rw [if_neg h1]
          by_cases h2 : x = i
          · rw [if_pos h2, hic k idx hk hidx]
            rw [if_neg (by omega), if_neg (by omega)]
          · rw [if_neg h2]
            exact hic k x hk hx
      have ha2cols : ∀ x k : ℕ, x < n → k < i → mget a2 x k = if x = k then 1 else 0 := by
        intro x k hx hk
        rw [ha2, mget_scaleRow hsa1 i f x k hx (by omega)]
        by_cases h1 : x = i
        · rw [if_pos h1, ha1cols x k hx hk, if_neg (by omega)]
          ring
        · rw [if_neg h1]
          exact ha1cols x k hx hk
      have ha2ii : mget a2 i i = 1 := by
        rw [ha2, mget_scaleRow hsa1 i f i i hi hi, if_pos rfl, hf,
          mul_inv_cancel₀ hp1]
      -- Icols for the next stage
      have hic3 : Icols n (i + 1) a3 := by
        intro k j hk hj
        rw [ha3, mget_elimAllB hsa2 i a2 j k hj (by omega)]
        by_cases hji : j ≠ i
        · rw [if_pos hji]
          by_cases hki : k < i
          · rw [ha2cols j k hj hki, ha2cols i k hi hki,
              if_neg (show ¬ i = k by omega)]
            ring
          · have hki2 : k = i := by omega
            subst hki2
            rw [ha2ii, if_neg (by omega)]
            ring
        · rw [if_neg hji]
          push_neg at hji
          subst hji
          by_cases hki : k < j
          · rw [ha2cols j k hj hki]
          · have hki2 : k = j := by omega
            subst hki2
            rw [ha2ii, if_pos rfl]
      -- kernel transfer
      have hker3 : ∀ v : Fin n → ℚ, (toMat n a3).mulVec v = 0 → M.mulVec v = 0 := by
        intro v hv3
        rw [hta3] at hv3
        have hv2 : (toMat n a2).mulVec v = 0 :=
          mulVec_zero_elim (toMat n a2) (fun j => (j : ℕ) ≠ i) ⟨i, hi⟩
            (fun hc => hc rfl) (fun j => mget a2 (j : ℕ) i) v hv3
        rw [hta2] at hv2
        have hv1 : (toMat n a1).mulVec v = 0 :=
          mulVec_zero_scale (toMat n a1) (fun j => (j : ℕ) = i) f hfne v hv2
        rw [hta1] at hv1
        have hv0 : (toMat n a).mulVec v = 0 := mulVec_zero_swap (toMat n a) σ v hv1
        exact hker v hv0
      -- b3 * M = a3
      have hbm3 : toMat n b3 * M = toMat n a3 := by
        rw [htb3, hta3, mul_op_elim (toMat n b2) M (fun j => (j : ℕ) ≠ i) ⟨i, hi⟩
          (fun j => mget a2 (j : ℕ) i)]
        have hbm2 : toMat n b2 * M = toMat n a2 := by
          rw [htb2, hta2, mul_op_scale (toMat n b1) M (fun j => (j : ℕ) = i) f]
          have hbm1 : toMat n b1 * M = toMat n a1 := by
            rw [htb1, hta1, mul_op_swap (toMat n b) M σ, hbm]
          rw [hbm1]
        rw [hbm2]
      have hrun : gjLoop n (m + 1) i a b = gjLoop n m (i + 1) a3 b3 := by
        have hstep : gjLoop n (m + 1) i a b =
            match findPivot a i (m + 1) i with
            | none => none
            | some idx =>
              gjLoop n m (i + 1)
                (elimAllB n i (scaleRow n i (mget (lswap a i idx) i i)⁻¹ (lswap a i idx))
                  (scaleRow n i (mget (lswap a i idx) i i)⁻¹ (lswap a i idx)))
                (elimAllB n i (scaleRow n i (mget (lswap a i idx) i i)⁻¹ (lswap a i idx))
                  (scaleRow n i (mget (lswap a i idx) i i)⁻¹ (lswap b i idx))) := rfl
        rw [hstep, hfp]
      obtain ⟨binv, hrun2, hsqb, hBM⟩ := ih (i + 1) a3 b3 (by omega) hsa3 hsb3 hic3 hker3 hbm3
      exact ⟨binv, by rw [hrun]; exact hrun2, hsqb, hBM⟩

end RustNT

namespace RustNT

theorem ratToInt_intCast (z : ℤ) : ratToInt ((z : ℤ) : ℚ) = z := by
  unfold ratToInt
  rw [Rat.num_intCast, Rat.den_intCast, Nat.cast_one, Int.tdiv_one]

theorem ratToInt_zero : ratToInt 0 = 0 := rfl

theorem squareMat_sumMat (table : List (List (List ℤ))) (a : List ℤ) :
    SquareMat table.length (sumMat table a) := by
  refine ⟨by simp [sumMat], ?_⟩
  intro row hmem
  unfold sumMat at hmem
  rw [List.mem_map] at hmem
  obtain ⟨j, _, hEq⟩ := hmem
  rw [← hEq]
  simp

theorem mget_sumMat (table : List (List (List ℤ))) (a : List ℤ) (j k : ℕ)
    (hj : j < table.length) (hk : k < table.length) :
    mget (sumMat table a) j k
      = ∑ i ∈ Finset.range table.length, (a.getD i 0 : ℚ) * (tget table i j k : ℚ) := by
  unfold mget sumMat
  rw [getD_map_range [] _ table.length j hj, getD_map_range 0 _ table.length k hk,
    sum_range_list]

theorem getD_mulT (table : List (List (List ℤ))) (a b : List ℤ) (k : ℕ)
    (hk : k < a.length) :
    (mulT table a b).getD k 0
      = ∑ i ∈ Finset.range a.length, ∑ j ∈ Finset.range a.length,
          a.getD i 0 * b.getD j 0 * tget table i j k := by
  unfold mulT
  rw [getD_map_range 0 _ a.length k hk, sum_range_list]
  apply Finset.sum_congr rfl
  intro i _
  rw [sum_range_list]

theorem length_mulT (table : List (List (List ℤ))) (a b : List ℤ) :
    (mulT table a b).length = a.length := by
  simp [mulT]

end RustNT

namespace RustNT

/-- Claim C7: for a multiplication table of degree `n` and an element `a` whose
norm (as computed by `MultTable::norm`) is nonzero, `MultTable::inv(a)` returns
`(β, d)` with `d = |N(a)|` positive (`N(a)` being the determinant of the
multiplication-by-`a` matrix) and `mul(a, β) = d · e₀`, where `e₀` is the first
basis vector, which represents the multiplicative identity of the order under
the code's documented assumption `w[0] = 1`. -/
theorem multTable_inv_spec (n : ℕ) (table : List (List (List ℤ))) (a : List ℤ)
    (htl : table.length = n) (hal : a.length = n) (hn0 : normT table a ≠ 0) :
    ∃ β d, invT table a = some (β, d) ∧
      0 < d ∧ (d : ℚ) = |(toMat n (sumMat table a)).det| ∧
      mulT table a β = (List.range n).map (fun k => if k = 0 then d else 0) := by
  set S := sumMat table a with hS
  have hSlen : S.length = n := by
    rw [hS]
    unfold sumMat
    simp [htl]
  have hsqS : SquareMat n S := by
    have h := squareMat_sumMat table a
    rw [htl] at h
    exact h
  have hdetAlg : detAlg S ≠ 0 := by
    intro hc
    apply hn0
    unfold normT
    rw [← hS, hc]
    rfl
  obtain ⟨ε, hε, hsign⟩ := detAlg_sign hsqS hdetAlg
  set Mq := toMat n S with hMq
  have hdet : Mq.det ≠ 0 := by
    intro hc
    rw [hc, mul_zero] at hsign
    exact hdetAlg hsign
  set Z : Matrix (Fin n) (Fin n) ℤ := Matrix.of fun j k =>
    ∑ i ∈ Finset.range n, a.getD i 0 * tget table i (j : ℕ) (k : ℕ) with hZ
  have hmap : Mq = Z.map (Int.cast : ℤ → ℚ) := by
    rw [hMq]
    ext j k
    show mget S (j : ℕ) (k : ℕ) = _
    rw [hS, mget_sumMat table a (j : ℕ) (k : ℕ) (by omega) (by omega), htl,
      Matrix.map_apply]
    rw [hZ]
    simp only [Matrix.of_apply]
    push_cast
    rfl
  have hdetZ : Mq.det = ((Z.det : ℤ) : ℚ) := by
    rw [hmap]
    exact (RingHom.map_det (Int.castRingHom ℚ) Z).symm
  have hZdet0 : Z.det ≠ 0 := by
    intro hc
    apply hdet
    rw [hdetZ, hc]
    norm_num
  have hnorm : normT table a = ratToInt (ε * ((Z.det : ℤ) : ℚ)) := by
    unfold normT
    rw [← hS, hsign, hdetZ]
  have habs : |normT table a| = |Z.det| := by
    rcases hε with rfl | rfl
    · rw [hnorm, one_mul, ratToInt_intCast]
    · rw [hnorm, show (-1 : ℚ) * ((Z.det : ℤ) : ℚ) = (((-Z.det : ℤ)) : ℚ) by push_cast; ring,
        ratToInt_intCast, abs_neg]
  set d := |normT table a| with hd
  have hdpos : 0 < d := by
    rw [habs]
    exact abs_pos.mpr hZdet0
  have hdQ : (d : ℚ) = |Mq.det| := by
    rw [habs, Int.cast_abs, ← hdetZ]
  have hmatinv : ∃ binv, matInv S = some binv ∧ SquareMat n binv ∧
      toMat n binv * Mq = 1 := by
    unfold matInv
    rw [hSlen]
    exact gjLoop_spec n Mq hdet n 0 S (idMat n) (by omega) hsqS (squareMat_idMat n)
      (fun k j hk _ => absurd hk (Nat.not_lt_zero k))
      (fun _ hv => hv)
      (by rw [toMat_idMat, one_mul])
  obtain ⟨binv, hrun, hsqb, hBM⟩ := hmatinv
  have hinv : invT table a = some ((List.range table.length).map fun i =>
      ratToInt (mget binv 0 i * (d : ℚ)), d) := by
    unfold invT
    rw [← hS, hrun]
  have hintegral : ∀ i : ℕ, i < n → ∃ z : ℤ, mget binv 0 i * (d : ℚ) = (z : ℚ) := by
    intro i hi
    have h0n : 0 < n := by omega
    have hminv : Mq⁻¹ = toMat n binv := Matrix.inv_eq_left_inv hBM
    have hentry : mget binv 0 i = toMat n binv ⟨0, h0n⟩ ⟨i, hi⟩ := rfl
    have hadj : Mq.adjugate = Z.adjugate.map (Int.cast : ℤ → ℚ) := by
      rw [hmap]
      exact (RingHom.map_adjugate (Int.castRingHom ℚ) Z).symm
    rw [hentry, ← hminv, Matrix.inv_def, Matrix.smul_apply, Ring.inverse_eq_inv,
      smul_eq_mul, hadj, Matrix.map_apply]
    rcases abs_cases Z.det with ⟨hab, _⟩ | ⟨hab, _⟩
    · refine ⟨Z.adjugate ⟨0, h0n⟩ ⟨i, hi⟩, ?_⟩
      have hdval : (d : ℚ) = Mq.det := by
        rw [habs, hab, ← hdetZ]
      rw [hdval]
      field_simp
    · refine ⟨-(Z.adjugate ⟨0, h0n⟩ ⟨i, hi⟩), ?_⟩
      have hdval : (d : ℚ) = -Mq.det := by
        rw [habs, hab, hdetZ]
        push_cast
        ring
      rw [hdval]
      field_simp
  refine ⟨(List.range table.length).map fun i => ratToInt (mget binv 0 i * (d : ℚ)), d,
    hinv, hdpos, hdQ, ?_⟩
  set β := (List.range table.length).map fun i => ratToInt (mget binv 0 i * (d : ℚ))
    with hβ
  have hβval : ∀ j : ℕ, j < n → ((β.getD j 0 : ℤ) : ℚ) = mget binv 0 j * (d : ℚ) := by
    intro j hj
    obtain ⟨z, hz⟩ := hintegral j hj
    rw [hβ, getD_map_range 0 _ table.length j (by omega), hz, ratToInt_intCast]
  have hlen1 : (mulT table a β).length = n := by
    rw [length_mulT, hal]
  have hlen2 : ((List.range n).map (fun k => if k = 0 then d else 0)).length = n := by
    simp
  apply List.ext_getElem (by rw [hlen1, hlen2])
  intro k hk1 hk2
  rw [← List.getD_eq_getElem _ 0 hk1, ← List.getD_eq_getElem _ 0 hk2]
  rw [hlen1] at hk1
  rw [getD_map_range 0 _ n k hk1]
  rw [getD_mulT table a β k (by omega)]
  apply (Int.cast_injective (α := ℚ))
  push_cast
  have hswap : ∑ i ∈ Finset.range a.length, ∑ j ∈ Finset.range a.length,
      (a.getD i 0 : ℚ) * (β.getD j 0 : ℚ) * (tget table i j k : ℚ)
      = ∑ j ∈ Finset.range n, (β.getD j 0 : ℚ) *
          ∑ i ∈ Finset.range n, (a.getD i 0 : ℚ) * (tget table i j k : ℚ) := by
    rw [hal, Finset.sum_comm]
    apply Finset.sum_congr rfl
    intro j _
    rw [Finset.mul_sum]
    apply Finset.sum_congr rfl
    intro i _
    ring
  rw [hswap]
  have hterm : ∀ j ∈ Finset.range n, (β.getD j 0 : ℚ) *
      ∑ i ∈ Finset.range n, (a.getD i 0 : ℚ) * (tget table i j k : ℚ)
      = (d : ℚ) * (mget binv 0 j * mget S j k) := by
    intro j hj
    rw [Finset.mem_range] at hj
    rw [hβval j hj, hS, mget_sumMat table a j k (by omega) (by omega), htl]
    ring
  rw [Finset.sum_congr rfl hterm, ← Finset.mul_sum]
  have hfin : ∑ j ∈ Finset.range n, mget binv 0 j * mget S j k
      = ∑ jF : Fin n, toMat n binv ⟨0, by omega⟩ jF * Mq jF ⟨k, hk1⟩ := by
    rw [← Fin.sum_univ_eq_sum_range (fun j => mget binv 0 j * mget S j k) n]
    rfl
  rw [hfin, ← Matrix.mul_apply, hBM, Matrix.one_apply]
  by_cases hk0 : k = 0
  · rw [if_pos (by rw [Fin.ext_iff]; exact hk0.symm), if_pos hk0]
    push_cast
    ring
  · rw [if_neg (fun hc => hk0 (Fin.ext_iff.mp hc).symm), if_neg hk0]
    push_cast
    ring

end RustNT

namespace RustNT

/-- Witness for claim C7: the split order `ℤ × ℤ` (table `e_i·e_j = δ_ij e_i`)
with `a = (1, 2)`, whose norm is `2`. -/
theorem multTable_inv_spec_witness :
    ([[[(1 : ℤ), 0], [0, 0]], [[0, 0], [0, 1]]].length = 2 ∧
      [(1 : ℤ), 2].length = 2 ∧
      normT [[[(1 : ℤ), 0], [0, 0]], [[0, 0], [0, 1]]] [1, 2] ≠ 0) ∧
    (∃ β d, invT [[[(1 : ℤ), 0], [0, 0]], [[0, 0], [0, 1]]] [1, 2] = some (β, d) ∧
      0 < d ∧
      (d : ℚ) = |(toMat 2 (sumMat [[[(1 : ℤ), 0], [0, 0]], [[0, 0], [0, 1]]] [1, 2])).det| ∧
      mulT [[[(1 : ℤ), 0], [0, 0]], [[0, 0], [0, 1]]] [1, 2] β
        = (List.range 2).map (fun k => if k = 0 then d else 0)) := by
  have hS0 : sumMat [[[(1 : ℤ), 0], [0, 0]], [[0, 0], [0, 1]]] [1, 2]
      = [[(1 : ℚ), 0], [0, 2]] := by
    norm_num [sumMat, tget, List.range_succ]
  have hn0 : normT [[[(1 : ℤ), 0], [0, 0]], [[0, 0], [0, 1]]] [1, 2] ≠ 0 := by
    unfold normT
    rw [hS0, detAlg_two_diag 1 2 one_ne_zero (by norm_num),
      show (1 : ℚ) * 2 = ((2 : ℤ) : ℚ) by norm_num, ratToInt_intCast]
    norm_num
  exact ⟨⟨rfl, rfl, hn0⟩,
    multTable_inv_spec 2 [[[(1 : ℤ), 0], [0, 0]], [[0, 0], [0, 1]]] [1, 2] rfl rfl hn0⟩

end RustNT

namespace RustNT

theorem rsLoop_succ (fu : ℕ) (f g : List ℤ) (a b s : ℤ) :
    rsLoop (fu + 1) f g a b s =
      if g = [] then some 0
      else
        if g.length - 1 = 0 then
          some (if (if (f.length - 1) % 2 = 1 ∧ (g.length - 1) % 2 = 1 then -s else s) = -1
            then -(((coeff g 0) ^ (f.length - 1)).tdiv (b ^ (f.length - 1 - 1)))
            else ((coeff g 0) ^ (f.length - 1)).tdiv (b ^ (f.length - 1 - 1)))
        else if f.length - 1 < g.length - 1 then
          rsLoop fu g f a b
            (if (f.length - 1) % 2 = 1 ∧ (g.length - 1) % 2 = 1 then -s else s)
        else
          rsLoop fu g
            ((pseudoDivRem f g).2.map
              (fun x => x.tdiv (a * b ^ (f.length - 1 - (g.length - 1)))))
            (coeff g (g.length - 1))
            (((coeff g (g.length - 1)) ^ (f.length - 1 - (g.length - 1)) * b).tdiv
              (b ^ (f.length - 1 - (g.length - 1))))
            (if (f.length - 1) % 2 = 1 ∧ (g.length - 1) % 2 = 1 then -s else s) := rfl

theorem rsLoop_mono : ∀ (fuel₁ fuel₂ : ℕ), fuel₁ ≤ fuel₂ →
    ∀ (f g : List ℤ) (a b s x : ℤ),
      rsLoop fuel₁ f g a b s = some x → rsLoop fuel₂ f g a b s = some x := by
  intro fuel₁
  induction fuel₁ with
  | zero =>
    intro fuel₂ _ f g a b s x h
    simp [rsLoop] at h
  | succ m ih =>
    intro fuel₂ hle f g a b s x h
    obtain ⟨m₂, rfl⟩ : ∃ m₂, fuel₂ = m₂ + 1 := ⟨fuel₂ - 1, by omega⟩
    rw [rsLoop_succ] at h
    rw [rsLoop_succ]
    by_cases hg : g = []
    · rw [if_pos hg] at h ⊢
      exact h
    · rw [if_neg hg] at h ⊢
      by_cases hg0 : g.length - 1 = 0
      · rw [if_pos hg0] at h ⊢
        exact h
      · rw [if_neg hg0] at h ⊢
        by_cases hfl : f.length - 1 < g.length - 1
        · rw [if_pos hfl] at h ⊢
          exact ih m₂ (by omega) _ _ _ _ _ _ h
        · rw [if_neg hfl] at h ⊢
          exact ih m₂ (by omega) _ _ _ _ _ _ h

theorem sign_ite (s r2 : ℤ) (hs : s = 1 ∨ s = -1) (c : Prop) [Decidable c] :
    (if (if c then -(-s) else -s) = -1 then -r2 else r2)
      = -(if (if c then -s else s) = -1 then -r2 else r2) := by
  rcases hs with rfl | rfl <;> by_cases hc : c <;> norm_num [hc]

theorem neg_ite_sign (c : Prop) [Decidable c] (s : ℤ) :
    (if c then -(-s) else -s) = -(if c then -s else s) := by
  by_cases hc : c <;> simp [hc]

theorem ite_sign_mem (c : Prop) [Decidable c] (s : ℤ) (hs : s = 1 ∨ s = -1) :
    (if c then -s else s) = 1 ∨ (if c then -s else s) = -1 := by
  rcases hs with rfl | rfl <;> by_cases hc : c <;> simp [hc]

theorem rsLoop_neg : ∀ (fuel : ℕ) (f g : List ℤ) (a b s : ℤ), (s = 1 ∨ s = -1) →
    rsLoop fuel f g a b (-s) = (rsLoop fuel f g a b s).map (fun z => -z) := by
  intro fuel
  induction fuel with
  | zero =>
    intro f g a b s _
    rfl
  | succ m ih =>
    intro f g a b s hs
    rw [rsLoop_succ, rsLoop_succ]
    by_cases hg : g = []
    · rw [if_pos hg, if_pos hg]
      simp
    · rw [if_neg hg, if_neg hg]
      by_cases hg0 : g.length - 1 = 0
      · rw [if_pos hg0, if_pos hg0, Option.map_some']
        exact congrArg some (sign_ite s _ hs _)
      · rw [if_neg hg0, if_neg hg0]
        by_cases hfl : f.length - 1 < g.length - 1
        · rw [if_pos hfl, if_pos hfl, neg_ite_sign]
          exact ih g f a b _ (ite_sign_mem _ s hs)
        · rw [if_neg hfl, if_neg hfl, neg_ite_sign]
          exact ih _ _ _ _ _ (ite_sign_mem _ s hs)

/-- `resultant_smart(f, g) = (-1)^(deg f · deg g) · resultant_smart(g, f)` for
inputs of distinct degrees: a swap iteration flips `s` when both degrees are
odd, re-enters the loop, and the same parity test flips `s` again, so the run
on `(f, g)` is exactly the run on `(g, f)` with one extra conditional flip. -/
theorem resultantSmart_swap_unequal (f g : List ℤ) (x : ℤ) (hf : f ≠ [])
    (hlen : f.length < g.length) (hx : resultantSmart f g = some x) :
    resultantSmart g f
      = some (if ((f.length - 1) * (g.length - 1)) % 2 = 1 then -x else x) := by
  have hg : g ≠ [] := by
    intro hc
    rw [hc] at hlen
    simp at hlen
  have hf0 : 0 < f.length := List.length_pos.mpr hf
  unfold resultantSmart at hx ⊢
  rw [if_neg hf] at hx
  rw [if_neg hg]
  have hfuel : 2 * (f.length + g.length) + 6 = (2 * (f.length + g.length) + 5) + 1 := by
    omega
  rw [hfuel, rsLoop_succ, if_neg hg, if_neg (show ¬ (g.length - 1 = 0) by omega),
    if_pos (show f.length - 1 < g.length - 1 by omega)] at hx
  by_cases hcond : (f.length - 1) % 2 = 1 ∧ (g.length - 1) % 2 = 1
  · rw [if_pos hcond] at hx
    have hneg := rsLoop_neg (2 * (f.length + g.length) + 5) g f 1 1 1 (Or.inl rfl)
    rw [hneg] at hx
    cases hr : rsLoop (2 * (f.length + g.length) + 5) g f 1 1 1 with
    | none =>
      rw [hr] at hx
      simp at hx
    | some y =>
      rw [hr, Option.map_some'] at hx
      injection hx with hx2
      have hy : y = -x := by omega
      have hfin := rsLoop_mono (2 * (f.length + g.length) + 5)
        (2 * (g.length + f.length) + 6) (by omega) g f 1 1 1 y hr
      rw [hfin, hy]
      have hprod : ((f.length - 1) * (g.length - 1)) % 2 = 1 := by
        rw [Nat.mul_mod, hcond.1, hcond.2]
      rw [if_pos hprod]
  · rw [if_neg hcond] at hx
    have hfin := rsLoop_mono (2 * (f.length + g.length) + 5)
      (2 * (g.length + f.length) + 6) (by omega) g f 1 1 1 x hx
    rw [hfin]
    have hprod : ¬ ((f.length - 1) * (g.length - 1)) % 2 = 1 := by
      rw [Nat.mul_mod]
      rcases Nat.mod_two_eq_zero_or_one (f.length - 1) with h1 | h1 <;>
        rcases Nat.mod_two_eq_zero_or_one (g.length - 1) with h2 | h2
      · rw [h1, h2]
        norm_num
      · rw [h1, h2]
        norm_num
      · rw [h1, h2]
        norm_num
      · exact absurd ⟨h1, h2⟩ hcond
    rw [if_neg hprod]

/-- The model reproduces the four repo unit tests of `resultant.rs`. -/
theorem resultantSmart_matches_repo_tests :
    resultantSmart [5, 0, 2, 0, 6, 9] [6, 6, 6, 1, 7] = some 335159672 ∧
    resultantSmart [2, 5, 2] [2, 0, 1] = some 54 ∧
    resultantSmart [2, 0, 1, 0, 1] [1, 0, 1] = some 4 ∧
    resultantSmart [2, 0, 0, 1, 0, 0, 1] [1, 0, 0, 1] = some 8 := by
  refine ⟨by decide, by decide, by decide, by decide⟩

end RustNT

namespace RustNT

/-- Claim C1 amended: `find_integral_basis` applied to a root of `x² - 41`
returns an order of discriminant `41` (not `164`: `164 = 2²·41` is the
discriminant of the initial order `Z[θ]`, and the round-2 step enlarges it to
`Z[(1+θ)/2]`, dividing the discriminant by `2² = 4`); applied to a root of
`θ² - 2θ + 37` it returns an order of discriminant `-4`, as claimed. -/
theorem find_integral_basis_disc_values :
    fibDisc [-41, 0, 1] = some 41 ∧ fibDisc [37, -2, 1] = some (-4) := by
  constructor
  · with_unfolding_all decide
  · with_unfolding_all decide

/-- Counterexample to claim C1 as stated: on `x² - 41` the returned order has
discriminant `41`, not `164`. -/
theorem find_integral_basis_disc_claim_counterexample :
    fibDisc [-41, 0, 1] = some 41 ∧ (41 : ℤ) ≠ 164 := by
  constructor
  · with_unfolding_all decide
  · decide

/-- The pipeline embedding reproduces two repo unit tests of
`find_integral_basis` (`works_1` and `works_seq3`). -/
theorem find_integral_basis_matches_repo_tests :
    fibDisc [37, 2, 1] = some (-4) ∧ fibDisc [4, 3, 2, 1] = some (-200) := by
  constructor
  · with_unfolding_all decide
  · with_unfolding_all decide

end RustNT

namespace RustNT

theorem zrows_getD_mem (a : List (List ℤ)) (j : ℕ) (hj : j < a.length) : a.getD j [] ∈ a := by
  rw [List.getD_eq_getElem _ _ hj]
  exact List.getElem_mem hj

theorem zrows_getD_set (a : List (List ℤ)) (i r : ℕ) (x : List ℤ) (hi : i < a.length) :
    (a.set i x).getD r [] = if r = i then x else a.getD r [] := by
  by_cases h : r = i
  · subst h
    rw [if_pos rfl, List.getD_eq_getElem _ _ (by simpa using hi)]
    simp
  · rw [if_neg h]
    by_cases hr : r < a.length
    · rw [List.getD_eq_getElem _ _ (by simpa using hr),
        List.getD_eq_getElem _ _ hr]
      rw [List.getElem_set_ne (by omega)]
    · rw [List.getD_eq_default _ _ (by simpa using not_lt.mp hr),
        List.getD_eq_default _ _ (not_lt.mp hr)]

theorem zswap_length (a : List (List ℤ)) (i j : ℕ) : (zswap a i j).length = a.length := by
  simp [zswap]

theorem zswap_getD (a : List (List ℤ)) (i j r : ℕ) (hi : i < a.length) (hj : j < a.length) :
    (zswap a i j).getD r [] =
      if r = j then a.getD i [] else if r = i then a.getD j [] else a.getD r [] := by
  unfold zswap
  rw [zrows_getD_set _ j r _ (by simpa using hj)]
  by_cases h : r = j
  · simp [h]
  · rw [zrows_getD_set _ i r _ hi, if_neg h]

end RustNT

namespace RustNT

theorem rowSubMul_length (rj rk : List ℤ) (q : ℤ) : (rowSubMul rj rk q).length = rj.length := by
  simp [rowSubMul]

theorem rowSubMul_getD (rj rk : List ℤ) (q : ℤ) (v : ℕ) (hv : v < rj.length) :
    (rowSubMul rj rk q).getD v 0 = rj.getD v 0 - rk.getD v 0 * q := by
  unfold rowSubMul
  rw [getD_map_range 0 _ rj.length v hv]

theorem linStep34_length (c : List (List ℤ)) (i k : ℕ) :
    (linStep34 c i k).length = c.length := by
  simp [linStep34, zswap]

theorem linStep34_getD (c : List (List ℤ)) (i k j : ℕ) (hj : j < c.length) :
    (linStep34 c i k).getD j [] =
      (if j < k then
        rowSubMul ((zswap c (linChoose c i k) k).getD j [])
          ((zswap c (linChoose c i k) k).getD k [])
          (floorDivU (zget (zswap c (linChoose c i k) k) j i)
            (zget (zswap c (linChoose c i k) k) k i))
      else (zswap c (linChoose c i k) k).getD j []) := by
  unfold linStep34
  rw [getD_map_range [] _ (zswap c (linChoose c i k) k).length j (by rw [zswap_length]; exact hj)]

theorem linStep5_length (c : List (List ℤ)) (i k n : ℕ) :
    (linStep5 c i k n).length = c.length := by
  simp [linStep5]

theorem linStep5_getD (c : List (List ℤ)) (i k n j : ℕ) (hj : j < c.length) :
    (linStep5 c i k n).getD j [] =
      (if k + 1 ≤ j ∧ j < n then
        rowSubMul (c.getD j []) (c.getD k []) (floorDivU (zget c j i) (zget c k i))
      else c.getD j []) := by
  unfold linStep5
  rw [getD_map_range [] _ c.length j hj]

theorem negRow_getD (c : List (List ℤ)) (k r : ℕ) (hk : k < c.length) :
    (c.set k ((c.getD k []).map (fun x => x * (-1)))).getD r [] =
      if r = k then (c.getD k []).map (fun x => x * (-1)) else c.getD r [] :=
  zrows_getD_set c k r _ hk

theorem map_neg_getD (r : List ℤ) (v : ℕ) :
    (r.map (fun x => x * (-1))).getD v 0 = -(r.getD v 0) := by
  by_cases hv : v < r.length
  · rw [List.getD_eq_getElem _ _ (by simpa using hv), List.getD_eq_getElem _ _ hv]
    simp
  · rw [List.getD_eq_default _ _ (by simpa using not_lt.mp hv),
      List.getD_eq_default _ _ (not_lt.mp hv)]
    simp

theorem pairMin_cases (x y : ℤ × ℕ) : pairMin x y = x ∨ pairMin x y = y := by
  unfold pairMin
  by_cases h : x.1 < y.1 ∨ (x.1 = y.1 ∧ x.2 ≤ y.2)
  · rw [if_pos h]; exact Or.inl rfl
  · rw [if_neg h]; exact Or.inr rfl

theorem linChoose_le (c : List (List ℤ)) (i k : ℕ) : linChoose c i k ≤ k := by
  unfold linChoose
  cases hf : (List.range k).find? (fun j => zget c j i ≠ 0) with
  | none => exact le_refl k
  | some ind =>
    have hind : ind < k := by
      have := List.find?_some hf
      have hmem := List.mem_of_find?_eq_some hf
      simpa using hmem
    simp only
    -- invariant: the fold keeps the second component ≤ k
    have key : ∀ (l : List ℕ) (st : ℤ × ℕ), st.2 ≤ k → (∀ x ∈ l, x ≤ k) →
        (l.foldl (fun mi j => if zget c j i ≠ 0 then pairMin mi (|zget c j i|, j) else mi) st).2 ≤ k := by
      intro l
      induction l with
      | nil => intro st h _; exact h
      | cons x xs ih =>
        intro st h hl
        simp only [List.foldl_cons]
        apply ih
        · by_cases hx : zget c x i ≠ 0
          · rw [if_pos hx]
            rcases pairMin_cases st (|zget c x i|, x) with hmin | hmin
            · rw [hmin]; exact h
            · rw [hmin]; exact hl x (List.mem_cons_self _ _)
          · rw [if_neg hx]; exact h
        · intro y hy; exact hl y (List.mem_cons_of_mem _ hy)
    apply key
    · exact le_of_lt hind
    · intro x hx
      have := List.mem_range'.mp hx
      omega

end RustNT

namespace RustNT

/-- For positive divisors, `floorDivU` is Euclidean (floor) division. -/
theorem floorDivU_eq_ediv (a b : ℤ) (hb : 0 < b) : floorDivU a b = a / b := by
  unfold floorDivU
  rw [if_neg (by omega : ¬ b < 0)]
  simp only
  by_cases ha : 0 ≤ a
  · rw [Int.tdiv_eq_ediv ha (le_of_lt hb)]
    rw [if_neg]
    rw [not_lt]
    calc a / b * b ≤ a / b * b + a % b := by have := Int.emod_nonneg a (by omega : b ≠ 0); omega
    _ = a := by rw [Int.ediv_add_emod' a b]
  · -- a < 0
    have ha' : a < 0 := by omega
    set d := a / b with hd
    set r := a % b with hr
    have hr0 : 0 ≤ r := Int.emod_nonneg a (by omega : b ≠ 0)
    have hrb : r < b := Int.emod_lt_of_pos a hb
    have hdr : a = d * b + r := by rw [hd, hr]; rw [Int.ediv_add_emod' a b]
    have htd : a.tdiv b = -((-a).tdiv b) := by
      rw [Int.neg_tdiv]
      omega
    have hna : (0:ℤ) ≤ -a := by omega
    rw [Int.tdiv_eq_ediv hna (le_of_lt hb)] at htd
    clear_value d r
    by_cases hr0' : r = 0
    · -- exact division
      have hdvd : b ∣ a := ⟨d, by rw [mul_comm]; omega⟩
      have hneg : (-a) / b = -d := by
        rw [Int.neg_ediv_of_dvd hdvd, hd]
      rw [htd, hneg]
      have hsimp : - -d = d := by ring
      rw [hsimp]
      rw [if_neg (by omega : ¬ a < d * b)]
    · -- r > 0
      have hneg : (-a) / b = -d - 1 := by
        have huniq := Int.ediv_emod_unique (a := -a) (b := b) (r := b - r) (q := -d - 1) hb
        have h5 : b * (-d - 1) = -(d * b) - b := by ring
        have harith : (b - r) + b * (-d - 1) = -a := by omega
        exact (huniq.mpr ⟨harith, by omega, by omega⟩).1
      rw [htd, hneg]
      have hsimp : -(-d - 1) = d + 1 := by ring
      rw [hsimp]
      have hmul : (d + 1) * b = d * b + b := by ring
      rw [if_pos (by omega : a < (d + 1) * b)]
      omega

theorem floorDivU_bounds (a b : ℤ) (hb : 0 < b) :
    0 ≤ a - floorDivU a b * b ∧ a - floorDivU a b * b < b := by
  rw [floorDivU_eq_ediv a b hb]
  have h1 := Int.emod_nonneg a (by omega : b ≠ 0)
  have h2 := Int.emod_lt_of_pos a hb
  have h3 : a % b = a - b * (a / b) := Int.emod_def a b
  have h4 : a / b * b = b * (a / b) := mul_comm _ _
  constructor <;> omega

end RustNT

namespace RustNT

-- ===== rowVecA computation lemmas =====

theorem rowVecA_rowSubMul (m : ℕ) (rj rk : List ℤ) (q : ℤ) (hm : m ≤ rj.length) :
    rowVecA m (rowSubMul rj rk q) = rowVecA m rj - q • rowVecA m rk := by
  funext j
  show (rowSubMul rj rk q).getD j 0 = rj.getD j 0 - q * rk.getD j 0
  rw [rowSubMul_getD rj rk q j (by omega : (j : ℕ) < rj.length)]
  ring

theorem rowVecA_map_neg (m : ℕ) (r : List ℤ) :
    rowVecA m (r.map (fun x => x * (-1))) = -(rowVecA m r) := by
  funext j
  show (r.map (fun x => x * (-1))).getD j 0 = -(r.getD j 0)
  exact map_neg_getD r j

theorem getD_take_of_lt (r : List ℤ) (m v : ℕ) (hv : v < m) :
    (r.take m).getD v 0 = r.getD v 0 := by
  by_cases h : v < r.length
  · rw [List.getD_eq_getElem _ _ (by simp; omega), List.getD_eq_getElem _ _ h]
    rw [List.getElem_take]
  · rw [List.getD_eq_default _ _ (by simp; omega), List.getD_eq_default _ _ (by omega)]

theorem rowVecA_take (m : ℕ) (r : List ℤ) : rowVecA m (r.take m) = rowVecA m r := by
  funext j
  exact getD_take_of_lt r m j j.isLt

theorem rowVecA_append (m : ℕ) (r s : List ℤ) (h : r.length = m) :
    rowVecA m (r ++ s) = rowVecA m r := by
  funext j
  show (r ++ s).getD j 0 = r.getD j 0
  have hj : (j : ℕ) < r.length := by rw [h]; exact j.isLt
  rw [List.getD_eq_getElem _ _ (by simp; omega), List.getD_eq_getElem _ _ hj]
  exact List.getElem_append_left hj

theorem rowVecA_zero (m : ℕ) (r : List ℤ) (h : ∀ v, v < m → r.getD v 0 = 0) :
    rowVecA m r = 0 := by
  funext j
  exact h j j.isLt

-- ===== spanA framework =====

theorem mem_spanA_of_mem (m : ℕ) (c : List (List ℤ)) (r : List ℤ) (hr : r ∈ c) :
    rowVecA m r ∈ spanA m c :=
  Submodule.subset_span ⟨r, hr, rfl⟩

theorem spanA_le (m : ℕ) (c c' : List (List ℤ))
    (h : ∀ r ∈ c', rowVecA m r ∈ spanA m c) : spanA m c' ≤ spanA m c := by
  apply Submodule.span_le.mpr
  rintro v ⟨r, hr, rfl⟩
  exact h r hr

theorem mem_zswap_iff (c : List (List ℤ)) (i j : ℕ) (hi : i < c.length) (hj : j < c.length)
    (r : List ℤ) : r ∈ zswap c i j ↔ r ∈ c := by
  constructor
  · intro h
    rcases List.mem_or_eq_of_mem_set h with h1 | h1
    · rcases List.mem_or_eq_of_mem_set h1 with h2 | h2
      · exact h2
      · subst h2; exact zrows_getD_mem c j hj
    · subst h1; exact zrows_getD_mem c i hi
  · intro h
    obtain ⟨p, hp, hpr⟩ := List.mem_iff_getElem.mp h
    have hlen : (zswap c i j).length = c.length := zswap_length c i j
    have key : ∀ p2, p2 < c.length → (zswap c i j).getD p2 [] = c.getD p [] →
        r ∈ zswap c i j := by
      intro p2 hp2 heq
      rw [List.getD_eq_getElem _ _ (by rw [zswap_length]; omega)] at heq
      rw [List.getD_eq_getElem _ _ hp] at heq
      rw [← hpr, ← heq]
      exact List.getElem_mem _
    by_cases h1 : p = i
    · apply key j hj
      rw [zswap_getD c i j j hi hj, if_pos rfl, h1]
    · by_cases h2 : p = j
      · apply key i hi
        rw [zswap_getD c i j i hi hj]
        by_cases hij : i = j
        · rw [if_pos hij, hij, ← h2]
        · rw [if_neg hij, if_pos rfl, h2]
      · apply key p hp
        rw [zswap_getD c i j p hi hj, if_neg h2, if_neg h1]

theorem spanA_zswap (m : ℕ) (c : List (List ℤ)) (i j : ℕ)
    (hi : i < c.length) (hj : j < c.length) : spanA m (zswap c i j) = spanA m c := by
  apply le_antisymm
  · exact spanA_le m c _ (fun r hr => mem_spanA_of_mem m c r ((mem_zswap_iff c i j hi hj r).mp hr))
  · exact spanA_le m _ c (fun r hr => mem_spanA_of_mem m _ r ((mem_zswap_iff c i j hi hj r).mpr hr))

end RustNT

namespace RustNT

theorem spanA_negRow (m : ℕ) (c : List (List ℤ)) (k : ℕ) (hk : k < c.length) :
    spanA m (c.set k ((c.getD k []).map (fun x => x * (-1)))) = spanA m c := by
  apply le_antisymm
  · apply spanA_le
    intro r hr
    rcases List.mem_or_eq_of_mem_set hr with h1 | h1
    · exact mem_spanA_of_mem m c r h1
    · subst h1
      rw [rowVecA_map_neg]
      exact neg_mem (mem_spanA_of_mem m c _ (zrows_getD_mem c k hk))
  · apply spanA_le
    intro r hr
    obtain ⟨p, hp, hpr⟩ := List.mem_iff_getElem.mp hr
    by_cases h1 : p = k
    · -- r is the old row k; its negation is a row of the new matrix
      have hmem : (c.getD k []).map (fun x => x * (-1)) ∈ c.set k ((c.getD k []).map (fun x => x * (-1))) := by
        have hm2 := zrows_getD_mem (c.set k ((c.getD k []).map (fun x => x * (-1)))) k
          (by simpa using hk)
        rw [zrows_getD_set c k k _ hk, if_pos rfl] at hm2
        exact hm2
      have hre : r = c.getD k [] := by
        subst h1
        rw [List.getD_eq_getElem _ _ hk]
        exact hpr.symm
      have : rowVecA m r = -(rowVecA m ((c.getD k []).map (fun x => x * (-1)))) := by
        rw [rowVecA_map_neg, hre, neg_neg]
      rw [this]
      exact neg_mem (mem_spanA_of_mem m _ _ hmem)
    · have : (c.set k ((c.getD k []).map (fun x => x * (-1)))).getD p [] = r := by
        rw [zrows_getD_set c k p _ hk, if_neg h1, List.getD_eq_getElem _ _ hp, hpr]
      rw [← this]
      exact mem_spanA_of_mem m _ _ (zrows_getD_mem _ p (by simpa using hp))

theorem spanA_linStep34 (m : ℕ) (c : List (List ℤ)) (i k : ℕ) (hk : k < c.length)
    (hlen : ∀ r ∈ c, m ≤ r.length) :
    spanA m (linStep34 c i k) = spanA m c := by
  set j0 := linChoose c i k with hj0
  have hj0k : j0 ≤ k := linChoose_le c i k
  set c1 := zswap c j0 k with hc1
  have hc1len : c1.length = c.length := zswap_length c j0 k
  have hc1mem : ∀ r, r ∈ c1 ↔ r ∈ c := mem_zswap_iff c j0 k (by omega) hk
  have hc1span : spanA m c1 = spanA m c := spanA_zswap m c j0 k (by omega) hk
  have hc1rl : ∀ r ∈ c1, m ≤ r.length := fun r hr => hlen r ((hc1mem r).mp hr)
  rw [← hc1span]
  apply le_antisymm
  · apply spanA_le
    intro r hr
    obtain ⟨p, hp, hpr⟩ := List.mem_iff_getElem.mp hr
    have hplen : p < c.length := by
      have := linStep34_length c i k; omega
    have hrow : (linStep34 c i k).getD p [] = r := by
      rw [List.getD_eq_getElem _ _ (by rw [linStep34_length]; exact hplen), hpr]
    rw [linStep34_getD c i k p hplen] at hrow
    rw [← hc1] at hrow
    by_cases hpk : p < k
    · rw [if_pos hpk] at hrow
      rw [← hrow, rowVecA_rowSubMul m _ _ _ (hc1rl _ (zrows_getD_mem c1 p (by omega)))]
      exact sub_mem (mem_spanA_of_mem m c1 _ (zrows_getD_mem c1 p (by omega)))
        (Submodule.smul_mem _ _ (mem_spanA_of_mem m c1 _ (zrows_getD_mem c1 k (by omega))))
    · rw [if_neg hpk] at hrow
      rw [← hrow]
      exact mem_spanA_of_mem m c1 _ (zrows_getD_mem c1 p (by omega))
  · apply spanA_le
    intro r hr
    obtain ⟨p, hp, hpr⟩ := List.mem_iff_getElem.mp hr
    have hplen : p < c.length := by omega
    have hrow : c1.getD p [] = r := by
      rw [List.getD_eq_getElem _ _ hp, hpr]
    have hres : ∀ p2, p2 < c.length → (linStep34 c i k).getD p2 [] ∈ linStep34 c i k := by
      intro p2 hp2
      exact zrows_getD_mem _ p2 (by rw [linStep34_length]; exact hp2)
    by_cases hpk : p < k
    · -- old row p = new row p + q • new row k
      have h1 : (linStep34 c i k).getD p [] =
          rowSubMul (c1.getD p []) (c1.getD k [])
            (floorDivU (zget c1 p i) (zget c1 k i)) := by
        rw [linStep34_getD c i k p hplen, if_pos hpk, ← hc1]
      have h2 : (linStep34 c i k).getD k [] = c1.getD k [] := by
        rw [linStep34_getD c i k k hk, if_neg (by omega), ← hc1]
      have h3 : rowVecA m ((linStep34 c i k).getD p []) =
          rowVecA m r - (floorDivU (zget c1 p i) (zget c1 k i)) • rowVecA m (c1.getD k []) := by
        rw [h1, rowVecA_rowSubMul m _ _ _ (hc1rl _ (zrows_getD_mem c1 p (by omega))), hrow]
      have : rowVecA m r = rowVecA m ((linStep34 c i k).getD p [])
          + (floorDivU (zget c1 p i) (zget c1 k i)) • rowVecA m ((linStep34 c i k).getD k []) := by
        rw [h3, h2]; abel
      rw [this]
      exact add_mem (mem_spanA_of_mem m _ _ (hres p hplen))
        (Submodule.smul_mem _ _ (mem_spanA_of_mem m _ _ (hres k hk)))
    · have h1 : (linStep34 c i k).getD p [] = r := by
        rw [linStep34_getD c i k p hplen, if_neg hpk, ← hc1, hrow]
      rw [← h1]
      exact mem_spanA_of_mem m _ _ (hres p hplen)

theorem spanA_linStep5 (m : ℕ) (c : List (List ℤ)) (i k n : ℕ) (hk : k < c.length)
    (hlen : ∀ r ∈ c, m ≤ r.length) :
    spanA m (linStep5 c i k n) = spanA m c := by
  apply le_antisymm
  · apply spanA_le
    intro r hr
    obtain ⟨p, hp, hpr⟩ := List.mem_iff_getElem.mp hr
    have hplen : p < c.length := by
      have := linStep5_length c i k n; omega
    have hrow : (linStep5 c i k n).getD p [] = r := by
      rw [List.getD_eq_getElem _ _ (by rw [linStep5_length]; exact hplen), hpr]
    rw [linStep5_getD c i k n p hplen] at hrow
    by_cases hpk : k + 1 ≤ p ∧ p < n
    · rw [if_pos hpk] at hrow
      rw [← hrow, rowVecA_rowSubMul m _ _ _ (hlen _ (zrows_getD_mem c p hplen))]
      exact sub_mem (mem_spanA_of_mem m c _ (zrows_getD_mem c p hplen))
        (Submodule.smul_mem _ _ (mem_spanA_of_mem m c _ (zrows_getD_mem c k hk)))
    · rw [if_neg hpk] at hrow
      rw [← hrow]
      exact mem_spanA_of_mem m c _ (zrows_getD_mem c p hplen)
  · apply spanA_le
    intro r hr
    obtain ⟨p, hp, hpr⟩ := List.mem_iff_getElem.mp hr
    have hrow : c.getD p [] = r := by
      rw [List.getD_eq_getElem _ _ hp, hpr]
    have hres : ∀ p2, p2 < c.length → (linStep5 c i k n).getD p2 [] ∈ linStep5 c i k n := by
      intro p2 hp2
      exact zrows_getD_mem _ p2 (by rw [linStep5_length]; exact hp2)
    by_cases hpk : k + 1 ≤ p ∧ p < n
    · have h1 : (linStep5 c i k n).getD p [] =
          rowSubMul (c.getD p []) (c.getD k []) (floorDivU (zget c p i) (zget c k i)) := by
        rw [linStep5_getD c i k n p hp, if_pos hpk]
      have h2 : (linStep5 c i k n).getD k [] = c.getD k [] := by
        rw [linStep5_getD c i k n k hk, if_neg (by omega)]
      have h3 : rowVecA m r = rowVecA m ((linStep5 c i k n).getD p [])
          + (floorDivU (zget c p i) (zget c k i)) • rowVecA m ((linStep5 c i k n).getD k []) := by
        rw [h1, h2, rowVecA_rowSubMul m _ _ _ (hlen _ (zrows_getD_mem c p hp)), hrow]
        abel
      rw [h3]
      exact add_mem (mem_spanA_of_mem m _ _ (hres p hp))
        (Submodule.smul_mem _ _ (mem_spanA_of_mem m _ _ (hres k hk)))
    · have h1 : (linStep5 c i k n).getD p [] = r := by
        rw [linStep5_getD c i k n p hp, if_neg hpk, hrow]
      rw [← h1]
      exact mem_spanA_of_mem m _ _ (hres p hp)

end RustNT

namespace RustNT

theorem zget_zswap (c : List (List ℤ)) (i j r col : ℕ)
    (hi : i < c.length) (hj : j < c.length) :
    zget (zswap c i j) r col =
      if r = j then zget c i col else if r = i then zget c j col else zget c r col := by
  unfold zget
  rw [zswap_getD c i j r hi hj]
  split_ifs <;> rfl

theorem zget_negRow (c : List (List ℤ)) (k r col : ℕ) (hk : k < c.length) :
    zget (c.set k ((c.getD k []).map (fun x => x * (-1)))) r col =
      if r = k then -(zget c k col) else zget c r col := by
  unfold zget
  rw [negRow_getD c k r hk]
  split_ifs with h
  · exact map_neg_getD _ col
  · rfl

theorem CWF_zswap (n L : ℕ) (c : List (List ℤ)) (i j : ℕ) (hwf : CWF n L c)
    (hi : i < c.length) (hj : j < c.length) : CWF n L (zswap c i j) := by
  obtain ⟨h1, h2⟩ := hwf
  exact ⟨by rw [zswap_length]; exact h1,
    fun r hr => h2 r ((mem_zswap_iff c i j hi hj r).mp hr)⟩

theorem CWF_negRow (n L : ℕ) (c : List (List ℤ)) (k : ℕ) (hwf : CWF n L c)
    (hk : k < c.length) :
    CWF n L (c.set k ((c.getD k []).map (fun x => x * (-1)))) := by
  obtain ⟨h1, h2⟩ := hwf
  refine ⟨by simpa using h1, fun r hr => ?_⟩
  rcases List.mem_or_eq_of_mem_set hr with h | h
  · exact h2 r h
  · subst h
    rw [List.length_map]
    exact h2 _ (zrows_getD_mem c k hk)

theorem CWF_linStep34 (n L : ℕ) (c : List (List ℤ)) (i k : ℕ) (hwf : CWF n L c)
    (hk : k < c.length) : CWF n L (linStep34 c i k) := by
  have hj0 : linChoose c i k ≤ k := linChoose_le c i k
  have hswf : CWF n L (zswap c (linChoose c i k) k) :=
    CWF_zswap n L c _ k hwf (by omega) hk
  obtain ⟨h1, h2⟩ := hswf
  constructor
  · rw [linStep34_length]; exact hwf.1
  · intro r hr
    obtain ⟨p, hp, hpr⟩ := List.mem_iff_getElem.mp hr
    rw [linStep34_length] at hp
    have hrow : (linStep34 c i k).getD p [] = r := by
      rw [List.getD_eq_getElem _ _ (by rw [linStep34_length]; exact hp), hpr]
    rw [linStep34_getD c i k p hp] at hrow
    have hsl : (zswap c (linChoose c i k) k).length = c.length := zswap_length _ _ _
    by_cases hpk : p < k
    · rw [if_pos hpk] at hrow
      rw [← hrow, rowSubMul_length]
      exact h2 _ (zrows_getD_mem _ p (by omega))
    · rw [if_neg hpk] at hrow
      rw [← hrow]
      exact h2 _ (zrows_getD_mem _ p (by omega))

theorem CWF_linStep5 (n L : ℕ) (c : List (List ℤ)) (i k nn : ℕ) (hwf : CWF n L c)
    (hk : k < c.length) : CWF n L (linStep5 c i k nn) := by
  obtain ⟨h1, h2⟩ := hwf
  constructor
  · rw [linStep5_length]; exact h1
  · intro r hr
    obtain ⟨p, hp, hpr⟩ := List.mem_iff_getElem.mp hr
    rw [linStep5_length] at hp
    have hrow : (linStep5 c i k nn).getD p [] = r := by
      rw [List.getD_eq_getElem _ _ (by rw [linStep5_length]; exact hp), hpr]
    rw [linStep5_getD c i k nn p hp] at hrow
    by_cases hpk : k + 1 ≤ p ∧ p < nn
    · rw [if_pos hpk] at hrow
      rw [← hrow, rowSubMul_length]
      exact h2 _ (zrows_getD_mem _ p hp)
    · rw [if_neg hpk] at hrow
      rw [← hrow]
      exact h2 _ (zrows_getD_mem _ p hp)

theorem zget_linStep34 (n L : ℕ) (c : List (List ℤ)) (i k j col : ℕ) (hwf : CWF n L c)
    (hj : j < n) (hcol : col < L) (hk : k < n) :
    zget (linStep34 c i k) j col =
      if j < k then
        zget (zswap c (linChoose c i k) k) j col
          - zget (zswap c (linChoose c i k) k) k col
            * floorDivU (zget (zswap c (linChoose c i k) k) j i)
              (zget (zswap c (linChoose c i k) k) k i)
      else zget (zswap c (linChoose c i k) k) j col := by
  have hlen : c.length = n := hwf.1
  have hj0 : linChoose c i k ≤ k := linChoose_le c i k
  have hswf : CWF n L (zswap c (linChoose c i k) k) :=
    CWF_zswap n L c _ k hwf (by omega) (by omega)
  have hsl : (zswap c (linChoose c i k) k).length = c.length := zswap_length _ _ _
  show ((linStep34 c i k).getD j []).getD col 0 = _
  rw [linStep34_getD c i k j (by omega)]
  split_ifs with h
  · rw [rowSubMul_getD _ _ _ col
      (by rw [hswf.2 _ (zrows_getD_mem _ j (by omega))]; exact hcol)]
    rfl
  · rfl

theorem zget_linStep5 (n L : ℕ) (c : List (List ℤ)) (i k nn j col : ℕ) (hwf : CWF n L c)
    (hj : j < n) (hcol : col < L) :
    zget (linStep5 c i k nn) j col =
      if k + 1 ≤ j ∧ j < nn then
        zget c j col - zget c k col * floorDivU (zget c j i) (zget c k i)
      else zget c j col := by
  have hlen : c.length = n := hwf.1
  show ((linStep5 c i k nn).getD j []).getD col 0 = _
  rw [linStep5_getD c i k nn j (by omega)]
  split_ifs with h
  · rw [rowSubMul_getD _ _ _ col
      (by rw [hwf.2 _ (zrows_getD_mem _ j (by omega))]; exact hcol)]
    rfl
  · rfl

end RustNT

namespace RustNT

theorem linInner_succ (fuel : ℕ) (c : List (List ℤ)) (i k : ℕ) :
    linInner (fuel + 1) c i k =
      if (List.range k).all (fun j => zget c j i = 0) then
        if zget c k i < 0 then
          some (c.set k ((c.getD k []).map (fun x => x * (-1))))
        else some c
      else linInner fuel (linStep34 c i k) i k := rfl

theorem allzero_iff (c : List (List ℤ)) (i k : ℕ) :
    ((List.range k).all (fun j => decide (zget c j i = 0)) = true) ↔
      ∀ j, j < k → zget c j i = 0 := by
  simp

theorem linStep34_getD_gt (c : List (List ℤ)) (i k r : ℕ) (hr : k < r) :
    (linStep34 c i k).getD r [] = c.getD r [] := by
  have hj0 : linChoose c i k ≤ k := linChoose_le c i k
  by_cases hrn : r < c.length
  · rw [linStep34_getD c i k r hrn, if_neg (by omega)]
    rw [zswap_getD c _ k r (by omega) (by omega), if_neg (by omega), if_neg (by omega)]
  · rw [List.getD_eq_default _ _ (by rw [linStep34_length]; omega),
      List.getD_eq_default _ _ (by omega)]

theorem linInner_spec (n L mA i k : ℕ) (hm : mA ≤ L) (hk : k < n) (hi : i < L) :
    ∀ fuel (c c1 : List (List ℤ)), linInner fuel c i k = some c1 → CWF n L c →
      CWF n L c1 ∧
      spanA mA c1 = spanA mA c ∧
      (∀ j, j < k → zget c1 j i = 0) ∧
      0 ≤ zget c1 k i ∧
      (∀ r, k < r → c1.getD r [] = c.getD r []) ∧
      (∀ col, col < L → (∀ j, j ≤ k → zget c j col = 0) → ∀ j, j ≤ k → zget c1 j col = 0) := by
  intro fuel
  induction fuel with
  | zero =>
    intro c c1 h
    exact absurd h (by simp [linInner])
  | succ fu ih =>
    intro c c1 h hwf
    rw [linInner_succ] at h
    have hkc : k < c.length := by rw [hwf.1]; exact hk
    by_cases haz : ((List.range k).all (fun j => decide (zget c j i = 0)) = true)
    · rw [if_pos haz] at h
      have hz : ∀ j, j < k → zget c j i = 0 := (allzero_iff c i k).mp haz
      by_cases hneg : zget c k i < 0
      · rw [if_pos hneg, Option.some_inj] at h
        subst h
        refine ⟨CWF_negRow n L c k hwf hkc, spanA_negRow mA c k hkc, ?_, ?_, ?_, ?_⟩
        · intro j hj
          rw [zget_negRow c k j i hkc, if_neg (by omega)]
          exact hz j hj
        · rw [zget_negRow c k k i hkc, if_pos rfl]
          omega
        · intro r hr
          rw [negRow_getD c k r hkc, if_neg (by omega)]
        · intro col hcL hcol j hj
          rw [zget_negRow c k j col hkc]
          split_ifs with h2
          · rw [hcol k (le_refl k)]; ring
          · exact hcol j hj
      · rw [if_neg hneg, Option.some_inj] at h
        subst h
        exact ⟨hwf, rfl, hz, by omega, fun r hr => rfl, fun col hcL hcol => hcol⟩
    · rw [if_neg haz] at h
      have hnz : ¬ ∀ j, j < k → zget c j i = 0 := fun hc => haz ((allzero_iff c i k).mpr hc)
      have hwf2 : CWF n L (linStep34 c i k) := CWF_linStep34 n L c i k hwf hkc
      obtain ⟨w1, w2, w3, w4, w5, w6⟩ := ih (linStep34 c i k) c1 h hwf2
      have hj0 : linChoose c i k ≤ k := linChoose_le c i k
      refine ⟨w1, ?_, w3, w4, ?_, ?_⟩
      · rw [w2, spanA_linStep34 mA c i k hkc
          (fun r hr => by rw [hwf.2 r hr]; exact hm)]
      · intro r hr
        rw [w5 r hr, linStep34_getD_gt c i k r hr]
      · intro col hcL hcol
        apply w6 col hcL
        have hswap : ∀ j2, j2 ≤ k → zget (zswap c (linChoose c i k) k) j2 col = 0 := by
          intro j2 hj2
          rw [zget_zswap c _ k j2 col (by omega) (by omega)]
          split_ifs with h3 h4
          · exact hcol _ (by omega)
          · exact hcol _ (by omega)
          · exact hcol j2 hj2
        intro j hj
        rw [zget_linStep34 n L c i k j col hwf (by omega) hcL hk]
        split_ifs with h2
        · rw [hswap j (by omega), hswap k (le_refl k)]
          ring
        · exact hswap j hj

end RustNT

namespace RustNT

theorem zget_eq_of_getD_eq (c c' : List (List ℤ)) (r col : ℕ)
    (h : c'.getD r [] = c.getD r []) : zget c' r col = zget c r col := by
  unfold zget; rw [h]

theorem ShapedFin_of_rows_eq (n m k : ℕ) (pc : ℕ → ℕ) (c c' : List (List ℤ))
    (hrows : ∀ r, k ≤ r → r < n → c'.getD r [] = c.getD r [])
    (h : ShapedFin n m k pc c) : ShapedFin n m k pc c' := by
  obtain ⟨h1, h2⟩ := h
  refine ⟨fun r hr1 hr2 => ?_, h2⟩
  obtain ⟨a1, a2, a3, a4⟩ := h1 r hr1 hr2
  refine ⟨a1, ?_, ?_, ?_⟩
  · rw [zget_eq_of_getD_eq c c' r (pc r) (hrows r hr1 hr2)]
    exact a2
  · intro col hc1 hc2
    rw [zget_eq_of_getD_eq c c' r col (hrows r hr1 hr2)]
    exact a3 col hc1 hc2
  · intro r2 hr21 hr22
    rw [zget_eq_of_getD_eq c c' r2 (pc r) (hrows r2 (by omega) hr22),
      zget_eq_of_getD_eq c c' r (pc r) (hrows r hr1 hr2)]
    exact a4 r2 hr21 hr22

theorem linStep5_getD_le (c : List (List ℤ)) (i k nn r : ℕ) (hr : r ≤ k) :
    (linStep5 c i k nn).getD r [] = c.getD r [] := by
  by_cases hrl : r < c.length
  · rw [linStep5_getD c i k nn r hrl, if_neg (by omega)]
  · rw [List.getD_eq_default _ _ (by rw [linStep5_length]; omega),
      List.getD_eq_default _ _ (by omega)]

theorem linOuter_succ (n innerFuel fuel : ℕ) (c : List (List ℤ)) (i k : ℕ) :
    linOuter n innerFuel (fuel + 1) c i k =
      match linInner innerFuel c i k with
      | none => none
      | some c1 =>
        let ck : List (List ℤ) × ℕ :=
          if zget c1 k i = 0 then (c1, k + 1) else (linStep5 c1 i k n, k)
        if ck.2 = 0 ∨ i = 0 then some ck
        else linOuter n innerFuel fuel ck.1 (i - 1) (ck.2 - 1) := rfl

end RustNT

namespace RustNT

theorem linOuter_spec (n L mA innerFuel : ℕ) (hm : mA ≤ L) :
    ∀ fuel i k (c c2 : List (List ℤ)) (k2 : ℕ) (pc : ℕ → ℕ),
      linOuter n innerFuel fuel c i k = some (c2, k2) →
      CWF n L c → i < mA → k < n →
      (∀ j col, j ≤ k → i < col → col < mA → zget c j col = 0) →
      ShapedFin n mA (k + 1) pc c →
      (∀ r, k + 1 ≤ r → r < n → i < pc r) →
      k2 ≤ n ∧ CWF n L c2 ∧ spanA mA c2 = spanA mA c ∧
      (∀ j col, j < k2 → col < mA → zget c2 j col = 0) ∧
      (∃ pc2, ShapedFin n mA k2 pc2 c2) := by
  intro fuel
  induction fuel with
  | zero =>
    intro i k c c2 k2 pc h
    exact absurd h (fun hc => Option.noConfusion hc)
  | succ fu ih =>
    intro i k c c2 k2 pc h hwf hi hk hinv hshape hpc
    rw [linOuter_succ] at h
    cases hinner : linInner innerFuel c i k with
    | none =>
      rw [hinner] at h
      exact absurd h (fun hc => Option.noConfusion hc)
    | some c1 =>
      rw [hinner] at h
      dsimp only at h
      obtain ⟨w1, w2, w3, w4, w5, w6⟩ :=
        linInner_spec n L mA i k hm hk (by omega) innerFuel c c1 hinner hwf
      have hinv1 : ∀ j col, j ≤ k → i < col → col < mA → zget c1 j col = 0 := by
        intro j col hj hic hcm
        exact w6 col (by omega) (fun j2 hj2 => hinv j2 col hj2 hic hcm) j hj
      have hshape1 : ShapedFin n mA (k + 1) pc c1 :=
        ShapedFin_of_rows_eq n mA (k + 1) pc c c1 (fun r hr1 _ => w5 r (by omega)) hshape
      by_cases hz : zget c1 k i = 0
      · -- Case A: the column has no pivot; k is incremented
        rw [if_pos hz] at h
        dsimp only at h
        have hAcol : ∀ j col, j ≤ k → i ≤ col → col < mA → zget c1 j col = 0 := by
          intro j col hj hic hcm
          rcases Nat.lt_or_ge i col with hlt | hge
          · exact hinv1 j col hj hlt hcm
          · have hcoli : col = i := by omega
            subst hcoli
            rcases Nat.lt_or_ge j k with hjk | hjk
            · exact w3 j hjk
            · have hjke : j = k := by omega
              subst hjke; exact hz
        by_cases hi0 : i = 0
        · rw [if_pos (Or.inr hi0 : k + 1 = 0 ∨ i = 0), Option.some_inj] at h
          have hc2 : c2 = c1 := ((Prod.ext_iff.mp h).1).symm
          have hk2 : k2 = k + 1 := ((Prod.ext_iff.mp h).2).symm
          subst hc2; subst hk2
          refine ⟨by omega, w1, w2, ?_, ⟨pc, hshape1⟩⟩
          intro j col hj hcm
          exact hAcol j col (by omega) (by omega) hcm
        · rw [if_neg (by omega : ¬ (k + 1 = 0 ∨ i = 0))] at h
          have hk1 : k + 1 - 1 = k := by omega
          rw [hk1] at h
          obtain ⟨o1, o2, o3, o4, o5⟩ := ih (i - 1) k c1 c2 k2 pc h w1 (by omega) hk
            (fun j col hj hic hcm => hAcol j col hj (by omega) hcm)
            hshape1
            (fun r hr1 hr2 => by have := hpc r hr1 hr2; omega)
          exact ⟨o1, o2, by rw [o3, w2], o4, o5⟩
      · -- Case B: pivot found at row k, column i
        rw [if_neg hz] at h
        dsimp only at h
        have hb : 0 < zget c1 k i := lt_of_le_of_ne w4 (Ne.symm hz)
        have hkc1 : k < c1.length := by rw [w1.1]; omega
        have hwf2 : CWF n L (linStep5 c1 i k n) := CWF_linStep5 n L c1 i k n w1 hkc1
        have hspan2 : spanA mA (linStep5 c1 i k n) = spanA mA c1 :=
          spanA_linStep5 mA c1 i k n hkc1 (fun r hr => by rw [w1.2 r hr]; exact hm)
        have hle : ∀ r, r ≤ k → (linStep5 c1 i k n).getD r [] = c1.getD r [] :=
          fun r hr => linStep5_getD_le c1 i k n r hr
        have hgt : ∀ r2 col, i < col → col < mA →
            zget (linStep5 c1 i k n) r2 col = zget c1 r2 col := by
          intro r2 col hic hcm
          by_cases hr2n : r2 < n
          · rw [zget_linStep5 n L c1 i k n r2 col w1 hr2n (by omega)]
            split_ifs with h2
            · rw [hinv1 k col (le_refl k) hic hcm]; ring
            · rfl
          · unfold zget
            have hd1 : (linStep5 c1 i k n).getD r2 [] = [] :=
              List.getD_eq_default _ _ (by rw [linStep5_length, w1.1]; omega)
            have hd2 : c1.getD r2 [] = [] :=
              List.getD_eq_default _ _ (by rw [w1.1]; omega)
            rw [hd1, hd2]
        have hbelow : ∀ r2, k < r2 → r2 < n →
            0 ≤ zget (linStep5 c1 i k n) r2 i ∧
              zget (linStep5 c1 i k n) r2 i < zget c1 k i := by
          intro r2 hr21 hr22
          rw [zget_linStep5 n L c1 i k n r2 i w1 hr22 (by omega)]
          rw [if_pos ⟨by omega, hr22⟩]
          have hbd := floorDivU_bounds (zget c1 r2 i) (zget c1 k i) hb
          have hcomm : zget c1 k i * floorDivU (zget c1 r2 i) (zget c1 k i)
              = floorDivU (zget c1 r2 i) (zget c1 k i) * zget c1 k i := mul_comm _ _
          rw [hcomm]
          exact hbd
        have hrowk : (linStep5 c1 i k n).getD k [] = c1.getD k [] := hle k (le_refl k)
        have hshapeB : ShapedFin n mA k (fun r => if r = k then i else pc r)
            (linStep5 c1 i k n) := by
          constructor
          · intro r hr1 hr2
            dsimp only
            by_cases hrk : r = k
            · subst hrk
              rw [if_pos rfl]
              refine ⟨hi, ?_, ?_, ?_⟩
              · rw [zget_eq_of_getD_eq c1 _ r i hrowk]; exact hb
              · intro col h1 h2
                rw [hgt r col h1 h2]
                exact hinv1 r col (le_refl r) h1 h2
              · intro r2 h1 h2
                have hbl := hbelow r2 h1 h2
                rw [zget_eq_of_getD_eq c1 _ r i hrowk]
                exact hbl
            · have hrk' : k + 1 ≤ r := by omega
              obtain ⟨a1, a2, a3, a4⟩ := hshape1.1 r hrk' hr2
              have hpcr : i < pc r := hpc r hrk' hr2
              rw [if_neg hrk]
              refine ⟨a1, ?_, ?_, ?_⟩
              · rw [hgt r (pc r) hpcr a1]; exact a2
              · intro col h1 h2
                rw [hgt r col (by omega) h2]
                exact a3 col h1 h2
              · intro r2 h1 h2
                rw [hgt r2 (pc r) hpcr a1, hgt r (pc r) hpcr a1]
                exact a4 r2 h1 h2
          · intro r hr1 hr2
            dsimp only
            by_cases hrk : r = k
            · subst hrk
              rw [if_pos rfl, if_neg (by omega : ¬ r + 1 = r)]
              exact hpc (r + 1) (le_refl _) hr2
            · rw [if_neg hrk, if_neg (by omega : ¬ r + 1 = k)]
              exact hshape1.2 r (by omega) hr2
        by_cases hex : k = 0 ∨ i = 0
        · rw [if_pos hex, Option.some_inj] at h
          have hc2 : c2 = linStep5 c1 i k n := ((Prod.ext_iff.mp h).1).symm
          have hk2 : k2 = k := ((Prod.ext_iff.mp h).2).symm
          subst hc2; subst hk2
          refine ⟨by omega, hwf2, by rw [hspan2, w2], ?_, ⟨_, hshapeB⟩⟩
          intro j col hj hcm
          by_cases hi0 : i = 0
          · rcases Nat.lt_or_ge i col with hlt | hge
            · rw [hgt j col hlt hcm]
              exact hinv1 j col (by omega) hlt hcm
            · have hcoli : col = i := by omega
              subst hcoli
              rw [zget_eq_of_getD_eq c1 _ j col (hle j (by omega))]
              exact w3 j hj
          · rcases hex with hk0 | hi0'
            · omega
            · exact absurd hi0' hi0
        · rw [if_neg hex] at h
          have hknz : k ≠ 0 := fun hc => hex (Or.inl hc)
          have hinz : i ≠ 0 := fun hc => hex (Or.inr hc)
          have hksub : k - 1 + 1 = k := by omega
          have harg1 : ∀ j col, j ≤ k - 1 → i - 1 < col → col < mA →
              zget (linStep5 c1 i k n) j col = 0 := by
            intro j col hj hic hcm
            rcases Nat.lt_or_ge i col with hlt | hge
            · rw [hgt j col hlt hcm]
              exact hinv1 j col (by omega) hlt hcm
            · have hcoli : col = i := by omega
              subst hcoli
              rw [zget_eq_of_getD_eq c1 _ j col (hle j (by omega))]
              exact w3 j (by omega)
          have harg2 : ShapedFin n mA (k - 1 + 1) (fun r => if r = k then i else pc r)
              (linStep5 c1 i k n) := by
            rw [hksub]
            exact hshapeB
          have harg3 : ∀ r, k - 1 + 1 ≤ r → r < n →
              i - 1 < (fun r => if r = k then i else pc r) r := by
            intro r hr1 hr2
            rw [hksub] at hr1
            dsimp only
            by_cases hrk : r = k
            · rw [if_pos hrk]; omega
            · rw [if_neg hrk]
              have := hpc r (by omega) hr2
              omega
          obtain ⟨o1, o2, o3, o4, o5⟩ := ih (i - 1) (k - 1) (linStep5 c1 i k n) c2 k2
            (fun r => if r = k then i else pc r) h hwf2 (by omega) (by omega)
            harg1 harg2 harg3
          exact ⟨o1, o2, by rw [o3, hspan2, w2], o4, o5⟩

end RustNT

namespace RustNT

theorem c0_length (a : List (List ℤ)) :
    ((List.range a.length).map fun j =>
      (a.getD j []) ++ (List.range a.length).map fun v => if v = j then (1 : ℤ) else 0).length
      = a.length := by
  simp

theorem c0_getD (a : List (List ℤ)) (j : ℕ) (hj : j < a.length) :
    ((List.range a.length).map fun j =>
      (a.getD j []) ++ (List.range a.length).map fun v => if v = j then (1 : ℤ) else 0).getD j []
      = (a.getD j []) ++ (List.range a.length).map fun v => if v = j then (1 : ℤ) else 0 :=
  getD_map_range [] _ a.length j hj

theorem CWF_c0 (a : List (List ℤ)) (m : ℕ) (hrect : ∀ r ∈ a, r.length = m) :
    CWF a.length (m + a.length)
      ((List.range a.length).map fun j =>
        (a.getD j []) ++ (List.range a.length).map fun v => if v = j then (1 : ℤ) else 0) := by
  refine ⟨c0_length a, fun r hr => ?_⟩
  obtain ⟨p, hp, hpr⟩ := List.mem_iff_getElem.mp hr
  rw [c0_length a] at hp
  have : ((List.range a.length).map fun j =>
      (a.getD j []) ++ (List.range a.length).map fun v => if v = j then (1 : ℤ) else 0).getD p []
      = r := by
    rw [List.getD_eq_getElem _ _ (by rw [c0_length]; exact hp), hpr]
  rw [c0_getD a p hp] at this
  rw [← this, List.length_append, List.length_map, List.length_range,
    hrect _ (zrows_getD_mem a p hp)]

theorem spanA_c0 (a : List (List ℤ)) (m : ℕ) (hrect : ∀ r ∈ a, r.length = m) :
    spanA m ((List.range a.length).map fun j =>
      (a.getD j []) ++ (List.range a.length).map fun v => if v = j then (1 : ℤ) else 0)
      = spanA m a := by
  apply le_antisymm
  · apply spanA_le
    intro r hr
    obtain ⟨p, hp, hpr⟩ := List.mem_iff_getElem.mp hr
    rw [c0_length a] at hp
    have hrow : ((List.range a.length).map fun j =>
        (a.getD j []) ++ (List.range a.length).map fun v => if v = j then (1 : ℤ) else 0).getD p []
        = r := by
      rw [List.getD_eq_getElem _ _ (by rw [c0_length]; exact hp), hpr]
    rw [c0_getD a p hp] at hrow
    rw [← hrow, rowVecA_append m _ _ (hrect _ (zrows_getD_mem a p hp))]
    exact mem_spanA_of_mem m a _ (zrows_getD_mem a p hp)
  · apply spanA_le
    intro r hr
    obtain ⟨p, hp, hpr⟩ := List.mem_iff_getElem.mp hr
    have hrg : r = a.getD p [] := by rw [List.getD_eq_getElem _ _ hp, hpr]
    have hmem : (a.getD p []) ++ ((List.range a.length).map fun v => if v = p then (1 : ℤ) else 0)
        ∈ ((List.range a.length).map fun j =>
          (a.getD j []) ++ (List.range a.length).map fun v => if v = j then (1 : ℤ) else 0) := by
      have := zrows_getD_mem ((List.range a.length).map fun j =>
        (a.getD j []) ++ (List.range a.length).map fun v => if v = j then (1 : ℤ) else 0) p
        (by rw [c0_length]; exact hp)
      rw [c0_getD a p hp] at this
      exact this
    have := mem_spanA_of_mem m _ _ hmem
    rw [rowVecA_append m _ _ (hrect _ (zrows_getD_mem a p hp))] at this
    rw [hrg]
    exact this

theorem w_length (c2 : List (List ℤ)) (k2 m : ℕ) :
    ((c2.drop k2).map (fun r => r.take m)).length = c2.length - k2 := by
  simp

theorem w_getD (c2 : List (List ℤ)) (k2 m r : ℕ) (hr : r < c2.length - k2) :
    ((c2.drop k2).map (fun r => r.take m)).getD r [] = (c2.getD (k2 + r) []).take m := by
  have h1 : r < (c2.drop k2).length := by simp; omega
  rw [List.getD_eq_getElem _ _ (by simpa using h1)]
  rw [List.getElem_map, List.getElem_drop]
  rw [List.getD_eq_getElem _ _ (by omega)]

theorem zget_w (c2 : List (List ℤ)) (k2 m r col : ℕ) (hr : r < c2.length - k2)
    (hcol : col < m) :
    zget ((c2.drop k2).map (fun r => r.take m)) r col = zget c2 (k2 + r) col := by
  unfold zget
  rw [w_getD c2 k2 m r hr, getD_take_of_lt _ m col hcol]

end RustNT

namespace RustNT

theorem spanA_w (m : ℕ) (c2 : List (List ℤ)) (k2 : ℕ)
    (hzero : ∀ j col, j < k2 → col < m → zget c2 j col = 0) :
    spanA m ((c2.drop k2).map (fun r => r.take m)) = spanA m c2 := by
  apply le_antisymm
  · apply spanA_le
    intro r hr
    obtain ⟨p, hp, hpr⟩ := List.mem_iff_getElem.mp hr
    rw [w_length] at hp
    have hrow : ((c2.drop k2).map (fun r => r.take m)).getD p [] = r := by
      rw [List.getD_eq_getElem _ _ (by rw [w_length]; exact hp), hpr]
    rw [w_getD c2 k2 m p hp] at hrow
    rw [← hrow, rowVecA_take]
    exact mem_spanA_of_mem m c2 _ (zrows_getD_mem c2 (k2 + p) (by omega))
  · apply spanA_le
    intro r hr
    obtain ⟨p, hp, hpr⟩ := List.mem_iff_getElem.mp hr
    have hrg : c2.getD p [] = r := by rw [List.getD_eq_getElem _ _ hp, hpr]
    by_cases hpk : p < k2
    · have hzr : rowVecA m r = 0 := by
        apply rowVecA_zero
        intro v hv
        have := hzero p v hpk hv
        unfold zget at this
        rw [hrg] at this
        exact this
      rw [hzr]
      exact zero_mem _
    · have hplt : p - k2 < c2.length - k2 := by omega
      have hrow : ((c2.drop k2).map (fun r => r.take m)).getD (p - k2) []
          = (c2.getD p []).take m := by
        have hidx : k2 + (p - k2) = p := by omega
        rw [w_getD c2 k2 m (p - k2) hplt, hidx]
      have hmem : (c2.getD p []).take m ∈ (c2.drop k2).map (fun r => r.take m) := by
        rw [← hrow]
        exact zrows_getD_mem _ (p - k2) (by rw [w_length]; exact hplt)
      have := mem_spanA_of_mem m _ _ hmem
      rw [rowVecA_take, hrg] at this
      exact this

/-- Claim C2: for a non-empty rectangular integer matrix with at least one
non-zero entry, `HNF::new` (when its loops complete within fuel) returns a
matrix in lower-triangular HNF shape — pivot columns strictly increasing,
each pivot positive, entries to the right of a pivot zero, entries below a
pivot (in the pivot's column) in `[0, pivot)` — whose rows generate the same
ℤ-submodule of `ℤ^m` as the rows of the input. -/
theorem hnfNew_shape_span (a w : List (List ℤ)) (m : ℕ)
    (hm : m = (a.getD 0 []).length)
    (hrect : ∀ r ∈ a, r.length = m)
    (hne : a ≠ [])
    (hnz : ∃ r ∈ a, ∃ x ∈ r, x ≠ 0)
    (hw : hnfNew a = some w) :
    (∀ r ∈ w, r.length = m) ∧
    (∃ pc : ℕ → ℕ,
      (∀ r, r + 1 < w.length → pc r < pc (r + 1)) ∧
      (∀ r, r < w.length → pc r < m ∧ 0 < zget w r (pc r) ∧
        (∀ col, pc r < col → col < m → zget w r col = 0) ∧
        (∀ r2, r < r2 → r2 < w.length →
          0 ≤ zget w r2 (pc r) ∧ zget w r2 (pc r) < zget w r (pc r)))) ∧
    spanA m w = spanA m a := by
  -- the matrix has at least one column and one row
  have hm1 : 1 ≤ m := by
    obtain ⟨r, hr, x, hx, _⟩ := hnz
    have h1 : r.length = m := hrect r hr
    have h2 : 0 < r.length := List.length_pos.mpr (fun hc => by subst hc; exact absurd hx (List.not_mem_nil x))
    omega
  have hn1 : 1 ≤ a.length := List.length_pos.mpr hne
  -- unfold hnfNew / hnfWithU
  unfold hnfNew hnfWithU at hw
  rw [if_neg hne] at hw
  dsimp only at hw
  rw [← hm] at hw
  cases houter : linOuter a.length 10000 (m + 1)
      ((List.range a.length).map fun j =>
        (a.getD j []) ++ (List.range a.length).map fun v => if v = j then (1 : ℤ) else 0)
      (m - 1) (a.length - 1) with
  | none =>
    rw [houter] at hw
    exact absurd hw (fun hc => Option.noConfusion hc)
  | some p =>
    obtain ⟨c2, k2⟩ := p
    rw [houter] at hw
    dsimp only at hw
    rw [Option.some_inj] at hw
    obtain ⟨o1, o2, o3, o4, o5⟩ := linOuter_spec a.length (m + a.length) m 10000
      (by omega) (m + 1) (m - 1) (a.length - 1)
      ((List.range a.length).map fun j =>
        (a.getD j []) ++ (List.range a.length).map fun v => if v = j then (1 : ℤ) else 0)
      c2 k2 (fun _ => 0) houter (CWF_c0 a m hrect) (by omega) (by omega)
      (fun j col hj hic hcm => absurd hcm (by omega))
      (by
        constructor
        · intro r hr1 hr2
          exact absurd hr2 (by omega)
        · intro r hr1 hr2
          exact absurd hr2 (by omega))
      (fun r hr1 hr2 => absurd hr2 (by omega))
    obtain ⟨pc2, hpc2⟩ := o5
    have hlen2 : c2.length = a.length := o2.1
    -- the three conclusions
    refine ⟨?_, ?_, ?_⟩
    · -- rows of w have length m
      intro r hr
      rw [← hw] at hr
      obtain ⟨p, hp, hpr⟩ := List.mem_iff_getElem.mp hr
      rw [w_length] at hp
      have hrow : ((c2.drop k2).map (fun r => r.take m)).getD p [] = r := by
        rw [List.getD_eq_getElem _ _ (by rw [w_length]; exact hp), hpr]
      rw [w_getD c2 k2 m p hp] at hrow
      rw [← hrow, List.length_take, o2.2 _ (zrows_getD_mem c2 (k2 + p) (by omega))]
      omega
    · -- HNF shape with pivot function shifted by k2
      refine ⟨fun r => pc2 (k2 + r), ?_, ?_⟩
      · intro r hr
        dsimp only
        rw [← hw, w_length] at hr
        have hstep := hpc2.2 (k2 + r) (by omega) (by omega)
        have harith : k2 + (r + 1) = k2 + r + 1 := by omega
        rw [harith]
        exact hstep
      · intro r hr
        dsimp only
        rw [← hw, w_length] at hr
        obtain ⟨a1, a2, a3, a4⟩ := hpc2.1 (k2 + r) (by omega) (by omega)
        rw [← hw]
        refine ⟨a1, ?_, ?_, ?_⟩
        · rw [zget_w c2 k2 m r _ (by omega) a1]
          exact a2
        · intro col h1 h2
          rw [zget_w c2 k2 m r col (by omega) h2]
          exact a3 col h1 h2
        · intro r2 h1 h2
          rw [w_length] at h2
          rw [zget_w c2 k2 m r2 _ (by omega) a1, zget_w c2 k2 m r _ (by omega) a1]
          exact a4 (k2 + r2) (by omega) (by omega)
    · -- span equality
      rw [← hw, spanA_w m c2 k2 o4, o3, spanA_c0 a m hrect]

end RustNT

namespace RustNT

/-- Witness: the repo's own test matrix `[[3,1],[1,1]]`, whose HNF is
`[[2,0],[1,1]]`; all hypotheses of the claim theorem hold and are discharged
concretely. -/
theorem hnfNew_shape_span_witness :
    hnfNew [[3, 1], [1, 1]] = some [[2, 0], [1, 1]] ∧
    ((∀ r ∈ ([[2, 0], [1, 1]] : List (List ℤ)), r.length = 2) ∧
      (∃ pc : ℕ → ℕ,
        (∀ r, r + 1 < ([[2, 0], [1, 1]] : List (List ℤ)).length → pc r < pc (r + 1)) ∧
        (∀ r, r < ([[2, 0], [1, 1]] : List (List ℤ)).length → pc r < 2 ∧
          0 < zget [[2, 0], [1, 1]] r (pc r) ∧
          (∀ col, pc r < col → col < 2 → zget [[2, 0], [1, 1]] r col = 0) ∧
          (∀ r2, r < r2 → r2 < ([[2, 0], [1, 1]] : List (List ℤ)).length →
            0 ≤ zget [[2, 0], [1, 1]] r2 (pc r) ∧
              zget [[2, 0], [1, 1]] r2 (pc r) < zget [[2, 0], [1, 1]] r (pc r)))) ∧
      spanA 2 [[2, 0], [1, 1]] = spanA 2 [[3, 1], [1, 1]]) :=
  ⟨by decide,
    hnfNew_shape_span [[3, 1], [1, 1]] [[2, 0], [1, 1]] 2 rfl
      (by decide) (by decide) (by decide) (by decide)⟩

end RustNT


namespace RustNT

theorem isPoly_polyModF (f : List ℤ) (p : ℤ) : IsPoly (polyModF f p) := by
  unfold polyModF
  split_ifs with h
  · subst h
    intro x hx
    simp at hx
  · exact isPoly_fromRaw _

theorem fmod_two_cases (x : ℤ) : x.fmod 2 = 0 ∨ x.fmod 2 = 1 := by
  rw [Int.fmod_eq_emod x (by norm_num)]
  omega

theorem fmod_two_of_not_dvd (c : ℤ) (h : ¬ (2 : ℤ) ∣ c) : c.fmod 2 = 1 := by
  rw [Int.fmod_eq_emod c (by norm_num)]
  omega

theorem toPoly_polyPowZ (g : List ℤ) : ∀ e : ℕ, toPoly (polyPowZ g e) = toPoly g ^ e
  | 0 => by rw [polyPowZ, toPoly_one, pow_zero]
  | e + 1 => by rw [polyPowZ, toPoly_polyMul, toPoly_polyPowZ g e, pow_succ]

theorem prodFold_toPoly : ∀ (fl : List (List ℤ × ℕ)) (acc : List ℤ),
    toPoly (fl.foldl (fun acc ge => polyMul acc (polyPowZ ge.1 ge.2)) acc)
      = toPoly acc * (fl.map (fun ge => toPoly ge.1 ^ ge.2)).prod
  | [], acc => by simp
  | ge :: rest, acc => by
    rw [List.foldl_cons, prodFold_toPoly rest, toPoly_polyMul, toPoly_polyPowZ,
      List.map_cons, List.prod_cons]
    ring

theorem prod_monic_natDegree (l : List (List ℤ × ℕ))
    (h : ∀ ge ∈ l, ge.1 ≠ [] ∧ coeff ge.1 (ge.1.length - 1) = 1) :
    ((l.map (fun ge => toPoly ge.1 ^ ge.2)).prod).Monic ∧
    ((l.map (fun ge => toPoly ge.1 ^ ge.2)).prod).natDegree
      = (l.map (fun ge => ge.2 * (ge.1.length - 1))).sum := by
  induction l with
  | nil => simpa using Polynomial.monic_one
  | cons ge rest ih =>
    obtain ⟨h1, h2⟩ := h ge (List.mem_cons_self _ _)
    obtain ⟨m1, d1⟩ := ih (fun x hx => h x (List.mem_cons_of_mem _ hx))
    have hm : ((toPoly ge.1) ^ ge.2).Monic := (toPoly_monic h1 h2).pow ge.2
    constructor
    · rw [List.map_cons, List.prod_cons]
      exact hm.mul m1
    · rw [List.map_cons, List.prod_cons, hm.natDegree_mul m1, Polynomial.natDegree_pow,
        toPoly_natDegree (isPoly_of_monic h1 h2) h1, d1, List.map_cons, List.sum_cons]

/-- The contract of `factorize_mod_p` at the one call the example family
reaches (`f = x + 1`, `p = 2`) forces the output `[(x + 1, 1)]`: the product
congruence pins the total degree to 1 and the reduced monic coefficients. -/
theorem specFactors_forced (fl : List (List ℤ × ℕ))
    (h : SpecFactorsModP [1, 1] 2 fl) : fl = [([1, 1], 1)] := by
  obtain ⟨hall, c, hc, heq⟩ := h
  have hcond : ∀ ge ∈ fl, ge.1 ≠ [] ∧ coeff ge.1 (ge.1.length - 1) = 1 := by
    intro ge hge
    obtain ⟨hred, hlen, he⟩ := hall ge hge
    have hne : ge.1 ≠ [] := by
      intro hc2
      rw [hc2] at hlen
      simp at hlen
    refine ⟨hne, ?_⟩
    have hredc : ∀ n, coeff ge.1 n = (coeff ge.1 n).fmod 2 := by
      intro n
      conv_lhs => rw [← hred, coeff_polyModF]
    have hred2 := hredc (ge.1.length - 1)
    have hpoly : IsPoly ge.1 := by rw [← hred]; exact isPoly_polyModF ge.1 2
    have hnz := isPoly_coeff_ne hpoly hne
    rcases fmod_two_cases (coeff ge.1 (ge.1.length - 1)) with h0 | h1
    · exact absurd (hred2.trans h0) hnz
    · exact hred2.trans h1
  have hPtoPoly : toPoly (fl.foldl (fun acc ge => polyMul acc (polyPowZ ge.1 ge.2)) [1])
      = (fl.map (fun ge => toPoly ge.1 ^ ge.2)).prod := by
    rw [prodFold_toPoly, toPoly_one, one_mul]
  obtain ⟨hmon, hdeg⟩ := prod_monic_natDegree fl hcond
  -- congruence between the product and c * (x + 1)
  have hcong : PolyCong 2 (fl.foldl (fun acc ge => polyMul acc (polyPowZ ge.1 ge.2)) [1])
      (polyMulS [1, 1] c) := by
    intro n
    have e1 := polyCong_polyModF (fl.foldl (fun acc ge => polyMul acc (polyPowZ ge.1 ge.2)) [1]) 2 n
    have e2 := polyCong_polyModF (polyMulS [1, 1] c) 2 n
    rw [heq] at e1
    omega
  -- map both to (ZMod 2)[X]
  obtain ⟨k, hk⟩ := (polyCong_iff 2 _ _).mp hcong
  have hmap : (toPoly (fl.foldl (fun acc ge => polyMul acc (polyPowZ ge.1 ge.2)) [1])).map
        (Int.castRingHom (ZMod 2))
      = (toPoly (polyMulS [1, 1] c)).map (Int.castRingHom (ZMod 2)) := by
    have hX : toPoly (fl.foldl (fun acc ge => polyMul acc (polyPowZ ge.1 ge.2)) [1])
        = toPoly (polyMulS [1, 1] c) + Polynomial.C 2 * k := by
      rw [← hk]; ring
    rw [hX, Polynomial.map_add, Polynomial.map_mul, Polynomial.map_C]
    have h2 : (Int.castRingHom (ZMod 2)) 2 = 0 := by decide
    rw [h2]
    simp
  -- degrees of both sides
  have honeone_mon : (toPoly [(1 : ℤ), 1]).Monic := toPoly_monic (by decide) (by decide)
  have honeone_deg : (toPoly [(1 : ℤ), 1]).natDegree = 1 :=
    toPoly_natDegree (isPoly_of_monic (by decide) (by decide)) (by decide)
  have hcne : ((c : ZMod 2)) ≠ 0 := by
    intro h0
    exact hc (by exact_mod_cast (ZMod.intCast_zmod_eq_zero_iff_dvd c 2).mp h0)
  have hdegR : ((toPoly (polyMulS [1, 1] c)).map (Int.castRingHom (ZMod 2))).natDegree = 1 := by
    rw [toPoly_polyMulS, Polynomial.map_mul, Polynomial.map_C]
    have hC : Polynomial.C ((Int.castRingHom (ZMod 2)) c) ≠ 0 := Polynomial.C_ne_zero.mpr hcne
    have hM : (toPoly [(1 : ℤ), 1]).map (Int.castRingHom (ZMod 2)) ≠ 0 :=
      (honeone_mon.map (Int.castRingHom (ZMod 2))).ne_zero
    rw [Polynomial.natDegree_mul hM hC, honeone_mon.natDegree_map, honeone_deg,
      Polynomial.natDegree_C]
  have hmonP : (toPoly (fl.foldl (fun acc ge => polyMul acc (polyPowZ ge.1 ge.2)) [1])).Monic := by
    rw [hPtoPoly]; exact hmon
  have hdegL :
      ((toPoly (fl.foldl (fun acc ge => polyMul acc (polyPowZ ge.1 ge.2)) [1])).map
        (Int.castRingHom (ZMod 2))).natDegree
      = (fl.map (fun ge => ge.2 * (ge.1.length - 1))).sum := by
    rw [hmonP.natDegree_map, hPtoPoly, hdeg]
  have hsum : (fl.map (fun ge => ge.2 * (ge.1.length - 1))).sum = 1 := by
    rw [← hdegL, hmap, hdegR]
  -- the sum of positive terms being 1 forces a single factor of degree 1
  rcases fl with _ | ⟨ge, rest⟩
  · simp at hsum
  · have hterm : 1 ≤ ge.2 * (ge.1.length - 1) := by
      obtain ⟨_, hlen, he⟩ := hall ge (List.mem_cons_self _ _)
      have : 1 ≤ ge.1.length - 1 := by omega
      calc 1 = 1 * 1 := by omega
      _ ≤ ge.2 * (ge.1.length - 1) := Nat.mul_le_mul he this
    have hrest : rest = [] := by
      rcases rest with _ | ⟨ge2, rest2⟩
      · rfl
      · exfalso
        have hterm2 : 1 ≤ ge2.2 * (ge2.1.length - 1) := by
          obtain ⟨_, hlen, he⟩ := hall ge2 (List.mem_cons_of_mem _ (List.mem_cons_self _ _))
          have : 1 ≤ ge2.1.length - 1 := by omega
          calc 1 = 1 * 1 := by omega
          _ ≤ ge2.2 * (ge2.1.length - 1) := Nat.mul_le_mul he this
        rw [List.map_cons, List.map_cons, List.sum_cons, List.sum_cons] at hsum
        omega
    subst hrest
    obtain ⟨gl, gee⟩ := ge
    rw [List.map_cons, List.map_nil, List.sum_cons, List.sum_nil] at hsum
    obtain ⟨hred, hlen, he⟩ := hall (gl, gee) (List.mem_cons_self _ _)
    obtain ⟨hne2, hlc⟩ := hcond (gl, gee) (List.mem_cons_self _ _)
    simp only at hsum hred hlen he hne2 hlc
    -- gee * (deg gl) = 1 forces gee = 1 and gl of length 2
    have he1 : gee = 1 ∧ gl.length = 2 := by
      have hd1 : gl.length - 1 ≤ gee * (gl.length - 1) := by
        calc gl.length - 1 = 1 * (gl.length - 1) := by omega
        _ ≤ gee * (gl.length - 1) := Nat.mul_le_mul he (le_refl _)
      have he2 : gee ≤ gee * (gl.length - 1) := by
        calc gee = gee * 1 := by omega
        _ ≤ gee * (gl.length - 1) := Nat.mul_le_mul (le_refl _) (by omega)
      omega
    obtain ⟨hg2, hGlen⟩ := he1
    subst hg2
    -- destructure gl = [g0, 1]
    rcases gl with _ | ⟨g0, _ | ⟨g1, _ | ⟨g2, gt⟩⟩⟩ <;> simp at hGlen
    have hg1 : g1 = 1 := by simpa [coeff] using hlc
    subst hg1
    have hg0 : g0 = 0 ∨ g0 = 1 := by
      have hc0 : coeff [g0, (1 : ℤ)] 0 = (coeff [g0, (1 : ℤ)] 0).fmod 2 := by
        conv_lhs => rw [← hred, coeff_polyModF]
      simp only [coeff, List.getD] at hc0
      rcases fmod_two_cases g0 with h0 | h0
      · exact Or.inl (hc0.trans h0)
      · exact Or.inr (hc0.trans h0)
    rcases hg0 with hg0 | hg0
    · -- g0 = 0 contradicts the congruence at the constant coefficient
      exfalso
      subst hg0
      have hL : polyModF (List.foldl (fun acc ge => polyMul acc (polyPowZ ge.1 ge.2)) [1]
          [(([0, 1] : List ℤ), 1)]) 2 = [0, 1] := by decide
      rw [hL] at heq
      have h0 := congrArg (fun l => coeff l 0) heq
      simp only [coeff_polyModF, coeff_polyMulS] at h0
      have h1 : coeff [(0 : ℤ), 1] 0 = 0 := rfl
      have h2 : coeff [(1 : ℤ), 1] 0 = 1 := rfl
      rw [h1, h2, one_mul] at h0
      rw [fmod_two_of_not_dvd c hc] at h0
      exact absurd h0.symm one_ne_zero
    · subst hg0
      rfl

end RustNT

namespace RustNT

/-- The closed prefix of the pipeline on `(x+1)^7` reaches the single
`factorize_mod_p` call at the squarefree part `x + 1` with `p = 2`,
`p^e = 8`. -/
theorem factorizePolyZ_p7_eq (fmp : List ℤ → ℤ → ℕ → List (List ℤ × ℕ)) :
    factorizePolyZ fmp [1, 7, 21, 35, 35, 21, 7, 1]
      = factorizeTail [1, 7, 21, 35, 35, 21, 7, 1] 1
          (gfsCore [1, 1] 2 3 8 (fmp [1, 1] 2 2)) := by with_unfolding_all rfl

theorem factorizePolyZ_p6_eq (fmp : List ℤ → ℤ → ℕ → List (List ℤ × ℕ)) :
    factorizePolyZ fmp [1, 6, 15, 20, 15, 6, 1]
      = factorizeTail [1, 6, 15, 20, 15, 6, 1] 1
          (gfsCore [1, 1] 2 3 8 (fmp [1, 1] 2 2)) := by with_unfolding_all rfl

/-- Claim C10 amended: on the claim's own monic example family the
multiplicity guard behaves as claimed, for every output of the absent
randomized `factorize_mod_p` satisfying its contract at the one reached
call: `factorize((x+1)^7)` aborts at `assert!(e <= 5)` and
`factorize((x+1)^6)` returns `(1, [(x+1, 6)])`. -/
theorem factorize_multiplicity_guard_amended
    (fmp : List ℤ → ℤ → ℕ → List (List ℤ × ℕ))
    (h : SpecFactorsModP [1, 1] 2 (fmp [1, 1] 2 2)) :
    factorizePolyZ fmp [1, 7, 21, 35, 35, 21, 7, 1] = none ∧
    factorizePolyZ fmp [1, 6, 15, 20, 15, 6, 1] = some (1, [([1, 1], 6)]) := by
  have hfl : fmp [1, 1] 2 2 = [([1, 1], 1)] := specFactors_forced _ h
  constructor
  · rw [factorizePolyZ_p7_eq, hfl]
    with_unfolding_all decide
  · rw [factorizePolyZ_p6_eq, hfl]
    with_unfolding_all decide

/-- Witness for the amended claim: the constant oracle returning the unique
contract-conforming factorization `[(x+1, 1)]` of `x + 1` mod 2. -/
theorem factorize_multiplicity_guard_amended_witness :
    SpecFactorsModP [1, 1] 2 ((fun _ _ _ => [([1, 1], 1)]) ([1, 1] : List ℤ) (2 : ℤ) 2) ∧
    (factorizePolyZ (fun _ _ _ => [([1, 1], 1)]) [1, 7, 21, 35, 35, 21, 7, 1] = none ∧
     factorizePolyZ (fun _ _ _ => [([1, 1], 1)]) [1, 6, 15, 20, 15, 6, 1]
       = some (1, [([1, 1], 6)])) :=
  ⟨⟨by decide, 1, by decide, by decide⟩,
    factorize_multiplicity_guard_amended (fun _ _ _ => [([1, 1], 1)])
      ⟨by decide, 1, by decide, by decide⟩⟩

/-- Claim C10 counterexample: `6x² + 7x + 2 = (2x+1)(3x+2)` is primitive
with no irreducible factor of multiplicity ≥ 7 (indeed none of multiplicity
≥ 2), yet `factorize` aborts — `get_factors_of_squarefree` asserts the
squarefree part monic (`assert_eq!` at poly_z/mod.rs line 49) before the
multiplicity loop is ever reached, so the input is not factored and
returned normally.  The abort happens before the `factorize_mod_p` call,
so the oracle argument is irrelevant (here instantiated with the constant
empty function). -/
theorem factorize_claim_counterexample :
    factorizePolyZ (fun _ _ _ => []) [2, 7, 6] = none ∧
    specContent [2, 7, 6] = 1 ∧
    ¬ ∃ q : Polynomial ℤ, 1 ≤ q.natDegree ∧ q ^ 7 ∣ toPoly [2, 7, 6] := by
  refine ⟨by decide, by decide, ?_⟩
  rintro ⟨q, hq, hdvd⟩
  have hip : IsPoly [(2 : ℤ), 7, 6] := by
    rw [isPoly_iff_getLast]
    decide
  have hne : toPoly [(2 : ℤ), 7, 6] ≠ 0 := toPoly_ne_zero hip (by decide)
  have hdeg := Polynomial.natDegree_le_of_dvd hdvd hne
  rw [Polynomial.natDegree_pow, toPoly_natDegree hip (by decide)] at hdeg
  have hl2 : ([(2 : ℤ), 7, 6] : List ℤ).length - 1 = 2 := rfl
  rw [hl2] at hdeg
  omega

/-- The abort on the non-monic input does not depend on the back-end: the
`assert_eq!(lc == 1)` fires before `factorize_mod_p` is consulted. -/
theorem factorize_nonmonic_abort (fmp : List ℤ → ℤ → ℕ → List (List ℤ × ℕ)) :
    factorizePolyZ fmp [2, 7, 6] = none := rfl

/-- The embedding reproduces the repo's unit tests `factorize_works_1`
(`x²+2x+1 = (x+1)²`) and `factorize_works_2` (`2x²+4x+2 = 2(x+1)²`), whose
runs reach the same forced oracle call, and `factorize_works_0`
(`x²+2x-3 = (x+3)(x-1)`, via the mod-3 factorization `x(x+2)` supplied in
either order), which exercises the two-factor Hensel lift and the
recombination search. -/
theorem factorize_matches_repo_tests :
    (∀ fmp : List ℤ → ℤ → ℕ → List (List ℤ × ℕ),
      SpecFactorsModP [1, 1] 2 (fmp [1, 1] 2 2) →
      factorizePolyZ fmp [1, 2, 1] = some (1, [([1, 1], 2)]) ∧
      factorizePolyZ fmp [2, 4, 2] = some (2, [([1, 1], 2)])) ∧
    factorizePolyZ (fun _ _ _ => [([0, 1], 1), ([2, 1], 1)]) [-3, 2, 1]
      = some (1, [([3, 1], 1), ([-1, 1], 1)]) ∧
    factorizePolyZ (fun _ _ _ => [([2, 1], 1), ([0, 1], 1)]) [-3, 2, 1]
      = some (1, [([-1, 1], 1), ([3, 1], 1)]) := by
  refine ⟨?_, by with_unfolding_all decide, by with_unfolding_all decide⟩
  intro fmp h
  have hfl : fmp [1, 1] 2 2 = [([1, 1], 1)] := specFactors_forced _ h
  have h1 : factorizePolyZ fmp [1, 2, 1]
      = factorizeTail [1, 2, 1] 1 (gfsCore [1, 1] 2 3 8 (fmp [1, 1] 2 2)) := by
    with_unfolding_all rfl
  have h2 : factorizePolyZ fmp [2, 4, 2]
      = factorizeTail [1, 2, 1] 2 (gfsCore [1, 1] 2 3 8 (fmp [1, 1] 2 2)) := by
    with_unfolding_all rfl
  rw [h1, h2, hfl]
  exact ⟨by with_unfolding_all decide, by with_unfolding_all decide⟩

end RustNT
